import Mathlib

/-!
Nami: the AMI message codec (`src/message/message.js`)

A shallow embedding of `Message`, `Message.prototype.set`, `Message.prototype.get`,
`Message.prototype.marshall` and `Message.prototype.unmarshall`, and theorems about them.

Modelling decisions.

* A JavaScript string is the list of its UTF-16 code units (`Str`).
* A `Message` object is the list of its own properties in creation order. The
  inherited properties are fixed: `Message.prototype` carries the enumerable methods
  `marshall`, `unmarshall`, `set`, `get`; `Object.prototype` carries only
  non-enumerable properties, among them `hasOwnProperty` and the accessor `__proto__`.
* `set` is used with string values (its documented parameter type), so an own
  property holds a string, the array of lines, or the `variables` object.
* `String.prototype.toLowerCase` is a parameter of `unmarshall`: the Unicode case
  tables are not part of this repository.
* A raised `TypeError` is an explicit outcome.
* A method is a function of its receiver. The calls a method makes on `this`
  (`this.set`, `this.hasOwnProperty`) are looked up on the message, where an own
  property of that name hides the inherited method; `callSet` and `callGet` are the
  same lookup for a call made on a message from outside.
-/

namespace Nami

/-! ## Strings -/

/-- A JavaScript string, as its sequence of UTF-16 code units. -/
abbrev Str := List Nat

/-- The code units of a literal (used for ASCII literals of the source). -/
def js (s : String) : Str := s.toList.map Char.toNat

/-- The delimiter stored by the constructor in `this.EOL`: carriage return, line feed. -/
def CRLF : Str := [13, 10]

/-- The marker `--END COMMAND--` tested on source line 89. -/
def END_COMMAND : Str := js "--END COMMAND--"

/-- The colon, code unit 58. -/
def COLON : Str := [58]

/-- The method `Array.prototype.join(sep)` on an array of strings. -/
def join (sep : Str) : List Str → Str
  | [] => []
  | [x] => x
  | x :: y :: ys => x ++ sep ++ join sep (y :: ys)

/-- Scanning loop of `String.prototype.split` for a non-empty separator: `skip` counts
the code units of a matched separator still to be passed over, `cur` is the piece
being collected. -/
def splitGo (sep : Str) : Nat → Str → Str → List Str
  | _, cur, [] => [cur]
  | skip + 1, cur, _ :: cs => splitGo sep skip cur cs
  | 0, cur, c :: cs =>
    if sep.isPrefixOf (c :: cs) then cur :: splitGo sep (sep.length - 1) [] cs
    else splitGo sep 0 (cur ++ [c]) cs

/-- The method `String.prototype.split(sep)` for a string separator: an empty separator splits
into single code units, any other separator at its successive occurrences. -/
def split (sep : Str) (s : Str) : List Str :=
  if sep = [] then s.map (fun c => [c]) else splitGo sep 0 [] s

/-- The method `String.prototype.indexOf(needle)`: position of the first occurrence, `none`
standing for `-1`. -/
def indexOf (needle : Str) : Str → Option Nat
  | [] => if needle = [] then some 0 else none
  | c :: cs =>
    if needle.isPrefixOf (c :: cs) then some 0 else (indexOf needle cs).map (· + 1)

/-- The call `s.replace(needle, "")` for a string pattern: the first occurrence is
removed. -/
def removeFirst (needle : Str) (s : Str) : Str :=
  match indexOf needle s with
  | none => s
  | some i => s.take i ++ s.drop (i + needle.length)

/-- The code units matched by `\s` in a regular expression (ECMAScript `WhiteSpace`
and `LineTerminator`). -/
def isSpace (c : Nat) : Bool :=
  c = 9 || c = 10 || c = 11 || c = 12 || c = 13 || c = 32 || c = 160 || c = 5760 ||
  (8192 ≤ c && c ≤ 8202) || c = 8232 || c = 8233 || c = 8239 || c = 8287 ||
  c = 12288 || c = 65279

/-- The call `s.replace(/^\s+/g, '')`: the leading run of whitespace is removed. -/
def trimStart (s : Str) : Str := s.dropWhile isSpace

/-- The call `s.replace(/\s+$/g, '')`: the trailing run of whitespace is removed. -/
def trimEnd (s : Str) : Str := (s.reverse.dropWhile isSpace).reverse

/-- The value argument of source line 111:
`value.replace(/^\s+/g, '').replace(/\s+$/g, '')`. -/
def trim (s : Str) : Str := trimEnd (trimStart s)

/-- The `replace` of source line 110, whose pattern is a single hyphen without the
`g` flag: only the first hyphen (code unit 45) becomes an underscore (code unit 95). -/
def replaceFirstHyphen : Str → Str
  | [] => []
  | c :: cs => if c = 45 then 95 :: cs else c :: replaceFirstHyphen cs

/-- An instance of the case mapping for evaluating ASCII examples: `A`-`Z` go to
`a`-`z`, every other code unit is kept, as `toLowerCase` does on ASCII text. -/
def lowerAscii (s : Str) : Str := s.map (fun c => if 65 ≤ c ∧ c ≤ 90 then c + 32 else c)

/-! ## Objects -/

/-- What an own property of a message holds. -/
inductive Value where
  | str (s : Str)
  | arr (xs : List Str)
  | obj (entries : List (Str × Str))
  deriving DecidableEq, Repr

/-- The conversion `ToString` of a property value, as applied by the `+` of source
lines 50 and 55. -/
def Value.toStr : Value → Str
  | .str s => s
  | .arr xs => join (js ",") xs
  | .obj _ => js "[object Object]"

/-- Own-property lookup in a property list. -/
def lookupProp {α : Type} (k : Str) : List (Str × α) → Option α
  | [] => none
  | (k', v) :: ps => if k' = k then some v else lookupProp k ps

/-- Assignment `o[k] = v` on a property list: an existing property keeps its place,
a new one is created last. -/
def assign {α : Type} (k : Str) (v : α) : List (Str × α) → List (Str × α)
  | [] => [(k, v)]
  | (k', v') :: ps => if k' = k then (k', v) :: ps else (k', v') :: assign k v ps

/-- The decimal digits of a number, as code units. -/
def digitsOf (n : Nat) : Str := (Nat.toDigits 10 n).map Char.toNat

/-- The array index a property name denotes, if any: the name is the canonical decimal
form of a number below `2^32 - 1`. -/
def arrayIndex (k : Str) : Option Nat :=
  let n := k.foldl (fun acc d => 10 * acc + (d - 48)) 0
  if k ≠ [] ∧ k.all (fun d => 48 ≤ d && d ≤ 57) ∧ (k.head? ≠ some 48 ∨ k.length = 1)
      ∧ n < 2 ^ 32 - 1 then some n
  else none

/-- Insertion of a key into a list of index keys sorted by number. -/
def insertIndexKey (n : Nat) (k : Str) : List (Nat × Str) → List (Nat × Str)
  | [] => [(n, k)]
  | (n', k') :: rest =>
    if n ≤ n' then (n, k) :: (n', k') :: rest else (n', k') :: insertIndexKey n k rest

/-- The array-index names among `ks`, in ascending numeric order. -/
def indexKeys : List Str → List (Nat × Str)
  | [] => []
  | k :: ks =>
    match arrayIndex k with
    | some n => insertIndexKey n k (indexKeys ks)
    | none => indexKeys ks

/-- The own property names `ks` (given in creation order) in the order `for (key in o)`
visits them: array-index names in ascending numeric order, then the other names in
creation order. -/
def ownKeys (ks : List Str) : List Str :=
  (indexKeys ks).map Prod.snd ++ ks.filter (fun k => (arrayIndex k).isNone)

/-- A `Message` object: its own properties in creation order. -/
structure Message where
  props : List (Str × Value)
  deriving DecidableEq, Repr

/-- The constructor `function Message()` (source lines 30-34). -/
def Message.new : Message :=
  ⟨[(js "lines", .arr []), (js "EOL", .str CRLF), (js "variables", .obj [])]⟩

/-- Own-property lookup on a message. -/
def Message.own (m : Message) (k : Str) : Option Value := lookupProp k m.props

/-- The method `Message.prototype.set` (source lines 122-124): `this[name] = value`. The name
`__proto__` reaches the inherited setter of `Object.prototype`, which ignores a
string; any other name updates or creates an own property. -/
def Message.set (m : Message) (name : Str) (value : Str) : Message :=
  if name = js "__proto__" then m else ⟨assign name (.str value) m.props⟩

/-- The assignment `m.variables[key] = value` by which callers fill the Variables
mapping (the source has no method for it): it acts on the object held by `variables`,
and is ignored when the name is `__proto__` or when `variables` holds a string. -/
def Message.setVariable (m : Message) (key : Str) (value : Str) : Message :=
  match m.own (js "variables") with
  | some (.obj es) =>
    if key = js "__proto__" then m
    else ⟨assign (js "variables") (.obj (assign key value es)) m.props⟩
  | _ => m

/-! ## marshall -/

/-- The enumerable methods of `Message.prototype`, in definition order. -/
def protoMethods : List Str := [js "marshall", js "unmarshall", js "set", js "get"]

/-- The names visited by `for (key in this)` (source line 44): the own names, then the
inherited enumerable names that are not shadowed. -/
def forInKeys (m : Message) : List Str :=
  ownKeys (m.props.map Prod.fst) ++ protoMethods.filter (fun k => (m.own k).isNone)

/-- The text of `this.EOL`: `ToString` of the own property, `undefined` when absent. -/
def Message.eolText (m : Message) : Str :=
  match m.own (js "EOL") with
  | some v => v.toStr
  | none => js "undefined"

/-- The first loop of `marshall` (source lines 44-53) over the names still to visit,
`output` being the text built so far. `this.hasOwnProperty` is looked up on the
message: an own property of that name is not callable and the call raises `TypeError`
(`none`). Own properties never hold functions, so the `typeof` test passes for them. -/
def marshallFields (m : Message) : List Str → Str → Option Str
  | [], output => some output
  | key :: keys, output =>
    if key = js "variables" then marshallFields m keys output
    else if (m.own (js "hasOwnProperty")).isSome then none
    else
      match m.own key with
      | some v =>
        if key ≠ js "lines" ∧ key ≠ js "EOL" then
          marshallFields m keys (output ++ key ++ js ": " ++ v.toStr ++ m.eolText)
        else marshallFields m keys output
      | none => marshallFields m keys output

/-- The pairs visited by `for (key in this.variables)` with `this.variables[key]` as
text: the entries of the mapping in enumeration order; the indexed code units when
`variables` holds a string; the elements when it holds an array. -/
def variableEntries : Option Value → List (Str × Str)
  | some (.obj es) =>
    (ownKeys (es.map Prod.fst)).map (fun k => (k, (lookupProp k es).getD (js "undefined")))
  | some (.str s) => s.enum.map (fun p => (digitsOf p.1, [p.2]))
  | some (.arr xs) => xs.enum.map (fun p => (digitsOf p.1, p.2))
  | none => []

/-- The second loop of `marshall` (source lines 54-56). -/
def marshallVariables (eol : Str) : List (Str × Str) → Str → Str
  | [], output => output
  | (key, v) :: rest, output =>
    marshallVariables eol rest (output ++ js "Variable: " ++ key ++ js "=" ++ v ++ eol)

/-- The method `Message.prototype.marshall` (source lines 42-59); `none` is a raised
`TypeError`. -/
def Message.marshall (m : Message) : Option Str :=
  match marshallFields m (forInKeys m) [] with
  | none => none
  | some output =>
    some (marshallVariables m.eolText (variableEntries (m.own (js "variables"))) output
      ++ m.eolText)

/-! ## unmarshall -/

/-- The variables `key` and `value` after source lines 89-107 for the line `l`, given
the `value` left by the previous iteration (`none` is `undefined`). A line with no
colon leaves `parts` empty after `shift`, and no branch assigns `value`. -/
def lineKeyValue (value : Option Str) (l : Str) : Option Str × Option Str :=
  if (indexOf END_COMMAND l).isSome then
    (some (js "CommandOutput"), some (removeFirst END_COMMAND l))
  else
    match split COLON l with
    | [] => (none, value)
    | key :: parts =>
      if parts.length > 1 then (some key, some (join COLON parts))
      else if parts.length = 1 then (some key, parts.head?)
      else (some key, value)

/-- The two arguments of the call on source lines 109-112 for the line `l`:
the key with its first hyphen replaced and lowercased, and the trimmed `value`.
Evaluating them raises `TypeError` (`none`) when `value` is `undefined`. -/
def setArgs (toLowerCase : Str → Str) (value : Option Str) (l : Str) : Option (Str × Str) :=
  match lineKeyValue value l with
  | (some key, some v) => some (toLowerCase (replaceFirstHyphen key), trim v)
  | _ => none

/-- One iteration of the loop body (source lines 89-112) on the line `l`: the message
after the call of `this.set` and the `value` carried to the next iteration. `this.set`
is looked up on the message: an own property `set` is not callable and the call
raises `TypeError` (`none`). -/
def unmarshallStep (toLowerCase : Str → Str) (m : Message) (value : Option Str) (l : Str) :
    Option (Message × Option Str) :=
  match setArgs toLowerCase value l with
  | none => none
  | some (k, v) =>
    if (m.own (js "set")).isSome then none
    else some (m.set k v, (lineKeyValue value l).2)

/-- Result of reading `this.lines.length` and `this.lines[line]` (source lines 70, 89). -/
inductive LineRead where
  | line (l : Str)
  | stop
  | typeError
  deriving DecidableEq, Repr

/-- The loop test `line < this.lines.length` and the element `this.lines[line]`, read
from the message at every iteration: an array gives its element, a string (stored by
a line whose key is `lines`) its code unit at that index. The Variables object is
never stored under `lines`; that case is given the outcome of an object without
`length`, for which the test fails. -/
def Message.lineAt (m : Message) (line : Nat) : LineRead :=
  match m.own (js "lines") with
  | some (.arr xs) =>
    match xs.get? line with
    | some l => .line l
    | none => .stop
  | some (.str s) =>
    match s.get? line with
    | some c => .line [c]
    | none => .stop
  | some (.obj _) => .stop
  | none => .typeError

/-- How a call of `unmarshall` ends. -/
inductive Outcome where
  | returned (m : Message)
  | typeError (m : Message)
  | outOfFuel
  deriving DecidableEq, Repr

/-- The `for` loop of `unmarshall` (source lines 70-113), with an iteration budget. -/
def unmarshallLoop (toLowerCase : Str → Str) : Nat → Message → Option Str → Nat → Outcome
  | 0, _, _, _ => .outOfFuel
  | fuel + 1, m, value, line =>
    match m.lineAt line with
    | .stop => .returned m
    | .typeError => .typeError m
    | .line l =>
      match unmarshallStep toLowerCase m value l with
      | none => .typeError m
      | some (m', value') => unmarshallLoop toLowerCase fuel m' value' (line + 1)

/-- The pieces of `data.split(this.EOL)` (source line 69): `split` converts an own
`EOL` to text, and returns the whole text when `this.EOL` is `undefined`. -/
def Message.splitLines (m : Message) (data : Str) : List Str :=
  match m.own (js "EOL") with
  | some v => split v.toStr data
  | none => [data]

/-- The method `Message.prototype.unmarshall` (source lines 67-114). The loop runs at
most `data.length + 1` times, so the budget given to it is never exhausted
(`unmarshall_ne_outOfFuel`). -/
def Message.unmarshall (toLowerCase : Str → Str) (m : Message) (data : Str) : Outcome :=
  unmarshallLoop toLowerCase (data.length + 2)
    ⟨assign (js "lines") (.arr (m.splitLines data)) m.props⟩ none 0

/-! ## get -/

/-- The function-valued properties of `Object.prototype` (ECMAScript, Annex B
included); `Message.prototype` adds the four methods and its own `constructor`. -/
def objectPrototypeNames : List Str :=
  [js "constructor", js "hasOwnProperty", js "isPrototypeOf", js "propertyIsEnumerable",
    js "toLocaleString", js "toString", js "valueOf", js "__defineGetter__",
    js "__defineSetter__", js "__lookupGetter__", js "__lookupSetter__"]

/-- The names under which a message inherits a function from its prototypes. -/
def inheritedNames : List Str := protoMethods ++ objectPrototypeNames

/-- What the expression `this[name]` evaluates to: `undefined`, the value of an own
property, the function inherited under that name, or the object `Message.prototype`
(through the inherited accessor `__proto__`). -/
inductive Lookup where
  | undefined
  | own (v : Value)
  | inherited (name : Str)
  | prototype
  deriving DecidableEq, Repr

/-- The method `Message.prototype.get` (source lines 130-132): `return this[name]`. An
own property is found first, then the prototypes are searched. -/
def Message.get (m : Message) (name : Str) : Lookup :=
  match m.own name with
  | some v => .own v
  | none =>
    if name = js "__proto__" then .prototype
    else if name ∈ inheritedNames then .inherited name
    else .undefined

/-- The call `m.get(name)` made on a message: the method is looked up on the object, so
an own property `get` (which holds no function) makes the call raise `TypeError`
(`none`). -/
def Message.callGet (m : Message) (name : Str) : Option Lookup :=
  if (m.own (js "get")).isSome then none else some (m.get name)

/-- The call `m.set(name, value)` made on a message: an own property `set` makes the
call raise `TypeError` (`none`). -/
def Message.callSet (m : Message) (name : Str) (value : Str) : Option Message :=
  if (m.own (js "set")).isSome then none else some (m.set name value)

/-! ## Words of the specification -/

/-- The text before the first colon of a line (the whole line when it has none). -/
def beforeFirstColon (l : Str) : Str := l.takeWhile (· ≠ 58)

/-- The text after the first colon of a line (empty when it has none). -/
def afterFirstColon (l : Str) : Str := (l.dropWhile (· ≠ 58)).drop 1

/-- A string does not start with a whitespace code unit. -/
def NoLeadingSpace (s : Str) : Prop := ∀ c ∈ s.head?, isSpace c = false

/-- A string does not end with a whitespace code unit. -/
def NoTrailingSpace (s : Str) : Prop := ∀ c ∈ s.getLast?, isSpace c = false

instance : DecidablePred NoLeadingSpace :=
  fun s => inferInstanceAs (Decidable (∀ c ∈ s.head?, isSpace c = false))

instance : DecidablePred NoTrailingSpace :=
  fun s => inferInstanceAs (Decidable (∀ c ∈ s.getLast?, isSpace c = false))


/-- A string with its first hyphen replaced by an underscore and everything else,
later hyphens included, unchanged. -/
def firstHyphenToUnderscore (s : Str) : Str :=
  if 45 ∈ s then s.takeWhile (· ≠ 45) ++ 95 :: (s.dropWhile (· ≠ 45)).drop 1 else s

/-- A name normalised: first hyphen replaced by an underscore, then lowercased. -/
def normaliseName (toLowerCase : Str → Str) (name : Str) : Str :=
  toLowerCase (firstHyphenToUnderscore name)

/-- The key under which a line is stored, in the words of the specification: the
synthetic name `CommandOutput` for a line with the marker, the text before the first
colon otherwise (the whole line when it has no colon), normalised. -/
def normalisedKey (toLowerCase : Str → Str) (l : Str) : Str :=
  normaliseName toLowerCase
    (if END_COMMAND <:+: l then js "CommandOutput" else beforeFirstColon l)

/-- A message populated by successive `set` calls on a fresh message. -/
def populate (fs : List (Str × Str)) : Message :=
  fs.foldl (fun m p => m.set p.1 p.2) Message.new

/-- The arguments of the successive `set` calls when the lines `ls` are processed in
order, `value` being what earlier lines left in the variable `value`; `none` when
evaluating the arguments for some line raises `TypeError`. -/
def storeSeq (toLowerCase : Str → Str) : Option Str → List Str → Option (List (Str × Str))
  | _, [] => some []
  | value, l :: ls =>
    match setArgs toLowerCase value l with
    | none => none
    | some a => (storeSeq toLowerCase (lineKeyValue value l).2 ls).map (a :: ·)

/-- Successive `set` calls on a message. -/
def setAll (m : Message) (args : List (Str × Str)) : Message :=
  args.foldl (fun m a => m.set a.1 a.2) m

/-- The names of a sequence of `set` calls in order of first insertion. -/
def firstNames : List Str → List Str
  | [] => []
  | k :: ks => k :: (firstNames ks).filter (· ≠ k)

/-- The current value of a name after a sequence of `set` calls: the value of the last
call for that name. -/
def lastValue (fs : List (Str × Str)) (k : Str) : Str :=
  ((fs.reverse.find? (fun p => p.1 = k)).map Prod.snd).getD []

/-- What the first loop of `marshall` appends for one visited name. -/
def fieldText (m : Message) (key : Str) : Str :=
  if key = js "variables" then []
  else
    match m.own key with
    | some v =>
      if key ≠ js "lines" ∧ key ≠ js "EOL" then key ++ js ": " ++ v.toStr ++ m.eolText else []
    | none => []

/-- What the second loop of `marshall` appends for one entry of the Variables mapping. -/
def variableText (eol : Str) (e : Str × Str) : Str :=
  js "Variable: " ++ e.1 ++ js "=" ++ e.2 ++ eol

/-- The wire line of a field: name, colon, space, value. -/
def fieldLine (p : Str × Str) : Str := p.1 ++ js ": " ++ p.2

/-- A message with its Variables mapping replaced by the entries `es`. -/
def withVariables (m : Message) (es : List (Str × Str)) : Message :=
  ⟨assign (js "variables") (.obj es) m.props⟩

/-- The wire line of a variable, seen as a field line: the name `Variable` and the
text `<key>=<value>`. -/
def variableField (e : Str × Str) : Str × Str := (js "Variable", e.1 ++ js "=" ++ e.2)

/-! ## Reachable messages -/

/-- A value is a string. -/
def Value.isStr : Value → Bool
  | .str _ => true
  | _ => false

/-- A call made on a message by the users of the class: the two mutating methods, and
the assignment to an entry of the Variables mapping. -/
inductive Call where
  | set (name value : Str)
  | setVariable (key value : Str)
  | unmarshall (data : Str)
  deriving DecidableEq, Repr

/-- The message left by a call; an `unmarshall` that raises leaves what it had stored
when it raised. -/
def Message.afterCall (toLowerCase : Str → Str) (m : Message) : Call → Message
  | .set name value => m.set name value
  | .setVariable key value => m.setVariable key value
  | .unmarshall data =>
    match Message.unmarshall toLowerCase m data with
    | .returned m' => m'
    | .typeError m' => m'
    | .outOfFuel => m

/-- The message reached from a freshly constructed one by a sequence of calls. -/
def reached (toLowerCase : Str → Str) (calls : List Call) : Message :=
  calls.foldl (Message.afterCall toLowerCase) Message.new

/-- What holds of every message built through the class: its own names are distinct,
`__proto__` is not one of them, and every name other than `lines` and `variables`
holds a string. -/
def Message.Regular (m : Message) : Prop :=
  (m.props.map Prod.fst).Nodup ∧ js "__proto__" ∉ m.props.map Prod.fst ∧
    ∀ p ∈ m.props, p.1 ≠ js "lines" → p.1 ≠ js "variables" → p.2.isStr = true

instance (m : Message) : Decidable m.Regular :=
  inferInstanceAs (Decidable ((m.props.map Prod.fst).Nodup ∧
    js "__proto__" ∉ m.props.map Prod.fst ∧
    ∀ p ∈ m.props, p.1 ≠ js "lines" → p.1 ≠ js "variables" → p.2.isStr = true))

/-! ## Lemmas on strings -/

theorem splitGo_skip (sep : Str) (k : Nat) (cur s : Str) :
    splitGo sep k cur s = splitGo sep 0 cur (s.drop k) := by
  induction k generalizing s with
  | zero => simp
  | succ k ih =>
    cases s with
    | nil => simp [splitGo]
    | cons c cs => simp [splitGo, ih]

theorem splitGo_ne_nil (sep : Str) (k : Nat) (cur s : Str) : splitGo sep k cur s ≠ [] := by
  induction s generalizing k cur with
  | nil => simp [splitGo]
  | cons c cs ih =>
    cases k with
    | zero =>
      simp only [splitGo]
      split
      · simp
      · exact ih _ _
    | succ k => simp only [splitGo]; exact ih _ _

theorem join_cons_of_ne_nil (sep x : Str) (xs : List Str) (h : xs ≠ []) :
    join sep (x :: xs) = x ++ sep ++ join sep xs := by
  cases xs with
  | nil => exact absurd rfl h
  | cons y ys => simp [join]

theorem colon_isPrefixOf (c : Nat) (cs : Str) : COLON.isPrefixOf (c :: cs) = decide (c = 58) := by
  by_cases h : c = 58
  · subst h; simp [COLON, List.isPrefixOf]
  · have h' : ¬ 58 = c := fun e => h e.symm
    simp [COLON, List.isPrefixOf, h, h']

theorem join_splitGo_colon (cur s : Str) : join COLON (splitGo COLON 0 cur s) = cur ++ s := by
  induction s generalizing cur with
  | nil => simp [splitGo, join]
  | cons c cs ih =>
    simp only [splitGo, colon_isPrefixOf]
    by_cases hc : c = 58
    · subst hc
      simp only [decide_True, if_true]
      rw [join_cons_of_ne_nil _ _ _ (splitGo_ne_nil _ _ _ _), splitGo_skip]
      have h0 : List.drop (COLON.length - 1) cs = cs := by simp [COLON]
      rw [h0, ih]
      simp [COLON]
    · simp [hc, ih]

theorem splitGo_colon_of_not_mem (cur s : Str) (h : 58 ∉ s) :
    splitGo COLON 0 cur s = [cur ++ s] := by
  induction s generalizing cur with
  | nil => simp [splitGo]
  | cons c cs ih =>
    have hc : c ≠ 58 := fun e => h (by simp [e])
    have hcs : 58 ∉ cs := fun e => h (by simp [e])
    simp [splitGo, colon_isPrefixOf, hc, ih _ hcs]

theorem splitGo_colon_of_mem (cur s : Str) (h : 58 ∈ s) :
    splitGo COLON 0 cur s =
      (cur ++ beforeFirstColon s) :: splitGo COLON 0 [] (afterFirstColon s) := by
  induction s generalizing cur with
  | nil => simp at h
  | cons c cs ih =>
    simp only [splitGo, colon_isPrefixOf]
    by_cases hc : c = 58
    · subst hc
      simp [beforeFirstColon, afterFirstColon, splitGo_skip, COLON]
    · have hcs : 58 ∈ cs := by
        rcases List.mem_cons.1 h with e | e
        · exact absurd e.symm hc
        · exact e
      simp [hc, ih _ hcs, beforeFirstColon, afterFirstColon, List.takeWhile, List.dropWhile]

theorem split_colon_of_not_mem (s : Str) (h : 58 ∉ s) : split COLON s = [s] := by
  unfold split
  rw [if_neg (by simp [COLON]), splitGo_colon_of_not_mem [] s h]
  simp

theorem trimEnd_eq_rdropWhile (s : Str) : trimEnd s = s.rdropWhile isSpace := rfl

theorem trimEnd_initial (s : Str) : trimEnd s <+: s := List.rdropWhile_prefix _ _

theorem trim_noLeadingSpace (s : Str) : NoLeadingSpace (trim s) := by
  intro c hc
  rw [Option.mem_def] at hc
  obtain ⟨t, ht⟩ := trimEnd_initial (trimStart s)
  have h := List.head?_dropWhile_not isSpace s
  unfold trim at hc
  cases hte : trimEnd (trimStart s) with
  | nil => rw [hte] at hc; simp at hc
  | cons a as =>
    rw [hte] at hc ht
    simp only [List.head?_cons, Option.some.injEq] at hc
    subst hc
    have h2 : (List.dropWhile isSpace s).head? = some a := by
      have : trimStart s = a :: (as ++ t) := by rw [← ht]; simp
      unfold trimStart at this
      rw [this]; simp
    rw [h2] at h
    exact h

theorem trim_noTrailingSpace (s : Str) : NoTrailingSpace (trim s) := by
  intro c hc
  rw [Option.mem_def] at hc
  unfold trim at hc
  rw [trimEnd_eq_rdropWhile] at hc
  have hne : List.rdropWhile isSpace (trimStart s) ≠ [] := by
    intro e; rw [e] at hc; simp at hc
  have h := List.rdropWhile_last_not isSpace (trimStart s) hne
  rw [List.getLast?_eq_getLast _ hne] at hc
  simp only [Option.some.injEq] at hc
  rw [hc] at h
  simpa using h

theorem trimStart_eq_self (s : Str) (h : NoLeadingSpace s) : trimStart s = s := by
  cases s with
  | nil => rfl
  | cons a as =>
    have := h a (by simp)
    simp [trimStart, List.dropWhile, this]

theorem trimEnd_eq_self (s : Str) (h : NoTrailingSpace s) : trimEnd s = s := by
  rw [trimEnd_eq_rdropWhile, List.rdropWhile_eq_self_iff]
  intro hl
  have := h (s.getLast hl) (List.getLast?_eq_getLast _ hl)
  simp [this]

theorem trim_eq_self (s : Str) (h1 : NoLeadingSpace s) (h2 : NoTrailingSpace s) :
    trim s = s := by
  unfold trim
  rw [trimStart_eq_self s h1, trimEnd_eq_self s h2]

theorem rdropWhile_append_rtakeWhile (p : Nat → Bool) (l : Str) :
    l.rdropWhile p ++ l.rtakeWhile p = l := by
  unfold List.rdropWhile List.rtakeWhile
  rw [← List.reverse_append, List.takeWhile_append_dropWhile, List.reverse_reverse]

theorem trim_decompose (s : Str) :
    ∃ pre post : Str, (∀ c ∈ pre, isSpace c = true) ∧ (∀ c ∈ post, isSpace c = true) ∧
      s = pre ++ trim s ++ post := by
  refine ⟨s.takeWhile isSpace, (trimStart s).rtakeWhile isSpace, ?_, ?_, ?_⟩
  · intro c hc; exact List.mem_takeWhile_imp hc
  · intro c hc
    unfold List.rtakeWhile at hc
    rw [List.mem_reverse] at hc
    exact List.mem_takeWhile_imp hc
  · unfold trim
    rw [trimEnd_eq_rdropWhile, List.append_assoc, rdropWhile_append_rtakeWhile]
    unfold trimStart
    simp

theorem trim_length_le (s : Str) : (trim s).length ≤ s.length := by
  obtain ⟨pre, post, -, -, h⟩ := trim_decompose s
  have := congrArg List.length h
  simp at this
  omega

theorem trim_space_cons (s : Str) : trim (32 :: s) = trim s := by
  simp [trim, trimStart, List.dropWhile, isSpace]

theorem indexOf_some_spec (n : Str) : ∀ (s : Str) (i : Nat), indexOf n s = some i →
    ∃ pre post : Str, s = pre ++ n ++ post ∧ pre.length = i ∧
      ∀ j, j < i → ¬ n <+: s.drop j
  | [], i, h => by
    unfold indexOf at h
    split at h
    · rename_i hn
      simp only [Option.some.injEq] at h
      subst h; subst hn
      exact ⟨[], [], by simp, rfl, fun j hj => absurd hj (Nat.not_lt_zero _)⟩
    · simp at h
  | c :: cs, i, h => by
    unfold indexOf at h
    split at h
    · rename_i hp
      simp only [Option.some.injEq] at h
      subst h
      obtain ⟨post, hpost⟩ := List.isPrefixOf_iff_prefix.1 hp
      exact ⟨[], post, by simp [hpost], rfl, fun j hj => absurd hj (Nat.not_lt_zero _)⟩
    · rename_i hp
      cases hi : indexOf n cs with
      | none => rw [hi] at h; simp at h
      | some i' =>
        rw [hi] at h
        simp only [Option.map_some', Option.some.injEq] at h
        subst h
        obtain ⟨pre, post, hs, hlen, hfirst⟩ := indexOf_some_spec n cs i' hi
        refine ⟨c :: pre, post, by simp [hs], by simp [hlen], ?_⟩
        intro j hj
        cases j with
        | zero =>
          intro hpre
          exact hp (List.isPrefixOf_iff_prefix.2 hpre)
        | succ j => simpa using hfirst j (by omega)

theorem indexOf_isSome_of_contains (n s : Str) (h : n <:+: s) : (indexOf n s).isSome = true := by
  obtain ⟨pre, post, hs⟩ := h
  subst hs
  induction pre with
  | nil =>
    cases hnp : n ++ post with
    | nil =>
      obtain ⟨hn, hpost⟩ := List.append_eq_nil.1 hnp
      subst hn; subst hpost
      simp [indexOf]
    | cons c cs =>
      have hp : n.isPrefixOf (c :: cs) = true := by
        rw [← hnp]; exact List.isPrefixOf_iff_prefix.2 (List.prefix_append _ _)
      simp [hnp, indexOf, hp]
  | cons c pre ih =>
    simp only [List.cons_append, indexOf]
    split
    · rfl
    · simp only [List.append_assoc] at ih
      simp [Option.isSome_map', ih]

theorem indexOf_isSome_iff (n s : Str) : (indexOf n s).isSome = true ↔ n <:+: s := by
  constructor
  · intro h
    obtain ⟨i, hi⟩ := Option.isSome_iff_exists.1 h
    obtain ⟨pre, post, hs, -, -⟩ := indexOf_some_spec n s i hi
    exact ⟨pre, post, hs.symm⟩
  · exact indexOf_isSome_of_contains n s

theorem removeFirst_spec (n s : Str) (h : n <:+: s) :
    ∃ pre post : Str, s = pre ++ n ++ post ∧ (∀ j, j < pre.length → ¬ n <+: s.drop j) ∧
      removeFirst n s = pre ++ post := by
  obtain ⟨i, hi⟩ := Option.isSome_iff_exists.1 (indexOf_isSome_of_contains n s h)
  obtain ⟨pre, post, hs, hlen, hfirst⟩ := indexOf_some_spec n s i hi
  refine ⟨pre, post, hs, by rw [hlen]; exact hfirst, ?_⟩
  unfold removeFirst
  rw [hi]
  subst hlen
  subst hs
  simp [List.take_append_eq_append_take, List.drop_append_eq_append_drop]

theorem removeFirst_length_le (n s : Str) : (removeFirst n s).length ≤ s.length := by
  unfold removeFirst
  split
  · exact Nat.le_refl _
  · simp; omega

theorem lineKeyValue_sentinel (value : Option Str) (l : Str) (h : END_COMMAND <:+: l) :
    lineKeyValue value l = (some (js "CommandOutput"), some (removeFirst END_COMMAND l)) := by
  unfold lineKeyValue
  rw [if_pos (indexOf_isSome_of_contains _ _ h)]

theorem lineKeyValue_colon (value : Option Str) (l : Str) (hs : ¬ END_COMMAND <:+: l)
    (hc : 58 ∈ l) :
    lineKeyValue value l = (some (beforeFirstColon l), some (afterFirstColon l)) := by
  unfold lineKeyValue
  rw [if_neg (fun h => hs ((indexOf_isSome_iff _ _).1 h))]
  have hsplit : split COLON l = beforeFirstColon l :: splitGo COLON 0 [] (afterFirstColon l) := by
    unfold split
    rw [if_neg (by simp [COLON]), splitGo_colon_of_mem [] l hc]
    simp
  rw [hsplit]
  have hjoin := join_splitGo_colon [] (afterFirstColon l)
  cases hp : splitGo COLON 0 [] (afterFirstColon l) with
  | nil => exact absurd hp (splitGo_ne_nil _ _ _ _)
  | cons x xs =>
    rw [hp] at hjoin
    cases xs with
    | nil => simp [join] at hjoin; simp [hjoin]
    | cons y ys =>
      simp only [List.nil_append] at hjoin
      simp [hjoin]

theorem lineKeyValue_plain (value : Option Str) (l : Str) (hs : ¬ END_COMMAND <:+: l)
    (hc : 58 ∉ l) : lineKeyValue value l = (some l, value) := by
  unfold lineKeyValue
  rw [if_neg (fun h => hs ((indexOf_isSome_iff _ _).1 h)), split_colon_of_not_mem l hc]
  simp

/-! ## Lemmas on one line -/

theorem replaceFirstHyphen_eq (s : Str) : replaceFirstHyphen s = firstHyphenToUnderscore s := by
  induction s with
  | nil => simp [replaceFirstHyphen, firstHyphenToUnderscore]
  | cons c cs ih =>
    unfold firstHyphenToUnderscore at ih ⊢
    by_cases hc : c = 45
    · subst hc
      simp [replaceFirstHyphen, List.takeWhile, List.dropWhile]
    · have hc' : ¬ 45 = c := fun e => hc e.symm
      by_cases hm : 45 ∈ cs
      · rw [if_pos hm] at ih
        simp [replaceFirstHyphen, hc, hc', hm, ih, List.takeWhile, List.dropWhile]
      · rw [if_neg hm] at ih
        simp [replaceFirstHyphen, hc, hc', hm, ih]

theorem beforeFirstColon_of_not_mem (l : Str) (h : 58 ∉ l) : beforeFirstColon l = l := by
  unfold beforeFirstColon
  rw [List.takeWhile_eq_self_iff]
  intro c hc
  have : c ≠ 58 := fun e => h (e ▸ hc)
  simpa using this

theorem before_colon_after (l : Str) (h : 58 ∈ l) :
    l = beforeFirstColon l ++ 58 :: afterFirstColon l := by
  induction l with
  | nil => simp at h
  | cons c cs ih =>
    by_cases hc : c = 58
    · subst hc
      simp [beforeFirstColon, afterFirstColon, List.takeWhile, List.dropWhile]
    · have hcs : 58 ∈ cs := by
        rcases List.mem_cons.1 h with e | e
        · exact absurd e.symm hc
        · exact e
      have := ih hcs
      unfold beforeFirstColon afterFirstColon at this ⊢
      simp only [List.takeWhile, List.dropWhile, hc, ne_eq, not_false_eq_true, decide_True,
        List.cons_append, List.cons.injEq, true_and]
      exact this

theorem lineKeyValue_key (value : Option Str) (l : Str) :
    (lineKeyValue value l).1 =
      some (if END_COMMAND <:+: l then js "CommandOutput" else beforeFirstColon l) := by
  by_cases hs : END_COMMAND <:+: l
  · rw [lineKeyValue_sentinel value l hs, if_pos hs]
  · rw [if_neg hs]
    by_cases hc : 58 ∈ l
    · rw [lineKeyValue_colon value l hs hc]
    · rw [lineKeyValue_plain value l hs hc, beforeFirstColon_of_not_mem l hc]

theorem setArgs_eq (toLowerCase : Str → Str) (value : Option Str) (l : Str) :
    setArgs toLowerCase value l =
      ((lineKeyValue value l).2).map (fun v => (normalisedKey toLowerCase l, trim v)) := by
  have hk := lineKeyValue_key value l
  unfold setArgs normalisedKey normaliseName
  rw [← replaceFirstHyphen_eq]
  cases hkv : lineKeyValue value l with
  | mk k v =>
    rw [hkv] at hk
    simp only at hk
    subst hk
    cases v <;> rfl

theorem setArgs_sentinel (toLowerCase : Str → Str) (value : Option Str) (l : Str)
    (h : END_COMMAND <:+: l) :
    setArgs toLowerCase value l =
      some (toLowerCase (js "CommandOutput"), trim (removeFirst END_COMMAND l)) := by
  unfold setArgs
  rw [lineKeyValue_sentinel value l h]
  rfl

theorem setArgs_colon (toLowerCase : Str → Str) (value : Option Str) (l : Str)
    (hs : ¬ END_COMMAND <:+: l) (hc : 58 ∈ l) :
    setArgs toLowerCase value l =
      some (toLowerCase (replaceFirstHyphen (beforeFirstColon l)), trim (afterFirstColon l)) := by
  unfold setArgs
  rw [lineKeyValue_colon value l hs hc]

theorem setArgs_plain (toLowerCase : Str → Str) (value : Option Str) (l : Str)
    (hs : ¬ END_COMMAND <:+: l) (hc : 58 ∉ l) :
    setArgs toLowerCase value l =
      value.map (fun v => (toLowerCase (replaceFirstHyphen l), trim v)) := by
  unfold setArgs
  rw [lineKeyValue_plain value l hs hc]
  cases value <;> rfl

theorem unmarshallStep_eq (toLowerCase : Str → Str) (m : Message) (value : Option Str)
    (l : Str) (k v : Str) (hset : m.own (js "set") = none)
    (h : setArgs toLowerCase value l = some (k, v)) :
    unmarshallStep toLowerCase m value l = some (m.set k v, (lineKeyValue value l).2) := by
  unfold unmarshallStep
  rw [h]
  simp [hset]

/-! ## Lemmas on properties -/

theorem lookupProp_assign_self {α : Type} (k : Str) (v : α) (ps : List (Str × α)) :
    lookupProp k (assign k v ps) = some v := by
  induction ps with
  | nil => simp [assign, lookupProp]
  | cons p ps ih =>
    obtain ⟨k', v'⟩ := p
    by_cases h : k' = k
    · simp [assign, lookupProp, h]
    · simp [assign, lookupProp, h, ih]

theorem lookupProp_assign_ne {α : Type} (k k' : Str) (v : α) (ps : List (Str × α))
    (hne : k ≠ k') : lookupProp k' (assign k v ps) = lookupProp k' ps := by
  induction ps with
  | nil => simp [assign, lookupProp, hne]
  | cons p ps ih =>
    obtain ⟨k'', v''⟩ := p
    by_cases h : k'' = k
    · subst h
      simp [assign, lookupProp, hne]
    · by_cases h2 : k'' = k'
      · subst h2
        simp [assign, lookupProp, h]
      · simp [assign, lookupProp, h, h2, ih]

theorem own_set_ne (m : Message) (k k' v : Str) (hne : k ≠ k') :
    (m.set k v).own k' = m.own k' := by
  unfold Message.set
  split
  · rfl
  · exact lookupProp_assign_ne k k' _ m.props hne

theorem own_set_self (m : Message) (k v : Str) (hk : k ≠ js "__proto__") :
    (m.set k v).own k = some (.str v) := by
  unfold Message.set
  rw [if_neg hk]
  exact lookupProp_assign_self k _ m.props

theorem own_set_cases (m : Message) (k k' v : Str) (w : Value)
    (h : (m.set k v).own k' = some w) : m.own k' = some w ∨ (k' = k ∧ w = .str v) := by
  by_cases hk : k = k'
  · subst hk
    by_cases hp : k = js "__proto__"
    · left
      unfold Message.set at h
      rwa [if_pos hp] at h
    · right
      rw [own_set_self m k v hp] at h
      exact ⟨rfl, (Option.some.inj h).symm⟩
  · left
    rwa [own_set_ne m k k' v hk] at h

theorem own_assign_lines (m : Message) (k : Str) (v : Value) (hk : k ≠ js "lines") :
    (Message.mk (assign (js "lines") v m.props)).own k = m.own k :=
  lookupProp_assign_ne (js "lines") k v m.props (fun e => hk e.symm)

theorem setAll_nil (m : Message) : setAll m [] = m := rfl

theorem setAll_cons (m : Message) (a : Str × Str) (args : List (Str × Str)) :
    setAll m (a :: args) = setAll (m.set a.1 a.2) args := rfl

theorem setAll_append (m : Message) (xs ys : List (Str × Str)) :
    setAll m (xs ++ ys) = setAll (setAll m xs) ys := by
  unfold setAll
  rw [List.foldl_append]

theorem own_setAll_of_not_mem (args : List (Str × Str)) (m : Message) (k : Str)
    (h : ∀ a ∈ args, a.1 ≠ k) : (setAll m args).own k = m.own k := by
  induction args generalizing m with
  | nil => rfl
  | cons a args ih =>
    rw [setAll_cons, ih _ (fun b hb => h b (List.mem_cons_of_mem _ hb)),
      own_set_ne m a.1 k a.2 (h a (List.mem_cons_self _ _))]

theorem own_setAll_cases (args : List (Str × Str)) (m : Message) (k : Str) (w : Value)
    (h : (setAll m args).own k = some w) :
    m.own k = some w ∨ ∃ a ∈ args, a.1 = k ∧ w = .str a.2 := by
  induction args generalizing m with
  | nil => exact Or.inl h
  | cons a args ih =>
    rw [setAll_cons] at h
    rcases ih _ h with h1 | ⟨b, hb, hbk, hbw⟩
    · rcases own_set_cases m a.1 k a.2 w h1 with h2 | ⟨h2, h3⟩
      · exact Or.inl h2
      · exact Or.inr ⟨a, List.mem_cons_self _ _, h2.symm, h3⟩
    · exact Or.inr ⟨b, List.mem_cons_of_mem _ hb, hbk, hbw⟩

/-! ## Lemmas on the loop -/

theorem splitGo_length_le (sep : Str) (s : Str) :
    ∀ (k : Nat) (cur : Str), (splitGo sep k cur s).length ≤ s.length + 1 := by
  induction s with
  | nil => intro k cur; simp [splitGo]
  | cons c cs ih =>
    intro k cur
    cases k with
    | zero =>
      simp only [splitGo]
      split
      · have := ih (sep.length - 1) []
        simp only [List.length_cons]
        omega
      · have := ih 0 (cur ++ [c])
        simp only [List.length_cons]
        omega
    | succ k =>
      simp only [splitGo]
      have := ih k cur
      simp only [List.length_cons]
      omega

theorem split_length_le (sep s : Str) : (split sep s).length ≤ s.length + 1 := by
  unfold split
  split
  · simp
  · exact splitGo_length_le sep s 0 []

theorem splitLines_length_le (m : Message) (data : Str) :
    (m.splitLines data).length ≤ data.length + 1 := by
  unfold Message.splitLines
  split
  · exact split_length_le _ _
  · simp

theorem lineAt_arr (m : Message) (L : List Str) (i : Nat)
    (h : m.own (js "lines") = some (.arr L)) :
    m.lineAt i = match L.get? i with
      | some l => .line l
      | none => .stop := by
  unfold Message.lineAt
  rw [h]

theorem unmarshallLoop_array (toLowerCase : Str → Str) (L : List Str) :
    ∀ (ls : List Str) (i : Nat) (m : Message) (value : Option Str) (fuel : Nat)
      (args : List (Str × Str)),
      m.own (js "lines") = some (.arr L) → m.own (js "set") = none →
      L.drop i = ls → ls.length < fuel → storeSeq toLowerCase value ls = some args →
      (∀ a ∈ args, a.1 ≠ js "lines" ∧ a.1 ≠ js "set") →
      unmarshallLoop toLowerCase fuel m value i = .returned (setAll m args) := by
  intro ls
  induction ls with
  | nil =>
    intro i m value fuel args hlines _ hdrop hfuel hseq _
    obtain ⟨fuel, rfl⟩ : ∃ f, fuel = f + 1 := ⟨fuel - 1, by omega⟩
    have hget : L.get? i = none := by
      rw [List.get?_eq_none]
      exact List.drop_eq_nil_iff.1 hdrop
    simp only [storeSeq, Option.some.injEq] at hseq
    subst hseq
    simp only [unmarshallLoop, lineAt_arr m L i hlines, hget, setAll_nil]
  | cons l ls ih =>
    intro i m value fuel args hlines hset hdrop hfuel hseq hkeys
    obtain ⟨fuel, rfl⟩ : ∃ f, fuel = f + 1 := ⟨fuel - 1, by omega⟩
    have hi : i < L.length := by
      by_contra hge
      rw [List.drop_eq_nil_iff.2 (by omega)] at hdrop
      exact List.noConfusion hdrop
    have hget : L.get? i = some l := by
      rw [List.get?_eq_get hi]
      have h1 := List.drop_eq_getElem_cons hi
      rw [hdrop] at h1
      simp only [List.cons.injEq] at h1
      simp [h1.1]
    have hdrop' : L.drop (i + 1) = ls := by
      have h1 := List.drop_eq_getElem_cons hi
      rw [hdrop] at h1
      simp only [List.cons.injEq] at h1
      exact h1.2.symm
    simp only [storeSeq] at hseq
    cases hargs : setArgs toLowerCase value l with
    | none => rw [hargs] at hseq; simp at hseq
    | some a =>
      rw [hargs] at hseq
      simp only at hseq
      cases hrest : storeSeq toLowerCase (lineKeyValue value l).2 ls with
      | none => rw [hrest] at hseq; simp at hseq
      | some rest =>
        rw [hrest] at hseq
        simp only [Option.map_some', Option.some.injEq] at hseq
        subst hseq
        obtain ⟨k, v⟩ := a
        have hk := hkeys (k, v) (List.mem_cons_self _ _)
        simp only [unmarshallLoop, lineAt_arr m L i hlines, hget,
          unmarshallStep_eq toLowerCase m value l k v hset hargs, setAll_cons]
        refine ih (i + 1) (m.set k v) _ fuel rest ?_ ?_ hdrop' ?_ hrest ?_
        · rw [own_set_ne m k _ v hk.1]; exact hlines
        · rw [own_set_ne m k _ v hk.2]; exact hset
        · simp only [List.length_cons] at hfuel; omega
        · intro b hb; exact hkeys b (List.mem_cons_of_mem _ hb)

theorem unmarshall_of_storeSeq (toLowerCase : Str → Str) (m : Message) (data : Str)
    (args : List (Str × Str)) (hset : m.own (js "set") = none)
    (hseq : storeSeq toLowerCase none (m.splitLines data) = some args)
    (hkeys : ∀ a ∈ args, a.1 ≠ js "lines" ∧ a.1 ≠ js "set") :
    Message.unmarshall toLowerCase m data =
      .returned (setAll ⟨assign (js "lines") (.arr (m.splitLines data)) m.props⟩ args) := by
  unfold Message.unmarshall
  refine unmarshallLoop_array toLowerCase (m.splitLines data) (m.splitLines data) 0 _ none _
    args ?_ ?_ rfl ?_ hseq hkeys
  · exact lookupProp_assign_self _ _ _
  · rw [own_assign_lines m _ _ (by decide)]; exact hset
  · have := splitLines_length_le m data
    omega

theorem lineKeyValue_value_isSome (value : Option Str) (l : Str)
    (h : value.isSome = true ∨ 58 ∈ l ∨ END_COMMAND <:+: l) :
    ((lineKeyValue value l).2).isSome = true := by
  by_cases hs : END_COMMAND <:+: l
  · rw [lineKeyValue_sentinel value l hs]; rfl
  · by_cases hc : 58 ∈ l
    · rw [lineKeyValue_colon value l hs hc]; rfl
    · rw [lineKeyValue_plain value l hs hc]
      rcases h with h | h | h
      · exact h
      · exact absurd h hc
      · exact absurd h hs

theorem storeSeq_keys (toLowerCase : Str → Str) :
    ∀ (ls : List Str) (value : Option Str),
      (value.isSome = true ∨ ∀ l ∈ ls.head?, 58 ∈ l ∨ END_COMMAND <:+: l) →
      ∃ args, storeSeq toLowerCase value ls = some args ∧
        args.map Prod.fst = ls.map (normalisedKey toLowerCase) := by
  intro ls
  induction ls with
  | nil => intro value _; exact ⟨[], rfl, rfl⟩
  | cons l ls ih =>
    intro value h
    have hv : ((lineKeyValue value l).2).isSome = true := by
      apply lineKeyValue_value_isSome
      rcases h with h | h
      · exact Or.inl h
      · exact Or.inr (h l (by simp))
    obtain ⟨rest, hrest, hmap⟩ := ih (lineKeyValue value l).2 (Or.inl hv)
    obtain ⟨raw, hraw⟩ := Option.isSome_iff_exists.1 hv
    refine ⟨(normalisedKey toLowerCase l, trim raw) :: rest, ?_, by simp [hmap]⟩
    simp only [storeSeq, setArgs_eq, hraw, Option.map_some']
    rw [← hraw, hrest]
    rfl

theorem unmarshallLoop_stores_trimmed (toLowerCase : Str → Str) (m0 : Message) :
    ∀ (fuel : Nat) (m : Message) (value : Option Str) (line : Nat) (m' : Message),
      (∀ k v, m.own k = some (.str v) →
        m0.own k = some (.str v) ∨ (NoLeadingSpace v ∧ NoTrailingSpace v)) →
      unmarshallLoop toLowerCase fuel m value line = .returned m' →
      ∀ k v, m'.own k = some (.str v) →
        m0.own k = some (.str v) ∨ (NoLeadingSpace v ∧ NoTrailingSpace v) := by
  intro fuel
  induction fuel with
  | zero => intro m value line m' _ h; simp [unmarshallLoop] at h
  | succ fuel ih =>
    intro m value line m' hinv h
    simp only [unmarshallLoop] at h
    split at h
    · simp only [Outcome.returned.injEq] at h
      subst h
      exact hinv
    · simp at h
    · rename_i l _
      split at h
      · simp at h
      · rename_i m1 value1 hstep
        refine ih m1 value1 (line + 1) m' ?_ h
        unfold unmarshallStep at hstep
        split at hstep
        · simp at hstep
        · rename_i k v hargs
          split at hstep
          · simp at hstep
          · simp only [Option.some.injEq, Prod.mk.injEq] at hstep
            obtain ⟨hm1, -⟩ := hstep
            subst hm1
            intro k' v' hown
            rcases own_set_cases m k k' v (.str v') hown with h1 | ⟨-, h2⟩
            · exact hinv k' v' h1
            · right
              simp only [Value.str.injEq] at h2
              subst h2
              rw [setArgs_eq] at hargs
              cases hraw : (lineKeyValue value l).2 with
              | none => rw [hraw] at hargs; simp at hargs
              | some raw =>
                rw [hraw] at hargs
                simp only [Option.map_some', Option.some.injEq, Prod.mk.injEq] at hargs
                rw [← hargs.2]
                exact ⟨trim_noLeadingSpace raw, trim_noTrailingSpace raw⟩

/-! ## Lemmas on marshall -/

theorem insertIndexKey_perm (n : Nat) (k : Str) (xs : List (Nat × Str)) :
    (insertIndexKey n k xs).Perm ((n, k) :: xs) := by
  induction xs with
  | nil => exact List.Perm.refl _
  | cons x xs ih =>
    obtain ⟨n', k'⟩ := x
    unfold insertIndexKey
    split
    · exact List.Perm.refl _
    · exact (List.Perm.cons _ ih).trans (List.Perm.swap _ _ _)

theorem indexKeys_perm (ks : List Str) :
    ((indexKeys ks).map Prod.snd).Perm (ks.filter (fun k => (arrayIndex k).isSome)) := by
  induction ks with
  | nil => exact List.Perm.refl _
  | cons k ks ih =>
    unfold indexKeys
    cases hk : arrayIndex k with
    | none => simpa [hk] using ih
    | some n =>
      simp only [hk, List.filter_cons, Option.isSome_some, if_true]
      exact ((insertIndexKey_perm n k _).map Prod.snd).trans (List.Perm.cons _ ih)

theorem ownKeys_perm (ks : List Str) : (ownKeys ks).Perm ks := by
  unfold ownKeys
  have h1 := List.Perm.append_right (ks.filter (fun k => (arrayIndex k).isNone))
    (indexKeys_perm ks)
  have h2 : (fun k : Str => (arrayIndex k).isNone) = fun k => !(arrayIndex k).isSome := by
    funext k; cases arrayIndex k <;> rfl
  rw [h2] at h1 ⊢
  exact h1.trans (List.filter_append_perm _ ks)

theorem mem_ownKeys (ks : List Str) (k : Str) : k ∈ ownKeys ks ↔ k ∈ ks :=
  (ownKeys_perm ks).mem_iff

theorem indexKeys_of_no_index (ks : List Str) (h : ∀ k ∈ ks, arrayIndex k = none) :
    indexKeys ks = [] := by
  induction ks with
  | nil => rfl
  | cons k ks ih =>
    unfold indexKeys
    rw [h k (List.mem_cons_self _ _)]
    exact ih (fun x hx => h x (List.mem_cons_of_mem _ hx))

theorem ownKeys_of_no_index (ks : List Str) (h : ∀ k ∈ ks, arrayIndex k = none) :
    ownKeys ks = ks := by
  unfold ownKeys
  rw [indexKeys_of_no_index ks h, List.map_nil, List.nil_append, List.filter_eq_self]
  intro k hk
  rw [h k hk]; rfl

theorem lookupProp_mem {α : Type} (k : Str) (v : α) (ps : List (Str × α))
    (h : lookupProp k ps = some v) : k ∈ ps.map Prod.fst := by
  induction ps with
  | nil => simp [lookupProp] at h
  | cons p ps ih =>
    obtain ⟨k', v'⟩ := p
    unfold lookupProp at h
    split at h
    · rename_i hk; simp [hk]
    · simp [ih h]

theorem lookupProp_none {α : Type} (k : Str) (ps : List (Str × α))
    (h : k ∉ ps.map Prod.fst) : lookupProp k ps = none := by
  cases hl : lookupProp k ps with
  | none => rfl
  | some v => exact absurd (lookupProp_mem k v ps hl) h

theorem marshallFields_eq (m : Message) (hhas : m.own (js "hasOwnProperty") = none) :
    ∀ (keys : List Str) (output : Str),
      marshallFields m keys output = some (output ++ (keys.map (fieldText m)).flatten) := by
  intro keys
  induction keys with
  | nil => intro output; simp [marshallFields]
  | cons key keys ih =>
    intro output
    unfold marshallFields
    by_cases hv : key = js "variables"
    · rw [if_pos hv, ih]
      simp [fieldText, hv]
    · rw [if_neg hv, hhas]
      simp only [Option.isSome_none, Bool.false_eq_true, if_false]
      cases hown : m.own key with
      | none => simp [ih, fieldText, hv, hown]
      | some v =>
        simp only
        by_cases hk : key ≠ js "lines" ∧ key ≠ js "EOL"
        · rw [if_pos hk, ih]
          simp [fieldText, hv, hown, hk]
        · rw [if_neg hk, ih]
          simp [fieldText, hv, hown, hk]

theorem marshallFields_shadowed (m : Message) (h : (m.own (js "hasOwnProperty")).isSome = true) :
    ∀ (keys : List Str) (output : Str), (∃ k ∈ keys, k ≠ js "variables") →
      marshallFields m keys output = none := by
  intro keys
  induction keys with
  | nil => intro output hk; obtain ⟨k, hk, -⟩ := hk; simp at hk
  | cons key keys ih =>
    intro output hk
    unfold marshallFields
    by_cases hv : key = js "variables"
    · rw [if_pos hv]
      apply ih
      obtain ⟨k, hkm, hkv⟩ := hk
      rcases List.mem_cons.1 hkm with e | e
      · exact absurd (e ▸ hv) hkv
      · exact ⟨k, e, hkv⟩
    · rw [if_neg hv, if_pos h]

theorem marshallVariables_eq (eol : Str) :
    ∀ (es : List (Str × Str)) (output : Str),
      marshallVariables eol es output = output ++ (es.map (variableText eol)).flatten := by
  intro es
  induction es with
  | nil => intro output; simp [marshallVariables]
  | cons e es ih =>
    intro output
    obtain ⟨k, v⟩ := e
    simp [marshallVariables, ih, variableText]

theorem marshall_eq (m : Message) (hhas : m.own (js "hasOwnProperty") = none) :
    m.marshall = some (((forInKeys m).map (fieldText m)).flatten ++
      ((variableEntries (m.own (js "variables"))).map (variableText m.eolText)).flatten ++
      m.eolText) := by
  unfold Message.marshall
  rw [marshallFields_eq m hhas]
  simp only [marshallVariables_eq, List.nil_append]

theorem flatten_ends_with (e : Str) (chunks : List Str)
    (hall : ∀ c ∈ chunks, c = [] ∨ ∃ t, c = t ++ e) (hex : ∃ c ∈ chunks, c ≠ []) :
    ∃ t, chunks.flatten = t ++ e := by
  induction chunks with
  | nil => obtain ⟨c, hc, -⟩ := hex; simp at hc
  | cons c cs ih =>
    by_cases hrest : ∃ c' ∈ cs, c' ≠ []
    · obtain ⟨t, ht⟩ := ih (fun x hx => hall x (List.mem_cons_of_mem _ hx)) hrest
      exact ⟨c ++ t, by simp [ht]⟩
    · have hnil : cs.flatten = [] := by
        rw [List.flatten_eq_nil_iff]
        intro x hx
        by_contra hne
        exact hrest ⟨x, hx, hne⟩
      have hc : c ≠ [] := by
        obtain ⟨x, hx, hne⟩ := hex
        rcases List.mem_cons.1 hx with e1 | e1
        · exact e1 ▸ hne
        · exact absurd ⟨x, e1, hne⟩ hrest
      rcases hall c (List.mem_cons_self _ _) with h0 | ⟨t, ht⟩
      · exact absurd h0 hc
      · exact ⟨t, by simp [hnil, ht]⟩

theorem fieldText_ends (m : Message) (k : Str) :
    fieldText m k = [] ∨ ∃ t, fieldText m k = t ++ m.eolText := by
  unfold fieldText
  split
  · exact Or.inl rfl
  · split
    · split
      · exact Or.inr ⟨_, rfl⟩
      · exact Or.inl rfl
    · exact Or.inl rfl

theorem eolText_of_own (m : Message) (e : Str) (h : m.own (js "EOL") = some (.str e)) :
    m.eolText = e := by
  unfold Message.eolText
  rw [h]
  rfl

theorem lookupProp_of_mem_nodup {α : Type} (ps : List (Str × α))
    (hnodup : (ps.map Prod.fst).Nodup) (p : Str × α) (hp : p ∈ ps) :
    lookupProp p.1 ps = some p.2 := by
  induction ps with
  | nil => simp at hp
  | cons q qs ih =>
    obtain ⟨k, v⟩ := q
    simp only [List.map_cons, List.nodup_cons] at hnodup
    rcases List.mem_cons.1 hp with e | e
    · subst e; simp [lookupProp]
    · have hne : k ≠ p.1 := by
        intro hk
        exact hnodup.1 (hk ▸ List.mem_map_of_mem Prod.fst e)
      simp only [lookupProp, hne, if_false]
      exact ih hnodup.2 e

theorem variableEntries_perm (es : List (Str × Str)) (hnodup : (es.map Prod.fst).Nodup) :
    (variableEntries (some (.obj es))).Perm es := by
  unfold variableEntries
  have h1 := (ownKeys_perm (es.map Prod.fst)).map
    (fun k => (k, (lookupProp k es).getD (js "undefined")))
  refine h1.trans ?_
  rw [List.map_map]
  have : es.map ((fun k => (k, (lookupProp k es).getD (js "undefined"))) ∘ Prod.fst) = es := by
    conv_rhs => rw [← List.map_id es]
    apply List.map_congr_left
    intro p hp
    simp [lookupProp_of_mem_nodup es hnodup p hp]
  rw [this]

theorem assign_keys_of_mem {α : Type} (k : Str) (v : α) (ps : List (Str × α))
    (h : k ∈ ps.map Prod.fst) : (assign k v ps).map Prod.fst = ps.map Prod.fst := by
  induction ps with
  | nil => simp at h
  | cons p ps ih =>
    obtain ⟨k', v'⟩ := p
    unfold assign
    split
    · rfl
    · rename_i hne
      have : k ∈ ps.map Prod.fst := by
        rcases List.mem_cons.1 h with e | e
        · exact absurd e.symm hne
        · exact e
      simp [ih this]

/-! ## Lemmas on populated messages -/

theorem mem_firstNames (ks : List Str) (x : Str) : x ∈ firstNames ks ↔ x ∈ ks := by
  induction ks with
  | nil => simp [firstNames]
  | cons k ks ih =>
    simp only [firstNames, List.mem_cons, List.mem_filter, ih]
    by_cases h : x = k
    · simp [h]
    · simp [h]

theorem firstNames_nodup (ks : List Str) : (firstNames ks).Nodup := by
  induction ks with
  | nil => simp [firstNames]
  | cons k ks ih =>
    simp only [firstNames, List.nodup_cons]
    exact ⟨by simp [List.mem_filter], ih.filter _⟩

theorem firstNames_snoc (ks : List Str) (k : Str) :
    firstNames (ks ++ [k]) = if k ∈ ks then firstNames ks else firstNames ks ++ [k] := by
  induction ks with
  | nil => simp [firstNames]
  | cons a ks ih =>
    rw [List.cons_append, firstNames, ih, firstNames]
    by_cases hk : k ∈ ks
    · simp [hk]
    · by_cases ha : k = a
      · subst ha
        simp [hk, List.filter_append]
      · simp [hk, ha, List.filter_append]

theorem firstNames_of_nodup (ks : List Str) (h : ks.Nodup) : firstNames ks = ks := by
  induction ks with
  | nil => rfl
  | cons k ks ih =>
    simp only [List.nodup_cons] at h
    simp only [firstNames, ih h.2, List.cons.injEq, true_and, List.filter_eq_self]
    intro x hx
    have : x ≠ k := fun e => h.1 (e ▸ hx)
    simpa using this

theorem lastValue_snoc (fs : List (Str × Str)) (p : Str × Str) (k : Str) :
    lastValue (fs ++ [p]) k = if p.1 = k then p.2 else lastValue fs k := by
  unfold lastValue
  simp only [List.reverse_append, List.reverse_singleton, List.singleton_append, List.find?_cons]
  by_cases h : p.1 = k
  · simp [h]
  · simp [h]

theorem lastValue_of_nodup (fs : List (Str × Str)) (h : (fs.map Prod.fst).Nodup)
    (p : Str × Str) (hp : p ∈ fs) : lastValue fs p.1 = p.2 := by
  induction fs using List.reverseRecOn with
  | nil => simp at hp
  | append_singleton fs q ih =>
    rw [lastValue_snoc]
    simp only [List.map_append, List.map_cons, List.map_nil] at h
    have hnd := List.nodup_append.1 h
    rcases List.mem_append.1 hp with e | e
    · have hne : q.1 ≠ p.1 := by
        intro hq
        exact hnd.2.2 (List.mem_map_of_mem Prod.fst e) (by simp [hq])
      rw [if_neg hne]
      exact ih hnd.1 e
    · simp only [List.mem_singleton] at e
      subst e
      simp

theorem assign_append_of_not_mem {α : Type} (k : Str) (v : α) (base ps : List (Str × α))
    (h : k ∉ base.map Prod.fst) : assign k v (base ++ ps) = base ++ assign k v ps := by
  induction base with
  | nil => rfl
  | cons b base ih =>
    obtain ⟨k', v'⟩ := b
    have hne : k' ≠ k := fun e => h (by simp [e])
    have hrest : k ∉ base.map Prod.fst := fun e => h (by simp [e])
    simp [assign, hne, ih hrest]

theorem assign_map_keys {α : Type} (k : Str) (v : α) (g : Str → α) (ks : List Str)
    (hnodup : ks.Nodup) :
    assign k v (ks.map (fun x => (x, g x))) =
      if k ∈ ks then ks.map (fun x => (x, if x = k then v else g x))
      else ks.map (fun x => (x, g x)) ++ [(k, v)] := by
  induction ks with
  | nil => simp [assign]
  | cons a ks ih =>
    simp only [List.nodup_cons] at hnodup
    by_cases ha : a = k
    · subst ha
      simp only [List.map_cons, assign, if_true, List.mem_cons, true_or]
      congr 1
      apply List.map_congr_left
      intro x hx
      have : x ≠ a := fun e => hnodup.1 (e ▸ hx)
      simp [this]
    · have ha' : ¬ k = a := fun e => ha e.symm
      simp only [List.map_cons, assign, ha, if_false, List.mem_cons, ha', false_or, ih hnodup.2]
      by_cases hk : k ∈ ks
      · simp [hk]
      · simp [hk]

theorem populate_snoc (fs : List (Str × Str)) (p : Str × Str) :
    populate (fs ++ [p]) = (populate fs).set p.1 p.2 := by
  unfold populate
  rw [List.foldl_append]
  rfl

theorem populate_props (fs : List (Str × Str))
    (hnames : ∀ p ∈ fs, p.1 ∉ [js "lines", js "EOL", js "variables", js "__proto__"]) :
    (populate fs).props = Message.new.props ++
      (firstNames (fs.map Prod.fst)).map (fun k => (k, Value.str (lastValue fs k))) := by
  induction fs using List.reverseRecOn with
  | nil => rfl
  | append_singleton fs p ih =>
    have hp := hnames p (by simp)
    have ih' := ih (fun q hq => hnames q (by simp [hq]))
    have hproto : p.1 ≠ js "__proto__" := fun e => hp (by simp [e])
    have hbase : p.1 ∉ Message.new.props.map Prod.fst := by
      intro hmem
      apply hp
      have : Message.new.props.map Prod.fst = [js "lines", js "EOL", js "variables"] := rfl
      rw [this] at hmem
      simp only [List.mem_cons, List.mem_singleton, List.not_mem_nil, or_false] at hmem ⊢
      tauto
    rw [populate_snoc]
    unfold Message.set
    rw [if_neg hproto]
    simp only
    rw [ih', assign_append_of_not_mem _ _ _ _ hbase,
      assign_map_keys _ _ _ _ (firstNames_nodup _)]
    simp only [List.map_append, List.map_cons, List.map_nil, firstNames_snoc, mem_firstNames]
    by_cases hmem : p.1 ∈ fs.map Prod.fst
    · rw [if_pos hmem, if_pos hmem]
      congr 1
      apply List.map_congr_left
      intro x _
      rw [lastValue_snoc]
      by_cases hx : x = p.1
      · simp [hx]
      · have hx' : ¬ p.1 = x := fun e => hx e.symm
        simp [hx, hx']
    · rw [if_neg hmem, if_neg hmem]
      simp only [List.map_append, List.map_cons, List.map_nil]
      congr 2
      · apply List.map_congr_left
        intro x hx
        rw [lastValue_snoc]
        have hx' : ¬ p.1 = x := by
          intro e
          exact hmem (e ▸ (mem_firstNames _ _).1 hx)
        simp [hx']
      · rw [lastValue_snoc]; simp

theorem lookupProp_append_of_not_mem {α : Type} (k : Str) (a b : List (Str × α))
    (h : k ∉ a.map Prod.fst) : lookupProp k (a ++ b) = lookupProp k b := by
  induction a with
  | nil => rfl
  | cons p a ih =>
    obtain ⟨k', v'⟩ := p
    have hne : k' ≠ k := fun e => h (by simp [e])
    have hrest : k ∉ a.map Prod.fst := fun e => h (by simp [e])
    simp [lookupProp, hne, ih hrest]

theorem lookupProp_append_of_some {α : Type} (k : Str) (v : α) (a b : List (Str × α))
    (h : lookupProp k a = some v) : lookupProp k (a ++ b) = some v := by
  induction a with
  | nil => simp [lookupProp] at h
  | cons p a ih =>
    obtain ⟨k', v'⟩ := p
    by_cases hk : k' = k
    · simp only [lookupProp, hk, if_true] at h
      simp [lookupProp, hk, h]
    · simp only [lookupProp, hk, if_false] at h
      simp [lookupProp, hk, ih h]

theorem lookupProp_map_keys {α : Type} (k : Str) (g : Str → α) (ks : List Str) (h : k ∈ ks) :
    lookupProp k (ks.map (fun x => (x, g x))) = some (g k) := by
  induction ks with
  | nil => simp at h
  | cons a ks ih =>
    by_cases ha : a = k
    · simp [lookupProp, ha]
    · have : k ∈ ks := by
        rcases List.mem_cons.1 h with e | e
        · exact absurd e.symm ha
        · exact e
      simp [lookupProp, ha, ih this]

theorem flatten_map_nil {α : Type} (f : α → Str) (l : List α) (h : ∀ x ∈ l, f x = []) :
    (l.map f).flatten = [] := by
  rw [List.flatten_eq_nil_iff]
  intro c hc
  obtain ⟨x, hx, rfl⟩ := List.mem_map.1 hc
  exact h x hx

theorem fieldText_reserved (m : Message) (k : Str)
    (hk : k ∈ [js "lines", js "EOL", js "variables"]) : fieldText m k = [] := by
  unfold fieldText
  by_cases hv : k = js "variables"
  · rw [if_pos hv]
  · rw [if_neg hv]
    have hf : ¬ (k ≠ js "lines" ∧ k ≠ js "EOL") := by
      intro h
      simp only [List.mem_cons, List.mem_singleton, List.not_mem_nil, or_false] at hk
      rcases hk with e | e | e
      · exact h.1 e
      · exact h.2 e
      · exact hv e
    cases m.own k with
    | none => rfl
    | some v => simp only [if_neg hf]

theorem fieldText_of_none (m : Message) (k : Str) (h : m.own k = none) : fieldText m k = [] := by
  unfold fieldText
  split
  · rfl
  · rw [h]

/-- The own properties of a populated message, looked up. -/
theorem populate_own (fs : List (Str × Str))
    (hnames : ∀ p ∈ fs, p.1 ∉ [js "lines", js "EOL", js "variables", js "__proto__"])
    (k : Str) :
    (populate fs).own k =
      if k ∈ fs.map Prod.fst then some (.str (lastValue fs k)) else Message.new.own k := by
  unfold Message.own
  rw [populate_props fs hnames]
  by_cases hk : k ∈ fs.map Prod.fst
  · rw [if_pos hk]
    have hbase : k ∉ Message.new.props.map Prod.fst := by
      obtain ⟨p, hp, rfl⟩ := List.mem_map.1 hk
      have := hnames p hp
      intro hmem
      apply this
      have e : Message.new.props.map Prod.fst = [js "lines", js "EOL", js "variables"] := rfl
      rw [e] at hmem
      simp only [List.mem_cons, List.mem_singleton, List.not_mem_nil, or_false] at hmem ⊢
      tauto
    rw [lookupProp_append_of_not_mem _ _ _ hbase]
    exact lookupProp_map_keys k _ _ ((mem_firstNames _ _).2 hk)
  · rw [if_neg hk]
    cases hb : lookupProp k Message.new.props with
    | some v => exact lookupProp_append_of_some _ _ _ _ hb
    | none =>
      apply lookupProp_none
      intro hmem
      rw [List.map_append] at hmem
      rcases List.mem_append.1 hmem with e | e
      · have hn := lookupProp_none k Message.new.props
        cases hl : lookupProp k Message.new.props with
        | some v => rw [hl] at hb; exact Option.noConfusion hb
        | none =>
          revert e
          have e2 : Message.new.props.map Prod.fst = [js "lines", js "EOL", js "variables"] := rfl
          rw [e2]
          intro e
          simp only [List.mem_cons, List.mem_singleton, List.not_mem_nil, or_false] at e
          rcases e with e | e | e <;> subst e <;> revert hb <;> decide
      · rw [List.map_map] at e
        obtain ⟨x, hx, rfl⟩ := List.mem_map.1 e
        exact hk ((mem_firstNames _ _).1 hx)

theorem populate_marshall (fs : List (Str × Str))
    (hnames : ∀ p ∈ fs, p.1 ∉
      [js "lines", js "EOL", js "variables", js "hasOwnProperty", js "__proto__"]) :
    (populate fs).marshall =
      some ((((ownKeys ((populate fs).props.map Prod.fst)).filter
        (fun k => decide (k ∈ fs.map Prod.fst))).map
          (fun k => fieldLine (k, lastValue fs k) ++ CRLF)).flatten ++ CRLF) := by
  have hnames' : ∀ p ∈ fs, p.1 ∉ [js "lines", js "EOL", js "variables", js "__proto__"] := by
    intro p hp hmem
    apply hnames p hp
    simp only [List.mem_cons, List.mem_singleton, List.not_mem_nil, or_false] at hmem ⊢
    tauto
  have hown := populate_own fs hnames'
  have hnot : ∀ k, k ∈ [js "lines", js "EOL", js "variables", js "hasOwnProperty"] →
      k ∉ fs.map Prod.fst := by
    intro k hk hmem
    obtain ⟨p, hp, rfl⟩ := List.mem_map.1 hmem
    apply hnames p hp
    simp only [List.mem_cons, List.mem_singleton, List.not_mem_nil, or_false] at hk ⊢
    tauto
  have hhas : (populate fs).own (js "hasOwnProperty") = none := by
    rw [hown, if_neg (hnot _ (by decide))]; rfl
  have heol : (populate fs).eolText = CRLF := by
    apply eolText_of_own
    rw [hown, if_neg (hnot _ (by decide))]; rfl
  have hvars : (populate fs).own (js "variables") = some (.obj []) := by
    rw [hown, if_neg (hnot _ (by decide))]; rfl
  rw [marshall_eq _ hhas, hvars, heol]
  have hV : variableEntries (some (.obj [])) = [] := rfl
  rw [hV]
  simp only [List.map_nil, List.flatten_nil, List.append_nil]
  congr 2
  unfold forInKeys
  rw [List.map_append, List.flatten_append]
  have hP : ((protoMethods.filter (fun k => ((populate fs).own k).isNone)).map
      (fieldText (populate fs))).flatten = [] := by
    apply flatten_map_nil
    intro k hk
    have := (List.mem_filter.1 hk).2
    apply fieldText_of_none
    cases h : (populate fs).own k with
    | none => rfl
    | some v => rw [h] at this; simp at this
  rw [hP, List.append_nil]
  generalize ownKeys ((populate fs).props.map Prod.fst) = keys
  induction keys with
  | nil => rfl
  | cons k keys ih =>
    simp only [List.map_cons, List.flatten_cons, List.filter_cons]
    by_cases hk : k ∈ fs.map Prod.fst
    · have hres : k ≠ js "variables" ∧ k ≠ js "lines" ∧ k ≠ js "EOL" := by
        refine ⟨?_, ?_, ?_⟩ <;> intro e <;> exact hnot k (by simp [e]) hk
      have hft : fieldText (populate fs) k = fieldLine (k, lastValue fs k) ++ CRLF := by
        unfold fieldText
        rw [if_neg hres.1, hown, if_pos hk]
        simp only
        rw [if_pos ⟨hres.2.1, hres.2.2⟩, heol]
        rfl
      simp only [hk, decide_True, if_true, List.map_cons, List.flatten_cons, hft, ih]
    · have hft : fieldText (populate fs) k = [] := by
        by_cases hr : k ∈ [js "lines", js "EOL", js "variables"]
        · exact fieldText_reserved _ k hr
        · apply fieldText_of_none
          rw [hown, if_neg hk]
          cases hb : Message.new.own k with
          | none => rfl
          | some v =>
            exfalso
            apply hr
            exact lookupProp_mem k v _ hb
      simp only [hk, decide_False, Bool.false_eq_true, if_false, hft, List.nil_append, ih]

/-! ## Lemmas on the round trip -/

theorem splitGo_cons (sep cur : Str) (c : Nat) (cs : Str) :
    splitGo sep 0 cur (c :: cs) =
      if sep.isPrefixOf (c :: cs) then cur :: splitGo sep (sep.length - 1) [] cs
      else splitGo sep 0 (cur ++ [c]) cs := by
  simp only [splitGo]

theorem storeSeq_cons (toLowerCase : Str → Str) (value : Option Str) (l : Str)
    (ls : List Str) :
    storeSeq toLowerCase value (l :: ls) =
      (setArgs toLowerCase value l).bind
        (fun a => (storeSeq toLowerCase (lineKeyValue value l).2 ls).map (a :: ·)) := by
  simp only [storeSeq]
  cases setArgs toLowerCase value l <;> rfl

theorem splitGo_crlf_line (l rest : Str) (h : 10 ∉ l) :
    ∀ cur : Str,
      splitGo CRLF 0 cur (l ++ CRLF ++ rest) = (cur ++ l) :: splitGo CRLF 0 [] rest := by
  induction l with
  | nil => intro cur; simp [splitGo, CRLF, List.isPrefixOf]
  | cons c l ih =>
    intro cur
    have hc : c ≠ 10 := fun e => h (by simp [e])
    have hl : 10 ∉ l := fun e => h (by simp [e])
    have hpre : CRLF.isPrefixOf (c :: (l ++ CRLF ++ rest)) = false := by
      cases l with
      | nil => simp [CRLF, List.isPrefixOf]
      | cons d l' =>
        have hd : d ≠ 10 := fun e => hl (by simp [e])
        have hd' : ¬ 10 = d := fun e => hd e.symm
        simp [CRLF, List.isPrefixOf, hd']
    rw [List.cons_append, List.cons_append, splitGo_cons, hpre]
    simp only [Bool.false_eq_true, if_false]
    rw [ih hl]
    simp

theorem split_crlf_lines (ls : List Str) (h : ∀ l ∈ ls, 10 ∉ l) :
    split CRLF ((ls.map (fun l => l ++ CRLF)).flatten ++ CRLF) = ls ++ [[], []] := by
  unfold split
  rw [if_neg (by decide)]
  induction ls with
  | nil => decide
  | cons l ls ih =>
    simp only [List.map_cons, List.flatten_cons, List.append_assoc]
    have := splitGo_crlf_line l ((ls.map (fun l => l ++ CRLF)).flatten ++ CRLF)
      (h l (List.mem_cons_self _ _)) []
    simp only [List.append_assoc, List.nil_append] at this
    rw [this, ih (fun x hx => h x (List.mem_cons_of_mem _ hx))]
    rfl

theorem not_infix_across_colon (n k v : Str) (hn58 : 58 ∉ n) (hn32 : 32 ∉ n.head?)
    (hne : n ≠ []) (hk : ¬ n <:+: k) (hv : ¬ n <:+: v) : ¬ n <:+: k ++ 58 :: 32 :: v := by
  rintro ⟨s, t, h⟩
  rw [List.append_assoc, List.append_eq_append_iff] at h
  rcases h with ⟨a', hka, hnt⟩ | ⟨c', hs, hd⟩
  · rw [List.append_eq_append_iff] at hnt
    rcases hnt with ⟨x, hx, -⟩ | ⟨y, hy, hy2⟩
    · exact hk ⟨s, x, by rw [hka, hx, List.append_assoc]⟩
    · cases y with
      | nil =>
        rw [List.append_nil] at hy
        exact hk ⟨s, [], by rw [hka, hy, List.append_nil]⟩
      | cons y0 y' =>
        simp only [List.cons_append, List.cons.injEq] at hy2
        exact hn58 (by rw [hy, hy2.1]; simp)
  · cases c' with
    | nil =>
      cases n with
      | nil => exact hne rfl
      | cons n0 n' =>
        simp only [List.nil_append, List.cons_append, List.cons.injEq] at hd
        exact hn58 (by rw [hd.1]; simp)
    | cons c0 c'' =>
      simp only [List.cons_append, List.cons.injEq] at hd
      obtain ⟨-, hd⟩ := hd
      cases c'' with
      | nil =>
        cases n with
        | nil => exact hne rfl
        | cons n0 n' =>
          simp only [List.nil_append, List.cons_append, List.cons.injEq] at hd
          exact hn32 (by rw [hd.1]; simp)
      | cons c1 c3 =>
        simp only [List.cons_append, List.cons.injEq] at hd
        exact hv ⟨c3, t, by rw [hd.2, List.append_assoc]⟩

theorem beforeFirstColon_append (k x : Str) (h : 58 ∉ k) :
    beforeFirstColon (k ++ 58 :: x) = k := by
  induction k with
  | nil => simp [beforeFirstColon, List.takeWhile]
  | cons c k ih =>
    have hc : c ≠ 58 := fun e => h (by simp [e])
    have hk : 58 ∉ k := fun e => h (by simp [e])
    have := ih hk
    unfold beforeFirstColon at this ⊢
    simpa [List.takeWhile, hc] using this

theorem afterFirstColon_append (k x : Str) (h : 58 ∉ k) :
    afterFirstColon (k ++ 58 :: x) = x := by
  induction k with
  | nil => simp [afterFirstColon, List.dropWhile]
  | cons c k ih =>
    have hc : c ≠ 58 := fun e => h (by simp [e])
    have hk : 58 ∉ k := fun e => h (by simp [e])
    have := ih hk
    unfold afterFirstColon at this ⊢
    simpa [List.dropWhile, hc] using this

theorem fieldLine_eq (p : Str × Str) : fieldLine p = p.1 ++ 58 :: 32 :: p.2 := by
  unfold fieldLine
  have : js ": " = [58, 32] := by decide
  rw [this]
  simp

/-- What one field line of a marshalled message decodes to. -/
theorem lineKeyValue_fieldLine (value : Option Str) (p : Str × Str)
    (hk58 : 58 ∉ p.1) (hks : ¬ END_COMMAND <:+: p.1) (hvs : ¬ END_COMMAND <:+: p.2) :
    lineKeyValue value (fieldLine p) = (some p.1, some (32 :: p.2)) := by
  have hs : ¬ END_COMMAND <:+: fieldLine p := by
    rw [fieldLine_eq]
    exact not_infix_across_colon END_COMMAND p.1 p.2 (by decide) (by decide) (by decide) hks hvs
  have hc : 58 ∈ fieldLine p := by rw [fieldLine_eq]; simp
  rw [lineKeyValue_colon value _ hs hc, fieldLine_eq, beforeFirstColon_append _ _ hk58,
    afterFirstColon_append _ _ hk58]

theorem setArgs_fieldLine (toLowerCase : Str → Str) (value : Option Str) (p : Str × Str)
    (hk58 : 58 ∉ p.1) (hks : ¬ END_COMMAND <:+: p.1) (hvs : ¬ END_COMMAND <:+: p.2)
    (hv1 : NoLeadingSpace p.2) (hv2 : NoTrailingSpace p.2) :
    setArgs toLowerCase value (fieldLine p) = some (normaliseName toLowerCase p.1, p.2) := by
  unfold setArgs
  rw [lineKeyValue_fieldLine value p hk58 hks hvs]
  simp only
  rw [trim_space_cons, trim_eq_self _ hv1 hv2, replaceFirstHyphen_eq]
  rfl

theorem lineKeyValue_empty (value : Option Str) : lineKeyValue value [] = (some [], value) :=
  lineKeyValue_plain value [] (by decide) (by simp)

/-- The `value` left after the lines of the fields `E`. -/
theorem storeSeq_fieldLines (toLowerCase : Str → Str) (tail : List Str) :
    ∀ (E : List (Str × Str)) (value : Option Str),
      (∀ p ∈ E, 58 ∉ p.1 ∧ ¬ END_COMMAND <:+: p.1 ∧ ¬ END_COMMAND <:+: p.2 ∧
        NoLeadingSpace p.2 ∧ NoTrailingSpace p.2) →
      storeSeq toLowerCase value (E.map fieldLine ++ tail) =
        (storeSeq toLowerCase (E.foldl (fun _ p => some (32 :: p.2)) value) tail).map
          (fun r => E.map (fun p => (normaliseName toLowerCase p.1, p.2)) ++ r) := by
  intro E
  induction E with
  | nil => intro value _; simp
  | cons p E ih =>
    intro value h
    obtain ⟨h1, h2, h3, h4, h5⟩ := h p (List.mem_cons_self _ _)
    rw [List.map_cons, List.cons_append, storeSeq_cons,
      setArgs_fieldLine toLowerCase value p h1 h2 h3 h4 h5,
      lineKeyValue_fieldLine value p h1 h2 h3, List.foldl_cons,
      ih _ (fun q hq => h q (List.mem_cons_of_mem _ hq))]
    simp only [Option.some_bind, Option.map_map]
    rfl

theorem foldl_raw_isSome (E : List (Str × Str)) (h : E ≠ []) :
    ∀ value : Option Str, ∃ raw, E.foldl (fun _ p => some (32 :: p.2)) value = some raw := by
  induction E with
  | nil => exact absurd rfl h
  | cons p E ih =>
    intro value
    cases E with
    | nil => exact ⟨_, rfl⟩
    | cons q E => exact ih (by simp) (some (32 :: p.2))

theorem storeSeq_blank_lines (toLowerCase : Str → Str) (hlow : toLowerCase [] = []) (raw : Str) :
    storeSeq toLowerCase (some raw) [[], []] = some [([], trim raw), ([], trim raw)] := by
  have hargs : setArgs toLowerCase (some raw) [] = some ([], trim raw) := by
    unfold setArgs
    rw [lineKeyValue_empty]
    simp [replaceFirstHyphen, hlow]
  rw [storeSeq_cons, hargs, lineKeyValue_empty]
  simp only [Option.some_bind]
  rw [storeSeq_cons, hargs, lineKeyValue_empty]
  simp [storeSeq]

theorem own_setAll_of_mem_nodup (args : List (Str × Str)) :
    ∀ (m : Message) (a : Str × Str), (args.map Prod.fst).Nodup → a ∈ args →
      a.1 ≠ js "__proto__" → (setAll m args).own a.1 = some (.str a.2) := by
  induction args with
  | nil => intro m a _ ha; simp at ha
  | cons b rest ih =>
    intro m a hnd ha hp
    simp only [List.map_cons, List.nodup_cons] at hnd
    rw [setAll_cons]
    rcases List.mem_cons.1 ha with e | e
    · subst e
      rw [own_setAll_of_not_mem rest _ a.1, own_set_self m a.1 a.2 hp]
      intro c hc hca
      exact hnd.1 (hca ▸ List.mem_map_of_mem Prod.fst hc)
    · exact ih _ a hnd.2 e hp

/-- Decoding the marshalled text of the fields `E`: the two blank lines of the
terminator store the empty key with the value `w` of the last field line. -/
theorem unmarshall_fieldLines (toLowerCase : Str → Str) (hlow : toLowerCase [] = [])
    (E : List (Str × Str)) (hE : E ≠ [])
    (hgood : ∀ p ∈ E, 58 ∉ p.1 ∧ 10 ∉ p.1 ∧ 10 ∉ p.2 ∧ ¬ END_COMMAND <:+: p.1 ∧
      ¬ END_COMMAND <:+: p.2 ∧ NoLeadingSpace p.2 ∧ NoTrailingSpace p.2)
    (hkeys : ∀ p ∈ E, normaliseName toLowerCase p.1 ≠ js "lines" ∧
      normaliseName toLowerCase p.1 ≠ js "set") :
    ∃ w, Message.unmarshall toLowerCase Message.new
        ((E.map (fun p => fieldLine p ++ CRLF)).flatten ++ CRLF) =
      .returned (setAll
        ⟨assign (js "lines") (.arr (E.map fieldLine ++ [[], []])) Message.new.props⟩
        (E.map (fun p => (normaliseName toLowerCase p.1, p.2)) ++ [([], w), ([], w)])) := by
  have htext : (E.map (fun p => fieldLine p ++ CRLF)).flatten ++ CRLF =
      ((E.map fieldLine).map (fun l => l ++ CRLF)).flatten ++ CRLF := by
    rw [List.map_map]; rfl
  have hsplit : Message.new.splitLines ((E.map (fun p => fieldLine p ++ CRLF)).flatten ++ CRLF)
      = E.map fieldLine ++ [[], []] := by
    have h0 : ∀ d, Message.new.splitLines d = split CRLF d := fun _ => rfl
    rw [h0, htext, split_crlf_lines]
    intro l hl
    obtain ⟨p, hp, rfl⟩ := List.mem_map.1 hl
    obtain ⟨-, h2, h3, -⟩ := hgood p hp
    rw [fieldLine_eq]
    simp only [List.mem_append, List.mem_cons, not_or]
    exact ⟨h2, by decide, by decide, h3⟩
  obtain ⟨raw, hraw⟩ := foldl_raw_isSome E hE none
  have hseq : storeSeq toLowerCase none (E.map fieldLine ++ [[], []]) =
      some (E.map (fun p => (normaliseName toLowerCase p.1, p.2)) ++
        [([], trim raw), ([], trim raw)]) := by
    rw [storeSeq_fieldLines toLowerCase [[], []] E none
      (fun p hp => ⟨(hgood p hp).1, (hgood p hp).2.2.2.1, (hgood p hp).2.2.2.2.1,
        (hgood p hp).2.2.2.2.2.1, (hgood p hp).2.2.2.2.2.2⟩),
      hraw, storeSeq_blank_lines toLowerCase hlow raw]
    rfl
  refine ⟨trim raw, ?_⟩
  have := unmarshall_of_storeSeq toLowerCase Message.new
    ((E.map (fun p => fieldLine p ++ CRLF)).flatten ++ CRLF)
    (E.map (fun p => (normaliseName toLowerCase p.1, p.2)) ++ [([], trim raw), ([], trim raw)])
    (by decide) (by rw [hsplit]; exact hseq) ?_
  · rw [this, hsplit]
  · intro a ha
    rcases List.mem_append.1 ha with h | h
    · obtain ⟨p, hp, rfl⟩ := List.mem_map.1 h
      exact hkeys p hp
    · simp only [List.mem_cons, List.mem_singleton, List.not_mem_nil, or_false, or_self] at h
      subst h
      have h1 : ([] : Str) ≠ js "lines" := by decide
      have h2 : ([] : Str) ≠ js "set" := by decide
      exact ⟨h1, h2⟩

/-- The fields `marshall` emits for a populated message with distinct names, in the
order it emits them: the same fields as were stored. -/
theorem populate_marshall_perm (fs : List (Str × Str))
    (hnames : ∀ p ∈ fs, p.1 ∉
      [js "lines", js "EOL", js "variables", js "hasOwnProperty", js "__proto__"])
    (hnodup : (fs.map Prod.fst).Nodup) :
    ∃ E : List (Str × Str), E.Perm fs ∧
      (populate fs).marshall = some ((E.map (fun p => fieldLine p ++ CRLF)).flatten ++ CRLF) := by
  have hnames' : ∀ p ∈ fs, p.1 ∉ [js "lines", js "EOL", js "variables", js "__proto__"] := by
    intro p hp hmem
    apply hnames p hp
    simp only [List.mem_cons, List.mem_singleton, List.not_mem_nil, or_false] at hmem ⊢
    tauto
  refine ⟨((ownKeys ((populate fs).props.map Prod.fst)).filter
    (fun k => decide (k ∈ fs.map Prod.fst))).map (fun k => (k, lastValue fs k)), ?_, ?_⟩
  · have hkeys : (populate fs).props.map Prod.fst =
        [js "lines", js "EOL", js "variables"] ++ fs.map Prod.fst := by
      rw [populate_props fs hnames', List.map_append, List.map_map,
        firstNames_of_nodup _ hnodup]
      congr 1
      exact List.map_id _
    have h1 : ((ownKeys ((populate fs).props.map Prod.fst)).filter
        (fun k => decide (k ∈ fs.map Prod.fst))).Perm (fs.map Prod.fst) := by
      refine ((ownKeys_perm _).filter _).trans ?_
      rw [hkeys, List.filter_append]
      have hb : List.filter (fun k => decide (k ∈ fs.map Prod.fst))
          [js "lines", js "EOL", js "variables"] = [] := by
        rw [List.filter_eq_nil_iff]
        intro k hk
        simp only [decide_eq_true_eq]
        intro hmem
        obtain ⟨p, hp, rfl⟩ := List.mem_map.1 hmem
        apply hnames p hp
        simp only [List.mem_cons, List.mem_singleton, List.not_mem_nil, or_false] at hk ⊢
        tauto
      have hn : List.filter (fun k => decide (k ∈ fs.map Prod.fst)) (fs.map Prod.fst) =
          fs.map Prod.fst := by
        rw [List.filter_eq_self]
        intro k hk
        simpa using hk
      rw [hb, hn, List.nil_append]
    refine (h1.map _).trans ?_
    rw [List.map_map]
    have : fs.map ((fun k => (k, lastValue fs k)) ∘ Prod.fst) = fs := by
      conv_rhs => rw [← List.map_id fs]
      apply List.map_congr_left
      intro p hp
      simp [lastValue_of_nodup fs hnodup p hp]
    rw [this]
  · rw [populate_marshall fs hnames, List.map_map]
    rfl

/-! ## The iteration budget of `unmarshall` is never exhausted -/

theorem splitGo_piece_length (sep : Str) (s : Str) :
    ∀ (k : Nat) (cur : Str), ∀ x ∈ splitGo sep k cur s,
      x.length ≤ cur.length + s.length := by
  induction s with
  | nil =>
    intro k cur x hx
    simp only [splitGo, List.mem_singleton] at hx
    subst hx
    simp
  | cons c cs ih =>
    intro k cur x hx
    cases k with
    | zero =>
      rw [splitGo_cons] at hx
      split at hx
      · rcases List.mem_cons.1 hx with e | e
        · subst e; simp
        · have := ih _ _ x e
          simp only [List.length_nil, List.length_cons] at this ⊢
          omega
      · have := ih _ _ x hx
        simp only [List.length_append, List.length_cons, List.length_nil] at this ⊢
        omega
    | succ k =>
      simp only [splitGo] at hx
      have := ih _ _ x hx
      simp only [List.length_cons]
      omega

theorem split_piece_length (sep s : Str) : ∀ x ∈ split sep s, x.length ≤ s.length := by
  intro x hx
  unfold split at hx
  split at hx
  · obtain ⟨c, hc, rfl⟩ := List.mem_map.1 hx
    have : 0 < s.length := List.length_pos_of_mem hc
    simp only [List.length_singleton]
    omega
  · simpa using splitGo_piece_length sep s 0 [] x hx

theorem splitLines_piece_length (m : Message) (data : Str) :
    ∀ x ∈ m.splitLines data, x.length ≤ data.length := by
  intro x hx
  unfold Message.splitLines at hx
  split at hx
  · exact split_piece_length _ _ x hx
  · simp only [List.mem_singleton] at hx
    subst hx
    exact Nat.le_refl _

theorem lineKeyValue_value_length (N : Nat) (value : Option Str) (l : Str)
    (hl : l.length ≤ N) (hv : ∀ v, value = some v → v.length ≤ N) :
    ∀ v, (lineKeyValue value l).2 = some v → v.length ≤ N := by
  intro v h
  by_cases hs : END_COMMAND <:+: l
  · rw [lineKeyValue_sentinel value l hs] at h
    simp only [Option.some.injEq] at h
    subst h
    exact Nat.le_trans (removeFirst_length_le _ _) hl
  · by_cases hc : 58 ∈ l
    · rw [lineKeyValue_colon value l hs hc] at h
      simp only [Option.some.injEq] at h
      subst h
      have := congrArg List.length (before_colon_after l hc)
      simp only [List.length_append, List.length_cons] at this
      omega
    · rw [lineKeyValue_plain value l hs hc] at h
      exact hv v h

/-- The bound kept by the loop: `lines` holds at most `N + 1` pieces of at most `N`
code units, or a string of at most `N` code units. -/
theorem unmarshallLoop_ne_outOfFuel (toLowerCase : Str → Str) (N : Nat) :
    ∀ (fuel : Nat) (m : Message) (value : Option Str) (i : Nat),
      (∀ xs, m.own (js "lines") = some (.arr xs) →
        xs.length ≤ N + 1 ∧ ∀ x ∈ xs, x.length ≤ N) →
      (∀ s, m.own (js "lines") = some (.str s) → s.length ≤ N) →
      (∀ v, value = some v → v.length ≤ N) →
      N + 2 ≤ fuel + i → i ≤ N + 1 →
      unmarshallLoop toLowerCase fuel m value i ≠ .outOfFuel := by
  intro fuel
  induction fuel with
  | zero => intro m value i _ _ _ h1 h2; omega
  | succ fuel ih =>
    intro m value i harr hstr hval hfuel hi
    simp only [unmarshallLoop]
    cases hline : m.lineAt i with
    | stop => simp
    | typeError => simp
    | line l =>
      simp only
      have hl : l.length ≤ N ∧ i ≤ N := by
        unfold Message.lineAt at hline
        cases hown : m.own (js "lines") with
        | none => rw [hown] at hline; simp at hline
        | some val =>
          rw [hown] at hline
          cases val with
          | obj es => simp at hline
          | arr xs =>
            simp only at hline
            cases hget : xs.get? i with
            | none => rw [hget] at hline; simp at hline
            | some x =>
              rw [hget] at hline
              simp only [LineRead.line.injEq] at hline
              subst hline
              have hb := harr xs hown
              have hlt : i < xs.length := by
                by_contra hge
                rw [List.get?_eq_none.2 (by omega)] at hget
                exact Option.noConfusion hget
              exact ⟨hb.2 x (List.get?_mem hget), by omega⟩
          | str s =>
            simp only at hline
            cases hget : s.get? i with
            | none => rw [hget] at hline; simp at hline
            | some c =>
              rw [hget] at hline
              simp only [LineRead.line.injEq] at hline
              subst hline
              have hb := hstr s hown
              have hlt : i < s.length := by
                by_contra hge
                rw [List.get?_eq_none.2 (by omega)] at hget
                exact Option.noConfusion hget
              simp only [List.length_singleton]
              omega
      cases hstep : unmarshallStep toLowerCase m value l with
      | none => simp
      | some r =>
        obtain ⟨m1, value1⟩ := r
        simp only
        have hval1 := lineKeyValue_value_length N value l hl.1 hval
        unfold unmarshallStep at hstep
        cases hargs : setArgs toLowerCase value l with
        | none => rw [hargs] at hstep; simp at hstep
        | some a =>
          obtain ⟨k, v⟩ := a
          rw [hargs] at hstep
          simp only at hstep
          split at hstep
          · simp at hstep
          · simp only [Option.some.injEq, Prod.mk.injEq] at hstep
            obtain ⟨hm1, hv1⟩ := hstep
            subst hm1; subst hv1
            have hvlen : v.length ≤ N := by
              rw [setArgs_eq] at hargs
              cases hraw : (lineKeyValue value l).2 with
              | none => rw [hraw] at hargs; simp at hargs
              | some raw =>
                rw [hraw] at hargs
                simp only [Option.map_some', Option.some.injEq, Prod.mk.injEq] at hargs
                rw [← hargs.2]
                exact Nat.le_trans (trim_length_le raw) (hval1 raw hraw)
            refine ih _ _ (i + 1) ?_ ?_ hval1 (by omega) (by omega)
            · intro xs hxs
              rcases own_set_cases m k _ v _ hxs with h | ⟨-, h⟩
              · exact harr xs h
              · exact Value.noConfusion h
            · intro s hs
              rcases own_set_cases m k _ v _ hs with h | ⟨-, h⟩
              · exact hstr s h
              · simp only [Value.str.injEq] at h
                rw [h]; exact hvlen

/-- The budget `data.length + 2` given to the loop by `unmarshall` always suffices:
`unmarshall` returns or raises. -/
theorem unmarshall_ne_outOfFuel (toLowerCase : Str → Str) (m : Message) (data : Str) :
    Message.unmarshall toLowerCase m data ≠ .outOfFuel := by
  unfold Message.unmarshall
  have hown : (Message.mk (assign (js "lines") (.arr (m.splitLines data)) m.props)).own
      (js "lines") = some (.arr (m.splitLines data)) := lookupProp_assign_self _ _ _
  apply unmarshallLoop_ne_outOfFuel toLowerCase data.length
  · intro xs hxs
    rw [hown] at hxs
    simp only [Option.some.injEq, Value.arr.injEq] at hxs
    subst hxs
    exact ⟨splitLines_length_le m data, splitLines_piece_length m data⟩
  · intro s hs
    rw [hown] at hs
    simp at hs
  · intro v hv; simp at hv
  · omega
  · omega

/-! ## Lemmas on get -/

theorem get_of_own (m : Message) (name : Str) (v : Value) (h : m.own name = some v) :
    m.get name = .own v := by
  unfold Message.get
  rw [h]

theorem get_congr (m m' : Message) (name : Str) (h : m'.own name = m.own name) :
    m'.get name = m.get name := by
  unfold Message.get
  rw [h]

theorem own_setVariable_ne (m : Message) (key v name : Str) (hne : name ≠ js "variables") :
    (m.setVariable key v).own name = m.own name := by
  unfold Message.setVariable
  split
  · split
    · rfl
    · exact lookupProp_assign_ne (js "variables") name _ m.props (fun e => hne e.symm)
  · rfl

/-! ## More lemmas on the loop -/

theorem join_splitGo (sep : Str) (hsep : sep ≠ []) :
    ∀ (n : Nat) (s cur : Str), s.length ≤ n → join sep (splitGo sep 0 cur s) = cur ++ s := by
  intro n
  induction n with
  | zero =>
    intro s cur hs
    have : s = [] := List.length_eq_zero.1 (Nat.le_zero.1 hs)
    subst this
    simp [splitGo, join]
  | succ n ih =>
    intro s cur hs
    cases s with
    | nil => simp [splitGo, join]
    | cons c cs =>
      rw [splitGo_cons]
      by_cases hp : sep.isPrefixOf (c :: cs) = true
      · rw [if_pos hp, join_cons_of_ne_nil _ _ _ (splitGo_ne_nil _ _ _ _), splitGo_skip]
        obtain ⟨t, ht⟩ := List.isPrefixOf_iff_prefix.1 hp
        obtain ⟨d, ds, rfl⟩ : ∃ d ds, sep = d :: ds := by
          cases sep with
          | nil => exact absurd rfl hsep
          | cons d ds => exact ⟨d, ds, rfl⟩
        simp only [List.cons_append, List.cons.injEq] at ht
        obtain ⟨hd, hcs⟩ := ht
        subst hd
        have hdrop : List.drop ((d :: ds).length - 1) cs = t := by
          rw [← hcs]
          simp
        have hlen : t.length ≤ n := by
          have := congrArg List.length hcs
          simp only [List.length_append, List.length_cons] at this hs
          omega
        rw [hdrop, ih t [] hlen, ← hcs]
        simp
      · rw [if_neg hp, ih cs (cur ++ [c]) (by simp only [List.length_cons] at hs; omega)]
        simp

theorem join_split_crlf (s : Str) : join CRLF (split CRLF s) = s := by
  unfold split
  rw [if_neg (by decide)]
  simpa using join_splitGo CRLF (by decide) s.length s [] (Nat.le_refl _)

theorem storeSeq_map_fst (toLowerCase : Str → Str) :
    ∀ (ls : List Str) (value : Option Str) (args : List (Str × Str)),
      storeSeq toLowerCase value ls = some args →
      args.map Prod.fst = ls.map (normalisedKey toLowerCase) := by
  intro ls
  induction ls with
  | nil =>
    intro value args h
    simp only [storeSeq, Option.some.injEq] at h
    subst h
    rfl
  | cons l ls ih =>
    intro value args h
    rw [storeSeq_cons] at h
    cases hargs : setArgs toLowerCase value l with
    | none => rw [hargs] at h; simp at h
    | some a =>
      rw [hargs] at h
      simp only [Option.some_bind] at h
      cases hrest : storeSeq toLowerCase (lineKeyValue value l).2 ls with
      | none => rw [hrest] at h; simp at h
      | some rest =>
        rw [hrest] at h
        simp only [Option.map_some', Option.some.injEq] at h
        subst h
        rw [setArgs_eq] at hargs
        cases hraw : (lineKeyValue value l).2 with
        | none => rw [hraw] at hargs; simp at hargs
        | some raw =>
          rw [hraw] at hargs
          simp only [Option.map_some', Option.some.injEq] at hargs
          subst hargs
          simp [ih _ _ hrest]

theorem unmarshallStep_some (toLowerCase : Str → Str) (m m1 : Message)
    (value value1 : Option Str) (l : Str)
    (h : unmarshallStep toLowerCase m value l = some (m1, value1)) :
    ∃ k v, setArgs toLowerCase value l = some (k, v) ∧ m.own (js "set") = none ∧
      m1 = m.set k v ∧ value1 = (lineKeyValue value l).2 := by
  unfold unmarshallStep at h
  cases hargs : setArgs toLowerCase value l with
  | none => rw [hargs] at h; simp at h
  | some a =>
    obtain ⟨k, v⟩ := a
    rw [hargs] at h
    simp only at h
    split at h
    · simp at h
    · rename_i hset
      simp only [Option.some.injEq, Prod.mk.injEq] at h
      refine ⟨k, v, rfl, ?_, h.1.symm, h.2.symm⟩
      cases hs : m.own (js "set") with
      | none => rfl
      | some w => rw [hs] at hset; simp at hset

/-- A completed loop over an array of lines, none of whose keys is `lines`, made one
`set` call per remaining line, in order. -/
theorem unmarshallLoop_returned (toLowerCase : Str → Str) (L : List Str) :
    ∀ (fuel i : Nat) (m : Message) (value : Option Str) (m' : Message),
      m.own (js "lines") = some (.arr L) →
      (∀ l ∈ L.drop i, normalisedKey toLowerCase l ≠ js "lines") →
      unmarshallLoop toLowerCase fuel m value i = .returned m' →
      ∃ args, storeSeq toLowerCase value (L.drop i) = some args ∧ m' = setAll m args ∧
        m'.own (js "lines") = some (.arr L) := by
  intro fuel
  induction fuel with
  | zero => intro i m value m' _ _ h; simp [unmarshallLoop] at h
  | succ fuel ih =>
    intro i m value m' hlines hkeys h
    simp only [unmarshallLoop, lineAt_arr m L i hlines] at h
    cases hget : L.get? i with
    | none =>
      rw [hget] at h
      simp only [Outcome.returned.injEq] at h
      subst h
      have hdrop : L.drop i = [] := List.drop_eq_nil_iff.2 (List.get?_eq_none.1 hget)
      rw [hdrop]
      exact ⟨[], rfl, rfl, hlines⟩
    | some l =>
      rw [hget] at h
      simp only at h
      have hi : i < L.length := by
        by_contra hge
        rw [List.get?_eq_none.2 (by omega)] at hget
        exact Option.noConfusion hget
      have hdrop : L.drop i = l :: L.drop (i + 1) := by
        rw [List.drop_eq_getElem_cons hi]
        rw [List.get?_eq_get hi] at hget
        simp only [Option.some.injEq] at hget
        rw [← hget]
        rfl
      cases hstep : unmarshallStep toLowerCase m value l with
      | none => rw [hstep] at h; simp at h
      | some r =>
        obtain ⟨m1, value1⟩ := r
        rw [hstep] at h
        simp only at h
        obtain ⟨k, v, hargs, -, hm1, hv1⟩ :=
          unmarshallStep_some toLowerCase m m1 value value1 l hstep
        have hk : k = normalisedKey toLowerCase l := by
          rw [setArgs_eq] at hargs
          cases hraw : (lineKeyValue value l).2 with
          | none => rw [hraw] at hargs; simp at hargs
          | some raw =>
            rw [hraw] at hargs
            simp only [Option.map_some', Option.some.injEq, Prod.mk.injEq] at hargs
            exact hargs.1.symm
        have hkl : k ≠ js "lines" := by
          rw [hk]
          exact hkeys l (by rw [hdrop]; exact List.mem_cons_self _ _)
        have hlines1 : m1.own (js "lines") = some (.arr L) := by
          rw [hm1, own_set_ne m k _ v hkl]; exact hlines
        obtain ⟨args, hseq, hm', hl'⟩ := ih (i + 1) m1 value1 m' hlines1
          (fun x hx => hkeys x (by rw [hdrop]; exact List.mem_cons_of_mem _ hx)) h
        refine ⟨(k, v) :: args, ?_, ?_, hl'⟩
        · rw [hdrop, storeSeq_cons, hargs, ← hv1, hseq]
          rfl
        · rw [setAll_cons, hm', hm1]

/-- A line without colon and marker is stored with the value stored for the line
before it. -/
theorem storeSeq_stale (toLowerCase : Str → Str) :
    ∀ (ls : List Str) (value : Option Str) (args : List (Str × Str)),
      storeSeq toLowerCase value ls = some args →
      ∀ (i : Nat) (l : Str), ls[i + 1]? = some l → 58 ∉ l → ¬ END_COMMAND <:+: l →
        ∃ k0 v, args[i]? = some (k0, v) ∧
          args[i + 1]? = some (normaliseName toLowerCase l, v) := by
  intro ls
  induction ls with
  | nil => intro value args _ i l hl; simp at hl
  | cons l0 rest ih =>
    intro value args h i l hl hc hs
    rw [storeSeq_cons] at h
    cases hargs : setArgs toLowerCase value l0 with
    | none => rw [hargs] at h; simp at h
    | some a0 =>
      rw [hargs] at h
      simp only [Option.some_bind] at h
      cases hrest : storeSeq toLowerCase (lineKeyValue value l0).2 rest with
      | none => rw [hrest] at h; simp at h
      | some args1 =>
        rw [hrest] at h
        simp only [Option.map_some', Option.some.injEq] at h
        subst h
        simp only [List.getElem?_cons_succ] at hl ⊢
        cases i with
        | zero =>
          cases rest with
          | nil => simp at hl
          | cons l1 rest' =>
            simp only [List.getElem?_cons_zero, Option.some.injEq] at hl
            subst hl
            rw [setArgs_eq] at hargs
            cases hraw : (lineKeyValue value l0).2 with
            | none => rw [hraw] at hargs; simp at hargs
            | some raw =>
              rw [hraw] at hargs hrest
              simp only [Option.map_some', Option.some.injEq] at hargs
              rw [storeSeq_cons, setArgs_plain toLowerCase (some raw) l1 hs hc] at hrest
              simp only [Option.map_some', Option.some_bind] at hrest
              cases hr2 : storeSeq toLowerCase (lineKeyValue (some raw) l1).2 rest' with
              | none => rw [hr2] at hrest; simp at hrest
              | some args2 =>
                rw [hr2] at hrest
                simp only [Option.map_some', Option.some.injEq] at hrest
                subst hrest; subst hargs
                refine ⟨_, trim raw, rfl, ?_⟩
                simp [normaliseName, replaceFirstHyphen_eq]
        | succ j =>
          obtain ⟨k0, v, h1, h2⟩ := ih _ _ hrest j l hl hc hs
          exact ⟨k0, v, by simpa using h1, h2⟩

/-! ## Lemmas on the round trip of fields and variables -/

theorem not_infix_across_char (n a b : Str) (c : Nat) (hc : c ∉ n) (hne : n ≠ [])
    (ha : ¬ n <:+: a) (hb : ¬ n <:+: b) : ¬ n <:+: a ++ c :: b := by
  rintro ⟨s, t, h⟩
  rw [List.append_assoc, List.append_eq_append_iff] at h
  rcases h with ⟨a', hka, hnt⟩ | ⟨c', hs, hd⟩
  · rw [List.append_eq_append_iff] at hnt
    rcases hnt with ⟨x, hx, -⟩ | ⟨y, hy, hy2⟩
    · exact ha ⟨s, x, by rw [hka, hx, List.append_assoc]⟩
    · cases y with
      | nil =>
        rw [List.append_nil] at hy
        exact ha ⟨s, [], by rw [hka, hy, List.append_nil]⟩
      | cons y0 y' =>
        simp only [List.cons_append, List.cons.injEq] at hy2
        exact hc (by rw [hy, hy2.1]; simp)
  · cases c' with
    | nil =>
      cases n with
      | nil => exact hne rfl
      | cons n0 n' =>
        simp only [List.nil_append, List.cons_append, List.cons.injEq] at hd
        exact hc (by rw [hd.1]; simp)
    | cons c0 c'' =>
      simp only [List.cons_append, List.cons.injEq] at hd
      exact hb ⟨c'', t, by rw [hd.2, List.append_assoc]⟩

theorem setArgs_fieldLine_trim (toLowerCase : Str → Str) (value : Option Str) (p : Str × Str)
    (hk58 : 58 ∉ p.1) (hks : ¬ END_COMMAND <:+: p.1) (hvs : ¬ END_COMMAND <:+: p.2) :
    setArgs toLowerCase value (fieldLine p) =
      some (normaliseName toLowerCase p.1, trim p.2) := by
  unfold setArgs
  rw [lineKeyValue_fieldLine value p hk58 hks hvs]
  simp only
  rw [trim_space_cons, replaceFirstHyphen_eq]
  rfl

theorem storeSeq_fieldLines_trim (toLowerCase : Str → Str) (tail : List Str) :
    ∀ (E : List (Str × Str)) (value : Option Str),
      (∀ p ∈ E, 58 ∉ p.1 ∧ ¬ END_COMMAND <:+: p.1 ∧ ¬ END_COMMAND <:+: p.2) →
      storeSeq toLowerCase value (E.map fieldLine ++ tail) =
        (storeSeq toLowerCase (E.foldl (fun _ p => some (32 :: p.2)) value) tail).map
          (fun r => E.map (fun p => (normaliseName toLowerCase p.1, trim p.2)) ++ r) := by
  intro E
  induction E with
  | nil => intro value _; simp
  | cons p E ih =>
    intro value h
    obtain ⟨h1, h2, h3⟩ := h p (List.mem_cons_self _ _)
    rw [List.map_cons, List.cons_append, storeSeq_cons,
      setArgs_fieldLine_trim toLowerCase value p h1 h2 h3,
      lineKeyValue_fieldLine value p h1 h2 h3, List.foldl_cons,
      ih _ (fun q hq => h q (List.mem_cons_of_mem _ hq))]
    simp only [Option.some_bind, Option.map_map]
    rfl

/-- Decoding the marshalled text of the field lines `E`, whose values may carry
whitespace at their ends: every line is stored trimmed, and the two blank lines of the
terminator store the empty key. -/
theorem unmarshall_fieldLines_trim (toLowerCase : Str → Str) (hlow : toLowerCase [] = [])
    (E : List (Str × Str)) (hE : E ≠ [])
    (hgood : ∀ p ∈ E, 58 ∉ p.1 ∧ 10 ∉ p.1 ∧ 10 ∉ p.2 ∧ ¬ END_COMMAND <:+: p.1 ∧
      ¬ END_COMMAND <:+: p.2)
    (hkeys : ∀ p ∈ E, normaliseName toLowerCase p.1 ≠ js "lines" ∧
      normaliseName toLowerCase p.1 ≠ js "set") :
    ∃ w, Message.unmarshall toLowerCase Message.new
        ((E.map (fun p => fieldLine p ++ CRLF)).flatten ++ CRLF) =
      .returned (setAll
        ⟨assign (js "lines") (.arr (E.map fieldLine ++ [[], []])) Message.new.props⟩
        (E.map (fun p => (normaliseName toLowerCase p.1, trim p.2)) ++ [([], w), ([], w)])) := by
  have htext : (E.map (fun p => fieldLine p ++ CRLF)).flatten ++ CRLF =
      ((E.map fieldLine).map (fun l => l ++ CRLF)).flatten ++ CRLF := by
    rw [List.map_map]; rfl
  have hsplit : Message.new.splitLines ((E.map (fun p => fieldLine p ++ CRLF)).flatten ++ CRLF)
      = E.map fieldLine ++ [[], []] := by
    have h0 : ∀ d, Message.new.splitLines d = split CRLF d := fun _ => rfl
    rw [h0, htext, split_crlf_lines]
    intro l hl
    obtain ⟨p, hp, rfl⟩ := List.mem_map.1 hl
    obtain ⟨-, h2, h3, -⟩ := hgood p hp
    rw [fieldLine_eq]
    simp only [List.mem_append, List.mem_cons, not_or]
    exact ⟨h2, by decide, by decide, h3⟩
  obtain ⟨raw, hraw⟩ := foldl_raw_isSome E hE none
  have hseq : storeSeq toLowerCase none (E.map fieldLine ++ [[], []]) =
      some (E.map (fun p => (normaliseName toLowerCase p.1, trim p.2)) ++
        [([], trim raw), ([], trim raw)]) := by
    rw [storeSeq_fieldLines_trim toLowerCase [[], []] E none
      (fun p hp => ⟨(hgood p hp).1, (hgood p hp).2.2.2.1, (hgood p hp).2.2.2.2⟩),
      hraw, storeSeq_blank_lines toLowerCase hlow raw]
    rfl
  refine ⟨trim raw, ?_⟩
  have := unmarshall_of_storeSeq toLowerCase Message.new
    ((E.map (fun p => fieldLine p ++ CRLF)).flatten ++ CRLF)
    (E.map (fun p => (normaliseName toLowerCase p.1, trim p.2)) ++
      [([], trim raw), ([], trim raw)])
    (by decide) (by rw [hsplit]; exact hseq) ?_
  · rw [this, hsplit]
  · intro a ha
    rcases List.mem_append.1 ha with h | h
    · obtain ⟨p, hp, rfl⟩ := List.mem_map.1 h
      exact hkeys p hp
    · simp only [List.mem_cons, List.mem_singleton, List.not_mem_nil, or_false, or_self] at h
      subst h
      have h1 : ([] : Str) ≠ js "lines" := by decide
      have h2 : ([] : Str) ≠ js "set" := by decide
      exact ⟨h1, h2⟩

theorem populate_own_base (fs : List (Str × Str))
    (hnames : ∀ p ∈ fs, p.1 ∉ [js "lines", js "EOL", js "variables", js "__proto__"])
    (k : Str) (hk : k ∉ fs.map Prod.fst) : (populate fs).own k = Message.new.own k := by
  rw [populate_own fs hnames, if_neg hk]

/-- The text of a message with fields and variables: the field lines of the message
without variables, then the variable lines. -/
theorem marshall_withVariables (m0 : Message) (es : List (Str × Str)) (F : Str)
    (heol : m0.own (js "EOL") = some (.str CRLF))
    (hhas : m0.own (js "hasOwnProperty") = none)
    (hvars : m0.own (js "variables") = some (.obj []))
    (hm0 : m0.marshall = some (F ++ CRLF)) :
    (withVariables m0 es).marshall =
      some (F ++ ((variableEntries (some (.obj es))).map (variableText CRLF)).flatten ++ CRLF) := by
  have hown : ∀ k, k ≠ js "variables" → (withVariables m0 es).own k = m0.own k := fun k hk =>
    lookupProp_assign_ne (js "variables") k _ m0.props (fun e => hk e.symm)
  have hvars1 : (withVariables m0 es).own (js "variables") = some (.obj es) :=
    lookupProp_assign_self _ _ _
  have heol1 : (withVariables m0 es).eolText = CRLF :=
    eolText_of_own _ CRLF (by rw [hown _ (by decide)]; exact heol)
  have heol0 : m0.eolText = CRLF := eolText_of_own _ CRLF heol
  have hkeys : (withVariables m0 es).props.map Prod.fst = m0.props.map Prod.fst :=
    assign_keys_of_mem _ _ _ (lookupProp_mem _ _ _ hvars)
  have hforin : forInKeys (withVariables m0 es) = forInKeys m0 := by
    unfold forInKeys
    rw [hkeys]
    congr 1
    apply List.filter_congr
    intro k hk
    have hk' : k ≠ js "variables" := by
      intro e; subst e; revert hk; decide
    rw [hown k hk']
  have hfield : (fieldText (withVariables m0 es) : Str → Str) = fieldText m0 := by
    funext k
    unfold fieldText
    by_cases hk : k = js "variables"
    · simp [hk]
    · rw [if_neg hk, if_neg hk, hown k hk, heol1, heol0]
  rw [marshall_eq m0 hhas, hvars, heol0] at hm0
  have hF : ((forInKeys m0).map (fieldText m0)).flatten = F := by
    have h := Option.some.inj hm0
    have hv : variableEntries (some (.obj [])) = [] := rfl
    rw [hv] at h
    simp only [List.map_nil, List.flatten_nil, List.append_nil] at h
    exact List.append_cancel_right h
  rw [marshall_eq _ (by rw [hown _ (by decide)]; exact hhas), hvars1, heol1, hforin, hfield, hF]

theorem variableText_eq (e : Str × Str) :
    variableText CRLF e = fieldLine (variableField e) ++ CRLF := by
  unfold variableText fieldLine variableField
  have : js "Variable: " = js "Variable" ++ js ": " := by decide
  rw [this]
  simp only [List.append_assoc]

/-- The last call of `set` for a key decides what the key holds. -/
theorem own_setAll_last (m : Message) (xs ys : List (Str × Str)) (a : Str × Str)
    (hp : a.1 ≠ js "__proto__") (hys : ∀ b ∈ ys, b.1 ≠ a.1) :
    (setAll m (xs ++ a :: ys)).own a.1 = some (.str a.2) := by
  rw [setAll_append, setAll_cons, own_setAll_of_not_mem ys _ a.1 hys,
    own_set_self _ a.1 a.2 hp]

/-! ## Lemmas on the round trip of lowercase names -/

theorem normaliseName_of_plain (toLowerCase : Str → Str) (k : Str) (hlower : toLowerCase k = k)
    (hhyphen : 45 ∉ k) : normaliseName toLowerCase k = k := by
  unfold normaliseName firstHyphenToUnderscore
  rw [if_neg hhyphen, hlower]

theorem lookupProp_of_mem_pair {α : Type} (k : Str) (v : α) (ps : List (Str × α))
    (h : lookupProp k ps = some v) : (k, v) ∈ ps := by
  induction ps with
  | nil => simp [lookupProp] at h
  | cons p ps ih =>
    obtain ⟨k', v'⟩ := p
    unfold lookupProp at h
    split at h
    · rename_i hk
      simp only [Option.some.injEq] at h
      subst hk; subst h
      exact List.mem_cons_self _ _
    · exact List.mem_cons_of_mem _ (ih h)

/-! ## Lemmas on reachable messages -/

theorem mem_assign {α : Type} (k : Str) (v : α) (ps : List (Str × α)) (p : Str × α)
    (h : p ∈ assign k v ps) : p = (k, v) ∨ p ∈ ps := by
  induction ps with
  | nil =>
    simp only [assign, List.mem_singleton] at h
    exact Or.inl h
  | cons q ps ih =>
    obtain ⟨k', v'⟩ := q
    unfold assign at h
    split at h
    · rename_i hk
      rcases List.mem_cons.1 h with e | e
      · left; rw [e, hk]
      · right; exact List.mem_cons_of_mem _ e
    · rcases List.mem_cons.1 h with e | e
      · right; rw [e]; exact List.mem_cons_self _ _
      · rcases ih e with e' | e'
        · exact Or.inl e'
        · exact Or.inr (List.mem_cons_of_mem _ e')

theorem assign_keys {α : Type} (k : Str) (v : α) (ps : List (Str × α)) :
    (assign k v ps).map Prod.fst =
      if k ∈ ps.map Prod.fst then ps.map Prod.fst else ps.map Prod.fst ++ [k] := by
  by_cases h : k ∈ ps.map Prod.fst
  · rw [if_pos h, assign_keys_of_mem k v ps h]
  · rw [if_neg h]
    have := assign_append_of_not_mem k v ps [] h
    rw [List.append_nil] at this
    rw [this]
    simp [assign]

theorem regular_assign (m : Message) (k : Str) (v : Value) (hm : m.Regular)
    (hk : k ≠ js "__proto__")
    (hv : k ≠ js "lines" → k ≠ js "variables" → v.isStr = true) :
    Message.Regular ⟨assign k v m.props⟩ := by
  obtain ⟨h1, h2, h3⟩ := hm
  refine ⟨?_, ?_, ?_⟩
  · simp only [assign_keys]
    split
    · exact h1
    · rename_i hnot
      rw [List.nodup_append]
      refine ⟨h1, List.nodup_singleton _, ?_⟩
      intro a ha hb
      rw [List.mem_singleton] at hb
      exact hnot (hb ▸ ha)
  · simp only [assign_keys]
    split
    · exact h2
    · intro hmem
      rcases List.mem_append.1 hmem with e | e
      · exact h2 e
      · rw [List.mem_singleton] at e
        exact hk e.symm
  · intro p hp hl hvar
    rcases mem_assign k v m.props p hp with e | e
    · subst e
      exact hv hl hvar
    · exact h3 p e hl hvar

theorem regular_new : Message.new.Regular := by
  refine ⟨by decide, by decide, ?_⟩
  intro p hp
  revert p
  decide

theorem regular_set (m : Message) (name value : Str) (hm : m.Regular) :
    (m.set name value).Regular := by
  unfold Message.set
  split
  · exact hm
  · rename_i hne
    exact regular_assign m name _ hm hne (fun _ _ => rfl)

theorem regular_setVariable (m : Message) (key value : Str) (hm : m.Regular) :
    (m.setVariable key value).Regular := by
  unfold Message.setVariable
  split
  · split
    · exact hm
    · exact regular_assign m _ _ hm (by decide) (fun _ h => absurd rfl h)
  · exact hm

theorem regular_unmarshallLoop (toLowerCase : Str → Str) :
    ∀ (fuel : Nat) (m : Message) (value : Option Str) (line : Nat) (m' : Message),
      m.Regular →
      (unmarshallLoop toLowerCase fuel m value line = .returned m' ∨
        unmarshallLoop toLowerCase fuel m value line = .typeError m') → m'.Regular := by
  intro fuel
  induction fuel with
  | zero => intro m value line m' _ h; simp [unmarshallLoop] at h
  | succ fuel ih =>
    intro m value line m' hm h
    simp only [unmarshallLoop] at h
    split at h
    · simp only [Outcome.returned.injEq, reduceCtorEq, or_false] at h
      exact h ▸ hm
    · simp only [reduceCtorEq, Outcome.typeError.injEq, false_or] at h
      exact h ▸ hm
    · rename_i l _
      split at h
      · simp only [reduceCtorEq, Outcome.typeError.injEq, false_or] at h
        exact h ▸ hm
      · rename_i m1 value1 hstep
        refine ih m1 value1 (line + 1) m' ?_ h
        obtain ⟨k, v, -, -, hm1, -⟩ := unmarshallStep_some toLowerCase m m1 value value1 l hstep
        rw [hm1]
        exact regular_set m k v hm

theorem regular_afterCall (toLowerCase : Str → Str) (m : Message) (c : Call)
    (hm : m.Regular) : (m.afterCall toLowerCase c).Regular := by
  cases c with
  | set name value => exact regular_set m name value hm
  | setVariable key value => exact regular_setVariable m key value hm
  | unmarshall data =>
    have h0 : Message.Regular ⟨assign (js "lines") (.arr (m.splitLines data)) m.props⟩ :=
      regular_assign m _ _ hm (by decide) (fun h _ => absurd rfl h)
    show (match Message.unmarshall toLowerCase m data with
      | .returned m' => m'
      | .typeError m' => m'
      | .outOfFuel => m).Regular
    cases h : Message.unmarshall toLowerCase m data with
    | returned m' => exact regular_unmarshallLoop toLowerCase _ _ none 0 m' h0 (Or.inl h)
    | typeError m' => exact regular_unmarshallLoop toLowerCase _ _ none 0 m' h0 (Or.inr h)
    | outOfFuel => exact hm

theorem regular_reached (toLowerCase : Str → Str) (calls : List Call) :
    (reached toLowerCase calls).Regular := by
  unfold reached
  have h : ∀ (cs : List Call) (m0 : Message), m0.Regular →
      (cs.foldl (Message.afterCall toLowerCase) m0).Regular := by
    intro cs
    induction cs with
    | nil => intro m0 h0; exact h0
    | cons c cs ih =>
      intro m0 h0
      exact ih _ (regular_afterCall toLowerCase m0 c h0)
  exact h calls _ regular_new


theorem lookupProp_isSome_of_mem {α : Type} (k : Str) (ps : List (Str × α))
    (h : k ∈ ps.map Prod.fst) : (lookupProp k ps).isSome = true := by
  cases hl : lookupProp k ps with
  | some v => rfl
  | none =>
    exfalso
    induction ps with
    | nil => simp at h
    | cons p ps ih =>
      obtain ⟨k', v'⟩ := p
      unfold lookupProp at hl
      split at hl
      · exact Option.noConfusion hl
      · rename_i hne
        rcases List.mem_cons.1 h with e | e
        · exact hne e.symm
        · exact ih e hl

theorem forInKeys_nodup (m : Message) (h : (m.props.map Prod.fst).Nodup) :
    (forInKeys m).Nodup := by
  unfold forInKeys
  rw [List.nodup_append]
  refine ⟨(ownKeys_perm _).nodup_iff.2 h, List.Nodup.filter _ (by decide), ?_⟩
  intro k hk hk2
  have h1 := lookupProp_isSome_of_mem k m.props ((mem_ownKeys _ _).1 hk)
  have h2 := (List.mem_filter.1 hk2).2
  unfold Message.own at h2
  rw [Option.isNone_iff_eq_none] at h2
  rw [h2] at h1
  exact Bool.noConfusion h1

/-- The text of the first loop of `marshall`, as the lines of the fields visited. -/
theorem fieldTexts_eq (m : Message) (heol : m.eolText = CRLF) (keys : List Str) :
    ∃ E : List (Str × Str),
      E.map Prod.fst = keys.filter (fun k =>
        decide (k ∉ [js "lines", js "EOL", js "variables"]) && (m.own k).isSome) ∧
      (∀ p ∈ E, ∃ v, m.own p.1 = some v ∧ p.2 = v.toStr) ∧
      (keys.map (fieldText m)).flatten = (E.map (fun p => fieldLine p ++ CRLF)).flatten := by
  induction keys with
  | nil => exact ⟨[], rfl, by simp, rfl⟩
  | cons k keys ih =>
    obtain ⟨E, h1, h2, h3⟩ := ih
    by_cases hk : k ∈ [js "lines", js "EOL", js "variables"]
    · refine ⟨E, ?_, h2, ?_⟩
      · rw [List.filter_cons, h1]
        simp [hk]
      · rw [List.map_cons, List.flatten_cons, fieldText_reserved m k hk, List.nil_append, h3]
    · cases hown : m.own k with
      | none =>
        refine ⟨E, ?_, h2, ?_⟩
        · rw [List.filter_cons, h1]
          simp [hown]
        · rw [List.map_cons, List.flatten_cons, fieldText_of_none m k hown, List.nil_append, h3]
      | some v =>
        refine ⟨(k, v.toStr) :: E, ?_, ?_, ?_⟩
        · rw [List.filter_cons, List.map_cons, h1]
          simp [hk, hown]
        · intro p hp
          rcases List.mem_cons.1 hp with e | e
          · subst e
            exact ⟨v, hown, rfl⟩
          · exact h2 p e
        · rw [List.map_cons, List.flatten_cons, List.map_cons, List.flatten_cons, h3]
          congr 1
          simp only [List.mem_cons, List.mem_singleton, List.not_mem_nil, or_false,
            not_or] at hk
          unfold fieldText fieldLine
          rw [if_neg hk.2.2, hown]
          simp only [if_pos (And.intro hk.1 hk.2.1), heol]

/-- The text `marshall` returns for a message with distinct own names, the delimiter CRLF
and no variable: one line per own property other than `lines`, `EOL` and `variables`. -/
theorem marshall_of_fields (m : Message) (hnodup : (m.props.map Prod.fst).Nodup)
    (hhas : m.own (js "hasOwnProperty") = none)
    (heol : m.own (js "EOL") = some (.str CRLF))
    (hvars : m.own (js "variables") = some (.obj [])) :
    ∃ E : List (Str × Str), (E.map Prod.fst).Nodup ∧
      (∀ p ∈ E, p.1 ∉ [js "lines", js "EOL", js "variables"] ∧
        ∃ v, m.own p.1 = some v ∧ p.2 = v.toStr) ∧
      (∀ k v, m.own k = some v → k ∉ [js "lines", js "EOL", js "variables"] →
        (k, v.toStr) ∈ E) ∧
      m.marshall = some ((E.map (fun p => fieldLine p ++ CRLF)).flatten ++ CRLF) := by
  have heol' := eolText_of_own m CRLF heol
  obtain ⟨E, h1, h2, h3⟩ := fieldTexts_eq m heol' (forInKeys m)
  have hmemE : ∀ p ∈ E, p.1 ∈ (forInKeys m).filter (fun k =>
      decide (k ∉ [js "lines", js "EOL", js "variables"]) && (m.own k).isSome) := by
    intro p hp
    rw [← h1]
    exact List.mem_map_of_mem _ hp
  refine ⟨E, ?_, ?_, ?_, ?_⟩
  · rw [h1]
    exact (forInKeys_nodup m hnodup).filter _
  · intro p hp
    refine ⟨?_, h2 p hp⟩
    have := (List.mem_filter.1 (hmemE p hp)).2
    simp only [Bool.and_eq_true, decide_eq_true_eq] at this
    exact this.1
  · intro k v hown hk
    have hin : k ∈ E.map Prod.fst := by
      rw [h1, List.mem_filter]
      refine ⟨?_, by simp [hk, hown]⟩
      unfold forInKeys
      exact List.mem_append_left _ ((mem_ownKeys _ _).2 (lookupProp_mem _ v _ hown))
    obtain ⟨p, hp, hpk⟩ := List.mem_map.1 hin
    obtain ⟨v', hv', hp2⟩ := h2 p hp
    rw [hpk, hown] at hv'
    simp only [Option.some.injEq] at hv'
    have : p = (k, v.toStr) := by
      rw [hv', ← hp2, ← hpk]
    rw [← this]
    exact hp
  · have hnone : variableEntries (some (.obj [])) = [] := by decide
    rw [marshall_eq m hhas, h3, hvars, heol', hnone, List.map_nil, List.flatten_nil,
      List.append_nil]


/-- Decoding the lines of fields whose names are their own normalised keys. -/
theorem round_trip_lines (toLowerCase : Str → Str) (E : List (Str × Str))
    (hlow : toLowerCase [] = []) (hne : E ≠ []) (hnodup : (E.map Prod.fst).Nodup)
    (hnames : ∀ p ∈ E, 58 ∉ p.1 ∧ 10 ∉ p.1 ∧ ¬ END_COMMAND <:+: p.1 ∧
      normaliseName toLowerCase p.1 = p.1 ∧
      p.1 ∉ [[], js "set", js "get", js "lines", js "__proto__"])
    (hvalues : ∀ p ∈ E, 10 ∉ p.2 ∧ ¬ END_COMMAND <:+: p.2 ∧
      NoLeadingSpace p.2 ∧ NoTrailingSpace p.2) :
    ∃ m', Message.unmarshall toLowerCase Message.new
        ((E.map (fun p => fieldLine p ++ CRLF)).flatten ++ CRLF) = .returned m' ∧
      m'.own (js "get") = none ∧ ∀ p ∈ E, m'.own p.1 = some (.str p.2) := by
  have hk : ∀ p ∈ E, p.1 ≠ [] ∧ p.1 ≠ js "set" ∧ p.1 ≠ js "get" ∧
      p.1 ≠ js "lines" ∧ p.1 ≠ js "__proto__" := by
    intro p hp
    obtain ⟨-, -, -, -, h5⟩ := hnames p hp
    simp only [List.mem_cons, List.mem_singleton, List.not_mem_nil, or_false, not_or] at h5
    exact h5
  have hnk : ∀ p ∈ E, normaliseName toLowerCase p.1 = p.1 :=
    fun p hp => (hnames p hp).2.2.2.1
  obtain ⟨w, hun⟩ := unmarshall_fieldLines toLowerCase hlow E hne
    (fun p hp => by
      have h1 := hnames p hp
      have h2 := hvalues p hp
      exact ⟨h1.1, h1.2.1, h2.1, h1.2.2.1, h2.2.1, h2.2.2.1, h2.2.2.2⟩)
    (fun p hp => by
      rw [hnk p hp]
      exact ⟨(hk p hp).2.2.2.1, (hk p hp).2.1⟩)
  have hargs : E.map (fun p => (normaliseName toLowerCase p.1, p.2)) = E :=
    (List.map_congr_left (fun p hp => by rw [hnk p hp]; rfl)).trans (List.map_id _)
  rw [hargs] at hun
  refine ⟨_, hun, ?_, ?_⟩
  · cases hg : (setAll
        ⟨assign (js "lines") (.arr (E.map fieldLine ++ [[], []])) Message.new.props⟩
        (E ++ [([], w), ([], w)])).own (js "get") with
    | none => rfl
    | some v =>
      exfalso
      rcases own_setAll_cases _ _ _ v hg with h0 | ⟨a, ha, hak, -⟩
      · rw [own_assign_lines Message.new _ _ (by decide)] at h0
        have hnew : Message.new.own (js "get") = none := by decide
        rw [hnew] at h0
        exact Option.noConfusion h0
      · rcases List.mem_append.1 ha with h | h
        · exact (hk a h).2.2.1 hak
        · simp only [List.mem_cons, List.mem_singleton, List.not_mem_nil, or_false,
            or_self] at h
          subst h
          have h0 : ([] : Str) ≠ js "get" := by decide
          exact h0 hak
  · intro p hp
    rw [setAll_append, own_setAll_of_not_mem]
    · exact own_setAll_of_mem_nodup E _ p hnodup hp (hk p hp).2.2.2.2
    · intro a ha
      simp only [List.mem_cons, List.mem_singleton, List.not_mem_nil, or_false, or_self] at ha
      subst ha
      exact fun e => (hk p hp).1 e.symm

/-! ## Decoding one line -/

/-- C3 (colon-in-value decode): for every line that contains a colon and not the
marker, the value `unmarshall` passes to `set` is the whole text after the first colon
with only leading and trailing whitespace removed; the pieces after the first one,
rejoined with colons, are exactly that text, so later colons are kept; and on every
message whose `set` method is intact the iteration stores that value. -/
theorem colon_value_decode (toLowerCase : Str → Str) (value : Option Str) (l : Str)
    (hcolon : 58 ∈ l) (hsent : ¬ END_COMMAND <:+: l) :
    (setArgs toLowerCase value l).map Prod.snd = some (trim (afterFirstColon l)) ∧
    join COLON (split COLON l).tail = afterFirstColon l ∧
    l = beforeFirstColon l ++ 58 :: afterFirstColon l ∧
    ∀ m : Message, m.own (js "set") = none →
      ∃ key, unmarshallStep toLowerCase m value l =
        some (m.set key (trim (afterFirstColon l)), some (afterFirstColon l)) := by
  have hargs := setArgs_colon toLowerCase value l hsent hcolon
  refine ⟨by rw [hargs]; rfl, ?_, before_colon_after l hcolon, ?_⟩
  · unfold split
    rw [if_neg (by simp [COLON]), splitGo_colon_of_mem [] l hcolon]
    exact join_splitGo_colon [] (afterFirstColon l)
  · intro m hset
    refine ⟨toLowerCase (replaceFirstHyphen (beforeFirstColon l)), ?_⟩
    rw [unmarshallStep_eq toLowerCase m value l _ _ hset hargs,
      lineKeyValue_colon value l hsent hcolon]

/-- Witness of C3 on the line of the specification: `ListCommands: cmd1:arg1 cmd2:arg2`
is stored with the value `cmd1:arg1 cmd2:arg2`. -/
theorem colon_value_decode_witness :
    58 ∈ js "ListCommands: cmd1:arg1 cmd2:arg2" ∧
    ¬ END_COMMAND <:+: js "ListCommands: cmd1:arg1 cmd2:arg2" ∧
    (setArgs lowerAscii none (js "ListCommands: cmd1:arg1 cmd2:arg2")).map Prod.snd =
      some (js "cmd1:arg1 cmd2:arg2") :=
  ⟨by decide, by decide,
    (colon_value_decode lowerAscii none (js "ListCommands: cmd1:arg1 cmd2:arg2")
      (by decide) (by decide)).1.trans (by decide)⟩

/-- C4, as stated, fails: decoding the line `some output here --END COMMAND--` stores
`commandoutput` with the value `some output here`, without the trailing space. -/
theorem sentinel_value_keeps_no_trailing_space :
    Message.unmarshall lowerAscii Message.new (js "some output here --END COMMAND--") =
      .returned ⟨[(js "lines", .arr [js "some output here --END COMMAND--"]),
        (js "EOL", .str CRLF), (js "variables", .obj []),
        (js "commandoutput", .str (js "some output here"))]⟩ ∧
    js "some output here" ≠ js "some output here " := by
  decide

/-- C4 (sentinel line decode, amended): for every line that contains the marker,
whatever colons it has, the arguments `unmarshall` passes to `set` are the key
`commandoutput` and the line with the first occurrence of the marker removed and then
trimmed of leading and trailing whitespace; on every message whose `set` method is
intact the iteration stores exactly that. -/
theorem sentinel_line_decode (toLowerCase : Str → Str) (value : Option Str) (l : Str)
    (hlow : toLowerCase (js "CommandOutput") = js "commandoutput")
    (hsent : END_COMMAND <:+: l) :
    ∃ pre post : Str, l = pre ++ END_COMMAND ++ post ∧
      (∀ j, j < pre.length → ¬ END_COMMAND <+: l.drop j) ∧
      setArgs toLowerCase value l = some (js "commandoutput", trim (pre ++ post)) ∧
      ∀ m : Message, m.own (js "set") = none →
        unmarshallStep toLowerCase m value l =
          some (m.set (js "commandoutput") (trim (pre ++ post)), some (pre ++ post)) := by
  obtain ⟨pre, post, hl, hfirst, hrem⟩ := removeFirst_spec END_COMMAND l hsent
  have hargs : setArgs toLowerCase value l = some (js "commandoutput", trim (pre ++ post)) := by
    rw [setArgs_sentinel toLowerCase value l hsent, hlow, hrem]
  refine ⟨pre, post, hl, hfirst, hargs, ?_⟩
  intro m hset
  rw [unmarshallStep_eq toLowerCase m value l _ _ hset hargs,
    lineKeyValue_sentinel value l hsent, hrem]

/-- Witness of C4 (amended) on the line of the specification, with a colon added
before the marker. -/
theorem sentinel_line_decode_witness :
    lowerAscii (js "CommandOutput") = js "commandoutput" ∧
    END_COMMAND <:+: js "some: output here --END COMMAND--" ∧
    (∃ pre post : Str, js "some: output here --END COMMAND--" = pre ++ END_COMMAND ++ post ∧
      setArgs lowerAscii none (js "some: output here --END COMMAND--") =
        some (js "commandoutput", trim (pre ++ post))) ∧
    setArgs lowerAscii none (js "some: output here --END COMMAND--") =
      some (js "commandoutput", js "some: output here") := by
  refine ⟨by decide, by decide, ?_, by decide⟩
  obtain ⟨pre, post, hl, -, h, -⟩ :=
    sentinel_line_decode lowerAscii none (js "some: output here --END COMMAND--")
      (by decide) (by decide)
  exact ⟨pre, post, hl, h⟩

/-- C8, evaluated at `k: v` followed by the blank terminator: the two blank lines store
the empty key with the value `v` left over from the previous line, not with the empty
value. -/
theorem blank_line_stores_previous_value :
    Message.unmarshall lowerAscii Message.new (js "k: v\r\n\r\n") =
      .returned ⟨[(js "lines", .arr [js "k: v", [], []]), (js "EOL", .str CRLF),
        (js "variables", .obj []), (js "k", .str (js "v")), ([], .str (js "v"))]⟩ := by
  decide

/-- C9 (key normalisation on decode): for every line that contains a colon and not the
marker, the key `unmarshall` passes to `set` is the untrimmed text before the first
colon with its first hyphen replaced by an underscore, later hyphens kept, and then
lowercased; on every message whose `set` method is intact the iteration stores under
that key. -/
theorem key_normalisation (toLowerCase : Str → Str) (value : Option Str) (l : Str)
    (hcolon : 58 ∈ l) (hsent : ¬ END_COMMAND <:+: l) :
    (setArgs toLowerCase value l).map Prod.fst =
      some (toLowerCase (firstHyphenToUnderscore (beforeFirstColon l))) ∧
    ∀ m : Message, m.own (js "set") = none →
      ∃ v raw, unmarshallStep toLowerCase m value l =
        some (m.set (toLowerCase (firstHyphenToUnderscore (beforeFirstColon l))) v, raw) := by
  have hargs := setArgs_colon toLowerCase value l hsent hcolon
  rw [replaceFirstHyphen_eq] at hargs
  refine ⟨by rw [hargs]; rfl, ?_⟩
  intro m hset
  exact ⟨_, _, unmarshallStep_eq toLowerCase m value l _ _ hset hargs⟩

/-- Witness of C9: `X-Foo-Bar: v` is stored under `x_foo-bar`, and the key of
` Key : v` keeps its spaces. -/
theorem key_normalisation_witness :
    58 ∈ js "X-Foo-Bar: v" ∧ ¬ END_COMMAND <:+: js "X-Foo-Bar: v" ∧
    (setArgs lowerAscii none (js "X-Foo-Bar: v")).map Prod.fst = some (js "x_foo-bar") ∧
    (setArgs lowerAscii none (js " Key : v")).map Prod.fst = some (js " key ") :=
  ⟨by decide, by decide,
    (key_normalisation lowerAscii none (js "X-Foo-Bar: v") (by decide) (by decide)).1.trans
      (by decide),
    (key_normalisation lowerAscii none (js " Key : v") (by decide) (by decide)).1.trans
      (by decide)⟩

/-! ## Decoding a text -/

/-- C2, as stated, fails: a line whose key is `set` replaces the method by a string,
and the next line raises `TypeError`. -/
theorem unmarshall_raises_after_set_line :
    Message.unmarshall lowerAscii Message.new (js "set: x\r\na: b") =
      .typeError ⟨[(js "lines", .arr [js "set: x", js "a: b"]), (js "EOL", .str CRLF),
        (js "variables", .obj []), (js "set", .str (js "x"))]⟩ := by
  decide

/-- C2 (decode never fails, amended): for every text whose first line contains a colon
or the marker and none of whose lines has a key that normalises to `set` or `lines`,
`unmarshall` on a freshly constructed message completes without raising an error. -/
theorem unmarshall_completes (toLowerCase : Str → Str) (data : Str)
    (hfirst : ∀ l ∈ (split CRLF data).head?, 58 ∈ l ∨ END_COMMAND <:+: l)
    (hkeys : ∀ l ∈ split CRLF data,
      normalisedKey toLowerCase l ≠ js "set" ∧ normalisedKey toLowerCase l ≠ js "lines") :
    ∃ m', Message.unmarshall toLowerCase Message.new data = .returned m' := by
  have hsplit : Message.new.splitLines data = split CRLF data := rfl
  obtain ⟨args, hseq, hmap⟩ := storeSeq_keys toLowerCase (split CRLF data) none (Or.inr hfirst)
  refine ⟨_, unmarshall_of_storeSeq toLowerCase Message.new data args (by decide)
    (by rw [hsplit]; exact hseq) ?_⟩
  intro a ha
  have hmem : a.1 ∈ (split CRLF data).map (normalisedKey toLowerCase) := by
    rw [← hmap]; exact List.mem_map_of_mem _ ha
  obtain ⟨l, hl, hla⟩ := List.mem_map.1 hmem
  rw [← hla]
  exact ⟨(hkeys l hl).2, (hkeys l hl).1⟩

/-- Witness of C2 (amended) on a response with its blank terminator. -/
theorem unmarshall_completes_witness :
    (∀ l ∈ (split CRLF (js "Response: Success\r\nMessage: ok\r\n\r\n")).head?,
      58 ∈ l ∨ END_COMMAND <:+: l) ∧
    (∀ l ∈ split CRLF (js "Response: Success\r\nMessage: ok\r\n\r\n"),
      normalisedKey lowerAscii l ≠ js "set" ∧ normalisedKey lowerAscii l ≠ js "lines") ∧
    ∃ m', Message.unmarshall lowerAscii Message.new
      (js "Response: Success\r\nMessage: ok\r\n\r\n") = .returned m' :=
  ⟨by decide, by decide,
    unmarshall_completes lowerAscii (js "Response: Success\r\nMessage: ok\r\n\r\n")
      (by decide) (by decide)⟩

/-- C10 (whitespace trimming): for every message and text on which `unmarshall`
completes, every string property of the message afterwards either is a property the
message held before with that value, or has no leading and no trailing whitespace;
and for every line, the value passed to `set` has no leading and no trailing whitespace
and is the line's value with only whitespace removed at both ends, the interior
kept. -/
theorem stored_values_trimmed (toLowerCase : Str → Str) (m : Message) (data : Str)
    (m' : Message) (h : Message.unmarshall toLowerCase m data = .returned m') :
    (∀ k v, m'.own k = some (.str v) →
      m.own k = some (.str v) ∨ (NoLeadingSpace v ∧ NoTrailingSpace v)) ∧
    ∀ value l k v, setArgs toLowerCase value l = some (k, v) →
      NoLeadingSpace v ∧ NoTrailingSpace v ∧
      ∃ raw pre post : Str, (lineKeyValue value l).2 = some raw ∧
        (∀ c ∈ pre, isSpace c = true) ∧ (∀ c ∈ post, isSpace c = true) ∧
        raw = pre ++ v ++ post := by
  constructor
  · refine unmarshallLoop_stores_trimmed toLowerCase m _ _ none 0 m' ?_ h
    intro k v hown
    left
    by_cases hk : k = js "lines"
    · subst hk
      have : (Message.mk (assign (js "lines") (.arr (m.splitLines data)) m.props)).own
          (js "lines") = some (.arr (m.splitLines data)) := lookupProp_assign_self _ _ _
      rw [this] at hown
      simp at hown
    · rwa [own_assign_lines m k _ hk] at hown
  · intro value l k v hargs
    rw [setArgs_eq] at hargs
    cases hraw : (lineKeyValue value l).2 with
    | none => rw [hraw] at hargs; simp at hargs
    | some raw =>
      rw [hraw] at hargs
      simp only [Option.map_some', Option.some.injEq, Prod.mk.injEq] at hargs
      obtain ⟨pre, post, hpre, hpost, hdec⟩ := trim_decompose raw
      rw [← hargs.2]
      exact ⟨trim_noLeadingSpace raw, trim_noTrailingSpace raw, raw, pre, post, rfl, hpre, hpost,
        hdec⟩

/-- Witness of C10 on the line of the specification: `Key:   value with spaces   `
yields `value with spaces`. -/
theorem stored_values_trimmed_witness :
    Message.unmarshall lowerAscii Message.new (js "Key:   value with spaces   ") =
      .returned ⟨[(js "lines", .arr [js "Key:   value with spaces   "]),
        (js "EOL", .str CRLF), (js "variables", .obj []),
        (js "key", .str (js "value with spaces"))]⟩ ∧
    NoLeadingSpace (js "value with spaces") ∧ NoTrailingSpace (js "value with spaces") :=
  ⟨by decide,
    ((stored_values_trimmed lowerAscii Message.new (js "Key:   value with spaces   ")
      ⟨[(js "lines", .arr [js "Key:   value with spaces   "]),
        (js "EOL", .str CRLF), (js "variables", .obj []),
        (js "key", .str (js "value with spaces"))]⟩ (by decide)).1
      (js "key") (js "value with spaces") (by decide)).resolve_left (by decide)⟩

/-! ## Encoding -/

/-- C6, as stated, fails: after `set("EOL", "\n")` the line of a variable ends with a
line feed alone, so no line `Variable: foo=bar` followed by CRLF is emitted. -/
theorem variable_line_without_crlf :
    ((Message.new.set (js "EOL") [10]).setVariable (js "foo") (js "bar")).marshall =
      some (js "Variable: foo=bar" ++ [10] ++ [10]) ∧
    indexOf (js "Variable: foo=bar" ++ CRLF) (js "Variable: foo=bar" ++ [10] ++ [10]) = none := by
  decide

/-- C6 (variable encoding, amended): for every message whose `EOL` still holds CRLF,
whose `hasOwnProperty` is not shadowed and whose `variables` holds a mapping (with
distinct keys), `marshall` returns the text of the ordinary field lines, then exactly
one line `Variable: <key>=<value>` + CRLF per entry of the mapping, then the final
CRLF; the text of the field lines is what `marshall` returns, before its final CRLF,
for the same message with an empty mapping. -/
theorem variable_encoding (m : Message) (es : List (Str × Str))
    (heol : m.own (js "EOL") = some (.str CRLF))
    (hhas : m.own (js "hasOwnProperty") = none)
    (hvars : m.own (js "variables") = some (.obj es))
    (hnodup : (es.map Prod.fst).Nodup) :
    ∃ (fields : Str) (order : List (Str × Str)), order.Perm es ∧
      Message.marshall ⟨assign (js "variables") (.obj []) m.props⟩ = some (fields ++ CRLF) ∧
      m.marshall = some (fields ++
        (order.map (fun e => js "Variable: " ++ e.1 ++ js "=" ++ e.2 ++ CRLF)).flatten
          ++ CRLF) := by
  let m0 : Message := ⟨assign (js "variables") (.obj []) m.props⟩
  have hown : ∀ k, k ≠ js "variables" → m0.own k = m.own k := fun k hk =>
    lookupProp_assign_ne (js "variables") k _ m.props (fun e => hk e.symm)
  have hvars0 : m0.own (js "variables") = some (.obj []) := lookupProp_assign_self _ _ _
  have heol0 : m0.eolText = CRLF := eolText_of_own m0 CRLF (by rw [hown _ (by decide)]; exact heol)
  have hkeys : m0.props.map Prod.fst = m.props.map Prod.fst :=
    assign_keys_of_mem _ _ _ (lookupProp_mem _ _ _ hvars)
  have hforin : forInKeys m0 = forInKeys m := by
    unfold forInKeys
    rw [hkeys]
    congr 1
    apply List.filter_congr
    intro k hk
    have hk' : k ≠ js "variables" := by
      intro e; subst e; revert hk; decide
    rw [hown k hk']
  have hfield : ∀ k, fieldText m0 k = fieldText m k := by
    intro k
    unfold fieldText
    by_cases hk : k = js "variables"
    · simp [hk]
    · rw [if_neg hk, if_neg hk, hown k hk, heol0, eolText_of_own m CRLF heol]
  refine ⟨((forInKeys m).map (fieldText m)).flatten, variableEntries (some (.obj es)),
    variableEntries_perm es hnodup, ?_, ?_⟩
  · show m0.marshall = _
    rw [marshall_eq m0 (by rw [hown _ (by decide)]; exact hhas), hvars0, heol0, hforin]
    have : (fieldText m0 : Str → Str) = fieldText m := funext hfield
    rw [this]
    simp [variableEntries, ownKeys, indexKeys]
  · rw [marshall_eq m hhas, hvars, eolText_of_own m CRLF heol]
    rfl

/-- Witness of C6 (amended) on the Variables of the specification: `foo = bar` and
`baz = 1` give the lines `Variable: foo=bar` and `Variable: baz=1`. -/
theorem variable_encoding_witness :
    (((Message.new.set (js "Action") (js "Originate")).setVariable (js "foo")
      (js "bar")).setVariable (js "baz") (js "1")).marshall =
      some (js "Action: Originate\r\nVariable: foo=bar\r\nVariable: baz=1\r\n\r\n") ∧
    ∃ (fields : Str) (order : List (Str × Str)),
      order.Perm [(js "foo", js "bar"), (js "baz", js "1")] ∧
      (((Message.new.set (js "Action") (js "Originate")).setVariable (js "foo")
        (js "bar")).setVariable (js "baz") (js "1")).marshall =
        some (fields ++
          (order.map (fun e => js "Variable: " ++ e.1 ++ js "=" ++ e.2 ++ CRLF)).flatten
            ++ CRLF) := by
  refine ⟨by decide, ?_⟩
  obtain ⟨fields, order, hperm, -, h⟩ := variable_encoding
    (((Message.new.set (js "Action") (js "Originate")).setVariable (js "foo")
      (js "bar")).setVariable (js "baz") (js "1"))
    [(js "foo", js "bar"), (js "baz", js "1")] (by decide) (by decide) (by decide) (by decide)
  exact ⟨fields, order, hperm, h⟩

/-- C7, evaluated at a freshly constructed message: with no field and no variable both
loops of `marshall` emit nothing and source line 57 appends one delimiter, so `marshall`
returns a single CRLF, which does not end with two of them, although the docstring of
`marshall` (source lines 36-41) says the message is delimited by two. -/
theorem marshall_of_empty_message :
    Message.new.marshall = some CRLF ∧ ¬ (CRLF ++ CRLF) <:+ CRLF := by
  decide

/-- Extent of the missing terminator: as soon as one line is emitted the text does end
with two delimiters. For every message whose `EOL` still holds CRLF, whose
`hasOwnProperty` is not shadowed, and which has at least one ordinary field or at least
one entry in its Variables mapping, `marshall` returns a text that ends with two
consecutive CRLF. -/
theorem marshall_terminator (m : Message)
    (heol : m.own (js "EOL") = some (.str CRLF))
    (hhas : m.own (js "hasOwnProperty") = none)
    (hline :
      (∃ k v, m.own k = some v ∧ k ≠ js "lines" ∧ k ≠ js "EOL" ∧
        k ≠ js "variables") ∨
      ∃ e es, m.own (js "variables") = some (.obj (e :: es))) :
    ∃ t, m.marshall = some (t ++ CRLF ++ CRLF) := by
  have he := eolText_of_own m CRLF heol
  rw [marshall_eq m hhas, he]
  have hflat : ∃ t, (((forInKeys m).map (fieldText m)) ++
      ((variableEntries (m.own (js "variables"))).map (variableText CRLF))).flatten =
        t ++ CRLF := by
    apply flatten_ends_with
    · intro c hc
      rcases List.mem_append.1 hc with h | h
      · obtain ⟨k, -, rfl⟩ := List.mem_map.1 h
        have := fieldText_ends m k
        rwa [he] at this
      · obtain ⟨e, -, rfl⟩ := List.mem_map.1 h
        exact Or.inr ⟨_, rfl⟩
    · rcases hline with ⟨k, v, hown, h1, h2, h3⟩ | ⟨e, es, hvars⟩
      · refine ⟨fieldText m k, List.mem_append_left _ (List.mem_map_of_mem _ ?_), ?_⟩
        · unfold forInKeys
          exact List.mem_append_left _
            ((mem_ownKeys _ _).2 (lookupProp_mem k v m.props hown))
        · unfold fieldText
          rw [if_neg h3]
          simp only [hown]
          rw [if_pos ⟨h1, h2⟩]
          intro h
          have := congrArg List.length h
          simp [js] at this
      · have hmem : e.1 ∈ ownKeys ((e :: es).map Prod.fst) :=
          (mem_ownKeys _ _).2 (by simp)
        rw [hvars]
        refine ⟨variableText CRLF (e.1, (lookupProp e.1 (e :: es)).getD (js "undefined")),
          List.mem_append_right _ (List.mem_map_of_mem _ ?_), ?_⟩
        · unfold variableEntries
          exact List.mem_map_of_mem _ hmem
        · simp [variableText, js]
  obtain ⟨t, ht⟩ := hflat
  rw [List.flatten_append] at ht
  exact ⟨t, by rw [ht]⟩

/-- An instance of `marshall_terminator`: a message with the field `Action`. -/
theorem marshall_terminator_witness :
    (Message.new.set (js "Action") (js "Ping")).own (js "EOL") = some (.str CRLF) ∧
    (Message.new.set (js "Action") (js "Ping")).own (js "hasOwnProperty") = none ∧
    (Message.new.set (js "Action") (js "Ping")).marshall = some (js "Action: Ping\r\n\r\n") ∧
    ∃ t, (Message.new.set (js "Action") (js "Ping")).marshall = some (t ++ CRLF ++ CRLF) :=
  ⟨by decide, by decide, by decide,
    marshall_terminator (Message.new.set (js "Action") (js "Ping")) (by decide) (by decide)
      (Or.inl ⟨js "Action", .str (js "Ping"), by decide, by decide, by decide, by decide⟩)⟩

/-- C5, as stated, fails: a field stored by `set` under the name `hasOwnProperty`
shadows the method `marshall` calls, and `marshall` raises `TypeError`. -/
theorem marshall_raises_when_hasOwnProperty_is_a_field :
    (populate [(js "hasOwnProperty", js "x")]).marshall = none := by
  decide

/-- C5 (encode output form, amended): for every message populated by `set` with string
values under names other than `lines`, `EOL`, `variables`, `hasOwnProperty` and
`__proto__` and not array indices (its Variables mapping being empty), `marshall`
returns exactly the concatenation, in order of first insertion, of name + `": "` +
current value + CRLF for each field, followed by one final CRLF; names and values are
emitted verbatim. -/
theorem marshall_output_form (fs : List (Str × Str))
    (hnames : ∀ p ∈ fs, p.1 ∉
      [js "lines", js "EOL", js "variables", js "hasOwnProperty", js "__proto__"])
    (hindex : ∀ p ∈ fs, arrayIndex p.1 = none) :
    (populate fs).marshall =
      some (((firstNames (fs.map Prod.fst)).map
        (fun k => k ++ js ": " ++ lastValue fs k ++ CRLF)).flatten ++ CRLF) := by
  have hnames' : ∀ p ∈ fs, p.1 ∉ [js "lines", js "EOL", js "variables", js "__proto__"] := by
    intro p hp hmem
    apply hnames p hp
    simp only [List.mem_cons, List.mem_singleton, List.not_mem_nil, or_false] at hmem ⊢
    tauto
  rw [populate_marshall fs hnames, populate_props fs hnames']
  have hkeys : (Message.new.props ++ (firstNames (fs.map Prod.fst)).map
      (fun k => (k, Value.str (lastValue fs k)))).map Prod.fst =
        [js "lines", js "EOL", js "variables"] ++ firstNames (fs.map Prod.fst) := by
    rw [List.map_append, List.map_map]
    congr 1
    exact List.map_id _
  rw [hkeys, ownKeys_of_no_index]
  · rw [List.filter_append]
    have h1 : List.filter (fun k => decide (k ∈ fs.map Prod.fst))
        [js "lines", js "EOL", js "variables"] = [] := by
      rw [List.filter_eq_nil_iff]
      intro k hk
      simp only [decide_eq_true_eq]
      intro hmem
      obtain ⟨p, hp, rfl⟩ := List.mem_map.1 hmem
      apply hnames p hp
      simp only [List.mem_cons, List.mem_singleton, List.not_mem_nil, or_false] at hk ⊢
      tauto
    have h2 : List.filter (fun k => decide (k ∈ fs.map Prod.fst))
        (firstNames (fs.map Prod.fst)) = firstNames (fs.map Prod.fst) := by
      rw [List.filter_eq_self]
      intro k hk
      simpa using (mem_firstNames _ _).1 hk
    rw [h1, h2, List.nil_append]
    simp only [fieldLine, List.append_assoc]
  · intro k hk
    rcases List.mem_append.1 hk with e | e
    · simp only [List.mem_cons, List.mem_singleton, List.not_mem_nil, or_false] at e
      rcases e with e | e | e <;> subst e <;> decide
    · obtain ⟨p, hp, rfl⟩ := List.mem_map.1 ((mem_firstNames _ _).1 e)
      exact hindex p hp

/-- Witness of C5 (amended): `Action` is set twice and keeps its first place with its
last value. -/
theorem marshall_output_form_witness :
    (∀ p ∈ [(js "Action", js "Login"), (js "Username", js "admin"), (js "Action", js "Logoff")],
      p.1 ∉ [js "lines", js "EOL", js "variables", js "hasOwnProperty", js "__proto__"]) ∧
    (∀ p ∈ [(js "Action", js "Login"), (js "Username", js "admin"), (js "Action", js "Logoff")],
      arrayIndex p.1 = none) ∧
    (populate [(js "Action", js "Login"), (js "Username", js "admin"),
      (js "Action", js "Logoff")]).marshall =
      some (js "Action: Logoff\r\nUsername: admin\r\n\r\n") :=
  ⟨by decide, by decide,
    (marshall_output_form
      [(js "Action", js "Login"), (js "Username", js "admin"), (js "Action", js "Logoff")]
      (by decide) (by decide)).trans (by decide)⟩

/-! ## Round trip -/

/-- C1, as stated, fails: a field whose value starts with a space comes back with the
value trimmed, and the decoded message also holds a field under the empty key, stored
for the blank lines of the terminator. -/
theorem round_trip_changes_field_set :
    (populate [(js "k", js " v")]).marshall = some (js "k:  v\r\n\r\n") ∧
    Message.unmarshall lowerAscii Message.new (js "k:  v\r\n\r\n") =
      .returned ⟨[(js "lines", .arr [js "k:  v", [], []]), (js "EOL", .str CRLF),
        (js "variables", .obj []), (js "k", .str (js "v")), ([], .str (js "v"))]⟩ ∧
    js "v" ≠ js " v" := by
  decide

/-- C1 (round trip, amended): for every message populated by `set` on a fresh message
with at least one field, whose names contain no colon, line feed or marker and are none
of `lines`, `EOL`, `variables`, `hasOwnProperty`, `__proto__`, whose normalised keys are
pairwise distinct, non-empty and none of `lines`, `set`, `__proto__`, and whose values
contain no colon, line feed or marker and have no leading or trailing whitespace:
`marshall` returns a text, unmarshalling it into a fresh message completes, the decoded
message holds every field of the message under its normalised key with its original
value, and every property it holds other than `lines`, `EOL`, `variables` and the empty
key is one of these fields. -/
theorem round_trip_fields (toLowerCase : Str → Str) (fs : List (Str × Str))
    (hlow : toLowerCase [] = []) (hne : fs ≠ [])
    (hnames : ∀ p ∈ fs, 58 ∉ p.1 ∧ 10 ∉ p.1 ∧ ¬ END_COMMAND <:+: p.1 ∧ p.1 ∉
      [js "lines", js "EOL", js "variables", js "hasOwnProperty", js "__proto__"])
    (hkeys : ∀ p ∈ fs, normaliseName toLowerCase p.1 ∉
      [[], js "lines", js "set", js "__proto__"])
    (hdistinct : (fs.map (fun p => normaliseName toLowerCase p.1)).Nodup)
    (hvalues : ∀ p ∈ fs, 58 ∉ p.2 ∧ 10 ∉ p.2 ∧ ¬ END_COMMAND <:+: p.2 ∧
      NoLeadingSpace p.2 ∧ NoTrailingSpace p.2) :
    ∃ text m', (populate fs).marshall = some text ∧
      Message.unmarshall toLowerCase Message.new text = .returned m' ∧
      (∀ p ∈ fs, m'.own (normaliseName toLowerCase p.1) = some (.str p.2)) ∧
      ∀ k v, m'.own k = some v → k ∉ [[], js "lines", js "EOL", js "variables"] →
        ∃ p ∈ fs, k = normaliseName toLowerCase p.1 ∧ v = .str p.2 := by
  have hnodup : (fs.map Prod.fst).Nodup := by
    have : fs.map (fun p => normaliseName toLowerCase p.1) =
        (fs.map Prod.fst).map (normaliseName toLowerCase) := by
      rw [List.map_map]; rfl
    rw [this] at hdistinct
    exact List.Nodup.of_map _ hdistinct
  obtain ⟨E, hperm, hmar⟩ := populate_marshall_perm fs (fun p hp => (hnames p hp).2.2.2) hnodup
  have hmem : ∀ p, p ∈ E ↔ p ∈ fs := fun p => hperm.mem_iff
  have hE : E ≠ [] := by
    intro e
    apply hne
    have := hperm.length_eq
    rw [e] at this
    exact List.length_eq_zero.1 this.symm
  have hkey : ∀ p ∈ fs, normaliseName toLowerCase p.1 ≠ [] ∧
      normaliseName toLowerCase p.1 ≠ js "lines" ∧
      normaliseName toLowerCase p.1 ≠ js "set" ∧
      normaliseName toLowerCase p.1 ≠ js "__proto__" := by
    intro p hp
    have := hkeys p hp
    simp only [List.mem_cons, List.mem_singleton, List.not_mem_nil, or_false, not_or] at this
    exact this
  obtain ⟨w, hun⟩ := unmarshall_fieldLines toLowerCase hlow E hE
    (fun p hp => by
      have h1 := hnames p ((hmem p).1 hp)
      have h2 := hvalues p ((hmem p).1 hp)
      exact ⟨h1.1, h1.2.1, h2.2.1, h1.2.2.1, h2.2.2.1, h2.2.2.2.1, h2.2.2.2.2⟩)
    (fun p hp => ⟨(hkey p ((hmem p).1 hp)).2.1, (hkey p ((hmem p).1 hp)).2.2.1⟩)
  refine ⟨_, _, hmar, hun, ?_, ?_⟩
  · intro p hp
    rw [setAll_append, own_setAll_of_not_mem]
    · have hnd : ((E.map (fun p => (normaliseName toLowerCase p.1, p.2))).map Prod.fst).Nodup := by
        rw [List.map_map]
        exact (hperm.map _).nodup_iff.2 hdistinct
      exact own_setAll_of_mem_nodup _ _ (normaliseName toLowerCase p.1, p.2) hnd
        (List.mem_map_of_mem _ ((hmem p).2 hp)) (hkey p hp).2.2.2
    · intro a ha
      simp only [List.mem_cons, List.mem_singleton, List.not_mem_nil, or_false, or_self] at ha
      subst ha
      exact fun e => (hkey p hp).1 e.symm
  · intro k v hown hk
    simp only [List.mem_cons, List.mem_singleton, List.not_mem_nil, or_false, not_or] at hk
    rcases own_setAll_cases _ _ k v hown with h0 | ⟨a, ha, hak, hav⟩
    · exfalso
      by_cases hl : k = js "lines"
      · exact hk.2.1 hl
      · rw [own_assign_lines Message.new k _ hl] at h0
        have := lookupProp_mem k v _ h0
        have e : Message.new.props.map Prod.fst = [js "lines", js "EOL", js "variables"] := rfl
        rw [e] at this
        simp only [List.mem_cons, List.mem_singleton, List.not_mem_nil, or_false] at this
        rcases this with e | e | e
        · exact hk.2.1 e
        · exact hk.2.2.1 e
        · exact hk.2.2.2 e
    · rcases List.mem_append.1 ha with h | h
      · obtain ⟨p, hp, rfl⟩ := List.mem_map.1 h
        exact ⟨p, (hmem p).1 hp, hak.symm, hav⟩
      · simp only [List.mem_cons, List.mem_singleton, List.not_mem_nil, or_false, or_self] at h
        subst h
        exact absurd hak.symm hk.1

/-- Witness of C1 (amended): a login action with an upper-case, hyphenated name. -/
theorem round_trip_fields_witness :
    (∃ text m', (populate [(js "Action", js "Login"), (js "User-Name", js "admin")]).marshall =
        some text ∧
      Message.unmarshall lowerAscii Message.new text = .returned m' ∧
      (∀ p ∈ [(js "Action", js "Login"), (js "User-Name", js "admin")],
        m'.own (normaliseName lowerAscii p.1) = some (.str p.2)) ∧
      ∀ k v, m'.own k = some v → k ∉ [[], js "lines", js "EOL", js "variables"] →
        ∃ p ∈ [(js "Action", js "Login"), (js "User-Name", js "admin")],
          k = normaliseName lowerAscii p.1 ∧ v = .str p.2) ∧
    normaliseName lowerAscii (js "User-Name") = js "user_name" :=
  ⟨round_trip_fields lowerAscii [(js "Action", js "Login"), (js "User-Name", js "admin")]
    (by decide) (by decide) (by decide) (by decide) (by decide) (by decide), by decide⟩

/-! ## set and get -/

/-- C11 (sentinel algorithm): for every line that contains the marker, whatever colons
it has, the single call of `set` made for that line has the key `commandoutput` and the
line with the first occurrence of the marker removed and then trimmed as its value; on
every message whose `set` method is intact the iteration performs exactly that one
store: `commandoutput` holds the value afterwards and every other property is
unchanged. -/
theorem sentinel_single_store (toLowerCase : Str → Str) (value : Option Str) (l : Str)
    (hlow : toLowerCase (js "CommandOutput") = js "commandoutput")
    (hsent : END_COMMAND <:+: l) :
    setArgs toLowerCase value l = some (js "commandoutput", trim (removeFirst END_COMMAND l)) ∧
    (∃ pre post : Str, l = pre ++ END_COMMAND ++ post ∧
      (∀ j, j < pre.length → ¬ END_COMMAND <+: l.drop j) ∧
      removeFirst END_COMMAND l = pre ++ post) ∧
    ∀ m : Message, m.own (js "set") = none →
      ∃ m' value', unmarshallStep toLowerCase m value l = some (m', value') ∧
        m'.own (js "commandoutput") = some (.str (trim (removeFirst END_COMMAND l))) ∧
        ∀ k, k ≠ js "commandoutput" → m'.own k = m.own k := by
  have hargs : setArgs toLowerCase value l =
      some (js "commandoutput", trim (removeFirst END_COMMAND l)) := by
    rw [setArgs_sentinel toLowerCase value l hsent, hlow]
  refine ⟨hargs, removeFirst_spec END_COMMAND l hsent, ?_⟩
  intro m hset
  refine ⟨_, _, unmarshallStep_eq toLowerCase m value l _ _ hset hargs, ?_, ?_⟩
  · exact own_set_self m _ _ (by decide)
  · intro k hk
    exact own_set_ne m _ k _ (fun e => hk e.symm)

/-- Witness of C11: a marker line that also has colons. -/
theorem sentinel_single_store_witness :
    lowerAscii (js "CommandOutput") = js "commandoutput" ∧
    END_COMMAND <:+: js "  a: b --END COMMAND--c: d " ∧
    setArgs lowerAscii none (js "  a: b --END COMMAND--c: d ") =
      some (js "commandoutput", js "a: b c: d") :=
  ⟨by decide, by decide,
    (sentinel_single_store lowerAscii none (js "  a: b --END COMMAND--c: d ")
      (by decide) (by decide)).1.trans (by decide)⟩

/-- C12, as stated, fails: `set("__proto__", "x")` stores nothing, and `get("__proto__")`
returns the prototype object, not `x`. -/
theorem set_proto_is_ignored :
    Message.new.set (js "__proto__") (js "x") = Message.new ∧
    (Message.new.set (js "__proto__") (js "x")).get (js "__proto__") = .prototype := by
  decide

/-- C12 (set/get, amended): for every message, every name other than `__proto__` and
every value, after `set(name, value)` the method `get` returns `value` for `name`,
whatever was stored under `name` before, and returns for every other name what it
returned before; made as calls on an object whose methods `set` and `get` are intact,
with a name other than `get`, both calls complete with these results. -/
theorem set_then_get (m : Message) (name value : Str) (hname : name ≠ js "__proto__") :
    (m.set name value).get name = .own (.str value) ∧
    (∀ other, other ≠ name → (m.set name value).get other = m.get other) ∧
    (m.own (js "set") = none → m.own (js "get") = none → name ≠ js "get" →
      ∃ m', m.callSet name value = some m' ∧
        m'.callGet name = some (.own (.str value)) ∧
        ∀ other, other ≠ name → m'.callGet other = m.callGet other) := by
  have h1 : (m.set name value).get name = .own (.str value) :=
    get_of_own _ _ _ (own_set_self m name value hname)
  have h2 : ∀ other, other ≠ name → (m.set name value).get other = m.get other :=
    fun other ho => get_congr _ _ _ (own_set_ne m name other value (fun e => ho e.symm))
  refine ⟨h1, h2, ?_⟩
  intro hset hget hne
  have hget' : (m.set name value).own (js "get") = none := by
    rw [own_set_ne m name _ value hne]; exact hget
  refine ⟨m.set name value, by simp [Message.callSet, hset], ?_, ?_⟩
  · simp [Message.callGet, hget', h1]
  · intro other ho
    simp [Message.callGet, hget', hget, h2 other ho]

/-- Witness of C12 (amended): the second `set` of `Action` wins, `Username` is kept. -/
theorem set_then_get_witness :
    js "Action" ≠ js "__proto__" ∧
    (((Message.new.set (js "Username") (js "admin")).set (js "Action") (js "Login")).set
      (js "Action") (js "Logoff")).get (js "Action") = .own (.str (js "Logoff")) ∧
    (((Message.new.set (js "Username") (js "admin")).set (js "Action") (js "Login")).set
      (js "Action") (js "Logoff")).get (js "Username") = .own (.str (js "admin")) :=
  ⟨by decide,
    (set_then_get ((Message.new.set (js "Username") (js "admin")).set (js "Action")
      (js "Login")) (js "Action") (js "Logoff") (by decide)).1,
    by decide⟩

/-- C13, as stated, fails: `set("Action", "Login")` stores under `Action` as given, and
`get` of the normalised name `action` returns `undefined`. -/
theorem set_does_not_normalise :
    (Message.new.set (js "Action") (js "Login")).get (js "Action") = .own (.str (js "Login")) ∧
    normaliseName lowerAscii (js "Action") = js "action" ∧
    (Message.new.set (js "Action") (js "Login")).get (js "action") = .undefined := by
  decide

/-- C13 (set keeps its key, amended): for every message, every name other than
`__proto__` and every value, `set(name, value)` stores the value under the name exactly
as given, without hyphen replacement or lowercasing: afterwards the own property `name`
holds `value`, and `get` of the normalised name, when it differs from `name`, returns
what it returned before. -/
theorem set_keeps_name (toLowerCase : Str → Str) (m : Message) (name value : Str)
    (hname : name ≠ js "__proto__") :
    (m.set name value).props = assign name (.str value) m.props ∧
    (m.set name value).own name = some (.str value) ∧
    (normaliseName toLowerCase name ≠ name →
      (m.set name value).get (normaliseName toLowerCase name) =
        m.get (normaliseName toLowerCase name)) := by
  refine ⟨?_, own_set_self m name value hname, ?_⟩
  · unfold Message.set
    rw [if_neg hname]
  · intro hne
    exact get_congr _ _ _ (own_set_ne m name _ value (fun e => hne e.symm))

/-- Witness of C13 (amended): `User-Name` and `user_name` are two fields. -/
theorem set_keeps_name_witness :
    js "User-Name" ≠ js "__proto__" ∧
    normaliseName lowerAscii (js "User-Name") = js "user_name" ∧
    ((Message.new.set (js "user_name") (js "a")).set (js "User-Name") (js "b")).get
      (js "user_name") = .own (.str (js "a")) ∧
    ((Message.new.set (js "user_name") (js "a")).set (js "User-Name") (js "b")).own
      (js "User-Name") = some (.str (js "b")) :=
  ⟨by decide, by decide,
    ((set_keeps_name lowerAscii (Message.new.set (js "user_name") (js "a")) (js "User-Name")
      (js "b") (by decide)).2.2 (by decide)).trans (by decide),
    (set_keeps_name lowerAscii (Message.new.set (js "user_name") (js "a")) (js "User-Name")
      (js "b") (by decide)).2.1⟩

/-- C14, as stated, fails: on a freshly constructed message, on which nothing was
stored by `set` or `unmarshall`, `get` returns the delimiter for `EOL`, the array for
`lines`, the mapping for `variables` and the inherited method for `set`. -/
theorem get_on_fresh_message :
    Message.new.get (js "EOL") = .own (.str CRLF) ∧
    Message.new.get (js "lines") = .own (.arr []) ∧
    Message.new.get (js "variables") = .own (.obj []) ∧
    Message.new.get (js "set") = .inherited (js "set") := by
  decide

/-- C14 (absent field lookup, amended): for every message and every name that is
neither an own property of the message nor a name inherited from the prototypes, `get`
returns `undefined`, and the call does not raise when the method `get` is intact; a
message populated by `set` has as own properties `lines`, `EOL`, `variables` and the
names stored, so on it, and in particular on a fresh message, `get` returns `undefined`
for every other name that is not inherited. -/
theorem absent_lookup (m : Message) (calls : List (Str × Str)) (name : Str)
    (hown : m.own name = none)
    (hinherited : name ∉ js "__proto__" :: inheritedNames) :
    m.get name = .undefined ∧
    (m.own (js "get") = none → m.callGet name = some .undefined) ∧
    (name ∉ [js "lines", js "EOL", js "variables"] → name ∉ calls.map Prod.fst →
      (populate calls).get name = .undefined) := by
  have hp : name ≠ js "__proto__" := fun e => hinherited (by simp [e])
  have hi : name ∉ inheritedNames := fun e => hinherited (List.mem_cons_of_mem _ e)
  have hget : ∀ m' : Message, m'.own name = none → m'.get name = .undefined := by
    intro m' h
    unfold Message.get
    rw [h]
    simp [hp, hi]
  refine ⟨hget m hown, ?_, ?_⟩
  · intro hg
    simp [Message.callGet, hg, hget m hown]
  · intro hres hcalls
    apply hget
    have hnone : ∀ (cs : List (Str × Str)) (m0 : Message), name ∉ cs.map Prod.fst →
        (cs.foldl (fun m p => m.set p.1 p.2) m0).own name = m0.own name := by
      intro cs
      induction cs with
      | nil => intro m0 _; rfl
      | cons c cs ih =>
        intro m0 hc
        simp only [List.map_cons, List.mem_cons, not_or] at hc
        rw [List.foldl_cons, ih _ hc.2, own_set_ne m0 c.1 name c.2 (fun e => hc.1 e.symm)]
    unfold populate
    rw [hnone calls Message.new hcalls]
    apply lookupProp_none
    exact hres

/-- Witness of C14 (amended): `foo` was never stored. -/
theorem absent_lookup_witness :
    (Message.new.set (js "Action") (js "Login")).own (js "foo") = none ∧
    js "foo" ∉ js "__proto__" :: inheritedNames ∧
    (Message.new.set (js "Action") (js "Login")).get (js "foo") = .undefined :=
  ⟨by decide, by decide,
    (absent_lookup (Message.new.set (js "Action") (js "Login")) [] (js "foo")
      (by decide) (by decide)).1⟩

/-- C15, as stated, fails: `set("variables", "x")` replaces the Variables mapping by a
string, and `get("variables")` returns the Variables mapping. -/
theorem set_and_get_reach_variables :
    (Message.new.set (js "variables") (js "x")).own (js "variables") = some (.str (js "x")) ∧
    (Message.new.setVariable (js "foo") (js "bar")).get (js "variables") =
      .own (.obj [(js "foo", js "bar")]) := by
  decide

/-- C15 (separate namespaces, amended): for every message, every name other than
`variables` and every value, `set(name, value)` leaves the Variables mapping unchanged,
and what `get(name)` returns does not depend on the Variables mapping: it is the same
after any entry is stored in the mapping, also an entry whose key is `name`, and the
same whatever mapping the message holds. -/
theorem separate_namespaces (m : Message) (name value key v : Str) (es : List (Str × Str))
    (hname : name ≠ js "variables") :
    (m.set name value).own (js "variables") = m.own (js "variables") ∧
    (m.setVariable key v).get name = m.get name ∧
    (Message.mk (assign (js "variables") (.obj es) m.props)).get name = m.get name ∧
    ((m.setVariable name v).set name value).get name = (m.set name value).get name := by
  refine ⟨own_set_ne m name _ value hname, ?_, ?_, ?_⟩
  · exact get_congr _ _ _ (own_setVariable_ne m key v name hname)
  · exact get_congr _ _ _
      (lookupProp_assign_ne (js "variables") name _ m.props (fun e => hname e.symm))
  · apply get_congr
    by_cases hp : name = js "__proto__"
    · unfold Message.set
      rw [if_pos hp, if_pos hp]
      exact own_setVariable_ne m name v name hname
    · rw [own_set_self _ name value hp, own_set_self _ name value hp]

/-- Witness of C15 (amended): a field and a variable both named `Channel`. -/
theorem separate_namespaces_witness :
    js "Channel" ≠ js "variables" ∧
    ((Message.new.setVariable (js "Channel") (js "v")).set (js "Channel") (js "f")).get
      (js "Channel") = .own (.str (js "f")) ∧
    ((Message.new.setVariable (js "Channel") (js "v")).set (js "Channel") (js "f")).own
      (js "variables") = some (.obj [(js "Channel", js "v")]) :=
  ⟨by decide,
    ((separate_namespaces Message.new (js "Channel") (js "f") (js "Channel") (js "v") []
      (by decide)).2.2.2).trans (by decide),
    ((separate_namespaces (Message.new.setVariable (js "Channel") (js "v")) (js "Channel")
      (js "f") (js "Channel") (js "v") [] (by decide)).1).trans (by decide)⟩

/-! ## Reserved names -/

/-- C20 (reserved names are never encoded): for every message, `marshall` either raises
(exactly when `hasOwnProperty` is shadowed) or returns the field lines, the variable
lines and the final delimiter, where a field line is emitted only for visited names
other than `lines`, `EOL` and `variables`; and a value stored with `set` under one of
these three names is returned by `get`. -/
theorem reserved_names_not_encoded (m : Message) (name value : Str)
    (hname : name ∈ [js "lines", js "EOL", js "variables"]) :
    m.marshall =
      (if (m.own (js "hasOwnProperty")).isSome then none
       else some ((((forInKeys m).filter
          (fun k => decide (k ∉ [js "lines", js "EOL", js "variables"]))).map
            (fun k => match m.own k with
              | some v => k ++ js ": " ++ v.toStr ++ m.eolText
              | none => [])).flatten ++
          ((variableEntries (m.own (js "variables"))).map (variableText m.eolText)).flatten ++
          m.eolText)) ∧
    (m.set name value).get name = .own (.str value) := by
  constructor
  · by_cases hhas : (m.own (js "hasOwnProperty")).isSome = true
    · rw [if_pos hhas]
      unfold Message.marshall
      rw [marshallFields_shadowed m hhas]
      refine ⟨js "marshall", ?_, by decide⟩
      unfold forInKeys
      cases hown : m.own (js "marshall") with
      | some v =>
        exact List.mem_append_left _ ((mem_ownKeys _ _).2 (lookupProp_mem _ v _ hown))
      | none =>
        apply List.mem_append_right
        rw [List.mem_filter]
        refine ⟨by decide, ?_⟩
        rw [hown]; rfl
    · rw [if_neg hhas]
      have hnone : m.own (js "hasOwnProperty") = none := by
        cases h : m.own (js "hasOwnProperty") with
        | none => rfl
        | some v => rw [h] at hhas; simp at hhas
      rw [marshall_eq m hnone]
      congr 3
      generalize forInKeys m = keys
      induction keys with
      | nil => rfl
      | cons k keys ih =>
        simp only [List.map_cons, List.flatten_cons, List.filter_cons]
        by_cases hk : k ∈ [js "lines", js "EOL", js "variables"]
        · simp only [hk, not_true_eq_false, decide_False, Bool.false_eq_true, if_false,
            fieldText_reserved m k hk, List.nil_append]
          exact ih
        · simp only [hk, not_false_eq_true, decide_True, if_true, List.map_cons,
            List.flatten_cons, ih]
          congr 1
          simp only [List.mem_cons, List.mem_singleton, List.not_mem_nil, or_false,
            not_or] at hk
          unfold fieldText
          rw [if_neg hk.2.2]
          cases m.own k with
          | none => rfl
          | some v => simp only [if_pos (And.intro hk.1 hk.2.1)]
  · apply get_of_own
    apply own_set_self
    intro e
    subst e
    revert hname
    decide

/-- Witness of C20: a message on which `lines`, `EOL` and `variables` were stored with
`set` next to the field `Action`; only `Action` gets a line. -/
theorem reserved_names_not_encoded_witness :
    js "lines" ∈ [js "lines", js "EOL", js "variables"] ∧
    ((Message.new.set (js "Action") (js "Ping")).set (js "lines") (js "x")).marshall =
      some (js "Action: Ping\r\n\r\n") ∧
    ((Message.new.set (js "Action") (js "Ping")).set (js "lines") (js "x")).get (js "lines") =
      .own (.str (js "x")) :=
  ⟨by decide,
    ((reserved_names_not_encoded
      ((Message.new.set (js "Action") (js "Ping")).set (js "lines") (js "x"))
      (js "lines") (js "x") (by decide)).1).trans (by decide),
    (reserved_names_not_encoded (Message.new.set (js "Action") (js "Ping"))
      (js "lines") (js "x") (by decide)).2⟩

/-! ## Lines of a text -/

/-- C17, as stated, fails: on the text `lines: ab` `unmarshall` completes, but the
line whose key is `lines` replaces the retained sequence by the string `ab`, and the
loop then goes on over that string and stores a field `b` for its second code unit. -/
theorem lines_replaced_by_a_field :
    Message.unmarshall lowerAscii Message.new (js "lines: ab") =
      .returned ⟨[(js "lines", .str (js "ab")), (js "EOL", .str CRLF),
        (js "variables", .obj []), (js "b", .str (js "ab"))]⟩ ∧
    split CRLF (js "lines: ab") = [js "lines: ab"] := by
  decide

/-- C17 (raw lines retained, amended): for every text none of whose lines has a key
that normalises to `lines` and on which `unmarshall`, called on a fresh message,
completes, the line sequence retained on the message afterwards is the text split on
CRLF, in order; joining it with CRLF gives back the text; and the message is the result
of exactly one `set` call per line, in the order of the lines, each under the normalised
key of its line. -/
theorem lines_retained (toLowerCase : Str → Str) (data : Str) (m' : Message)
    (hkeys : ∀ l ∈ split CRLF data, normalisedKey toLowerCase l ≠ js "lines")
    (hdone : Message.unmarshall toLowerCase Message.new data = .returned m') :
    m'.own (js "lines") = some (.arr (split CRLF data)) ∧
    join CRLF (split CRLF data) = data ∧
    ∃ args, storeSeq toLowerCase none (split CRLF data) = some args ∧
      args.map Prod.fst = (split CRLF data).map (normalisedKey toLowerCase) ∧
      m' = setAll ⟨assign (js "lines") (.arr (split CRLF data)) Message.new.props⟩ args := by
  have hsplit : Message.new.splitLines data = split CRLF data := rfl
  unfold Message.unmarshall at hdone
  rw [hsplit] at hdone
  obtain ⟨args, hseq, hm', hl⟩ := unmarshallLoop_returned toLowerCase (split CRLF data)
    (data.length + 2) 0 _ none m' (lookupProp_assign_self _ _ _)
    (by simpa using hkeys) hdone
  rw [List.drop_zero] at hseq
  exact ⟨hl, join_split_crlf data, args, hseq,
    storeSeq_map_fst toLowerCase _ _ _ hseq, hm'⟩

/-- Witness of C17 (amended) on a response with its blank terminator. -/
theorem lines_retained_witness :
    (∀ l ∈ split CRLF (js "Response: Success\r\n\r\n"),
      normalisedKey lowerAscii l ≠ js "lines") ∧
    Message.unmarshall lowerAscii Message.new (js "Response: Success\r\n\r\n") =
      .returned ⟨[(js "lines", .arr [js "Response: Success", [], []]), (js "EOL", .str CRLF),
        (js "variables", .obj []), (js "response", .str (js "Success")),
        ([], .str (js "Success"))]⟩ ∧
    join CRLF (split CRLF (js "Response: Success\r\n\r\n")) = js "Response: Success\r\n\r\n" :=
  ⟨by decide, by decide,
    (lines_retained lowerAscii (js "Response: Success\r\n\r\n")
      ⟨[(js "lines", .arr [js "Response: Success", [], []]), (js "EOL", .str CRLF),
        (js "variables", .obj []), (js "response", .str (js "Success")),
        ([], .str (js "Success"))]⟩ (by decide) (by decide)).2.1⟩

/-- C19 (stale value on colon-less lines): for every text whose first line contains a
colon or the marker and none of whose lines has a key that normalises to `lines` or
`set`, `unmarshall` on a fresh message completes with one `set` call per line, and for
each later line that contains neither a colon nor the marker the call has the
normalised line as key and the same value as the call for the line immediately before
it. -/
theorem stale_value_on_plain_lines (toLowerCase : Str → Str) (data : Str)
    (hfirst : ∀ l ∈ (split CRLF data).head?, 58 ∈ l ∨ END_COMMAND <:+: l)
    (hkeys : ∀ l ∈ split CRLF data,
      normalisedKey toLowerCase l ≠ js "set" ∧ normalisedKey toLowerCase l ≠ js "lines") :
    ∃ args, storeSeq toLowerCase none (split CRLF data) = some args ∧
      Message.unmarshall toLowerCase Message.new data = .returned
        (setAll ⟨assign (js "lines") (.arr (split CRLF data)) Message.new.props⟩ args) ∧
      ∀ (i : Nat) (l : Str), (split CRLF data)[i + 1]? = some l → 58 ∉ l →
        ¬ END_COMMAND <:+: l →
        ∃ k0 v, args[i]? = some (k0, v) ∧
          args[i + 1]? = some (normaliseName toLowerCase l, v) := by
  have hsplit : Message.new.splitLines data = split CRLF data := rfl
  obtain ⟨args, hseq, hmap⟩ := storeSeq_keys toLowerCase (split CRLF data) none (Or.inr hfirst)
  refine ⟨args, hseq, ?_, storeSeq_stale toLowerCase _ _ _ hseq⟩
  have := unmarshall_of_storeSeq toLowerCase Message.new data args (by decide)
    (by rw [hsplit]; exact hseq) ?_
  · rw [this, hsplit]
  · intro a ha
    have hmem : a.1 ∈ (split CRLF data).map (normalisedKey toLowerCase) := by
      rw [← hmap]; exact List.mem_map_of_mem _ ha
    obtain ⟨l, hl, hla⟩ := List.mem_map.1 hmem
    rw [← hla]
    exact ⟨(hkeys l hl).2, (hkeys l hl).1⟩

/-- Witness of C19 on `k: v` followed by the blank terminator: afterwards `get` of the
empty key returns `v`. -/
theorem stale_value_on_plain_lines_witness :
    (∃ args, storeSeq lowerAscii none (split CRLF (js "k: v\r\n\r\n")) = some args ∧
      ∃ k0 v, args[0]? = some (k0, v) ∧ args[1]? = some (normaliseName lowerAscii [], v)) ∧
    (∃ m', Message.unmarshall lowerAscii Message.new (js "k: v\r\n\r\n") = .returned m' ∧
      m'.get [] = .own (.str (js "v"))) := by
  obtain ⟨args, hseq, -, hstale⟩ := stale_value_on_plain_lines lowerAscii (js "k: v\r\n\r\n")
    (by decide) (by decide)
  exact ⟨⟨args, hseq, hstale 0 [] (by decide) (by decide) (by decide)⟩,
    ⟨⟨[(js "lines", .arr [js "k: v", [], []]), (js "EOL", .str CRLF),
      (js "variables", .obj []), (js "k", .str (js "v")), ([], .str (js "v"))]⟩,
      by decide, by decide⟩⟩

/-! ## Variables through a round trip -/

/-- C16, as stated, fails: a message with the field `Variables` and one variable is
decoded into a message whose `variables` property holds the string `x`, not an empty
mapping. -/
theorem decoded_field_replaces_variables :
    ((Message.new.set (js "Variables") (js "x")).setVariable (js "foo") (js "bar")).marshall =
      some (js "Variables: x\r\nVariable: foo=bar\r\n\r\n") ∧
    Message.unmarshall lowerAscii Message.new (js "Variables: x\r\nVariable: foo=bar\r\n\r\n") =
      .returned ⟨[(js "lines", .arr [js "Variables: x", js "Variable: foo=bar", [], []]),
        (js "EOL", .str CRLF), (js "variables", .str (js "x")),
        (js "variable", .str (js "foo=bar")), ([], .str (js "foo=bar"))]⟩ := by
  decide

/-- C16 (variables asymmetry, amended): for every message with at least one variable
(keys and values without colon, CR, LF or marker) whose ordinary fields have names
without colon, line feed or marker, none of `lines`, `EOL`, `variables`,
`hasOwnProperty`, `__proto__`, normalised keys none of `lines`, `set`, `variables`, and
values without line feed or marker: `marshall` returns a text, unmarshalling it into a
fresh message completes, leaves that message's Variables mapping empty and stores, as
the ordinary field `variable`, the trimmed text `<key>=<value>` of the last `Variable:`
line emitted. -/
theorem variables_asymmetry (toLowerCase : Str → Str) (fs es : List (Str × Str))
    (hlow : toLowerCase [] = [])
    (hvar : toLowerCase (js "Variable") = js "variable")
    (hes : es ≠ []) (hmapping : (es.map Prod.fst).Nodup)
    (hvars : ∀ e ∈ es, 58 ∉ e.1 ∧ 13 ∉ e.1 ∧ 10 ∉ e.1 ∧ ¬ END_COMMAND <:+: e.1 ∧
      58 ∉ e.2 ∧ 13 ∉ e.2 ∧ 10 ∉ e.2 ∧ ¬ END_COMMAND <:+: e.2)
    (hnodup : (fs.map Prod.fst).Nodup)
    (hnames : ∀ p ∈ fs, 58 ∉ p.1 ∧ 10 ∉ p.1 ∧ ¬ END_COMMAND <:+: p.1 ∧ p.1 ∉
      [js "lines", js "EOL", js "variables", js "hasOwnProperty", js "__proto__"])
    (hkeys : ∀ p ∈ fs, normaliseName toLowerCase p.1 ∉
      [js "lines", js "set", js "variables"])
    (hvalues : ∀ p ∈ fs, 10 ∉ p.2 ∧ ¬ END_COMMAND <:+: p.2) :
    ∃ text m', (withVariables (populate fs) es).marshall = some text ∧
      Message.unmarshall toLowerCase Message.new text = .returned m' ∧
      m'.own (js "variables") = some (.obj []) ∧
      ∀ e, (variableEntries (some (.obj es))).getLast? = some e →
        m'.own (js "variable") = some (.str (trim (e.1 ++ js "=" ++ e.2))) := by
  have hnames4 : ∀ p ∈ fs, p.1 ∉ [js "lines", js "EOL", js "variables", js "__proto__"] := by
    intro p hp hmem
    apply (hnames p hp).2.2.2
    simp only [List.mem_cons, List.mem_singleton, List.not_mem_nil, or_false] at hmem ⊢
    tauto
  have hnot : ∀ k, k ∈ [js "EOL", js "variables", js "hasOwnProperty"] →
      k ∉ fs.map Prod.fst := by
    intro k hk hmem
    obtain ⟨p, hp, rfl⟩ := List.mem_map.1 hmem
    apply (hnames p hp).2.2.2
    simp only [List.mem_cons, List.mem_singleton, List.not_mem_nil, or_false] at hk ⊢
    tauto
  obtain ⟨E, hperm, hmar⟩ := populate_marshall_perm fs (fun p hp => (hnames p hp).2.2.2) hnodup
  have hmarV := marshall_withVariables (populate fs) es _
    (by rw [populate_own_base fs hnames4 _ (hnot _ (by decide))]; rfl)
    (by rw [populate_own_base fs hnames4 _ (hnot _ (by decide))]; rfl)
    (by rw [populate_own_base fs hnames4 _ (hnot _ (by decide))]; rfl) hmar
  have hentries := variableEntries_perm es hmapping
  have hentries_ne : variableEntries (some (.obj es)) ≠ [] := by
    intro e
    apply hes
    have := hentries.length_eq
    rw [e] at this
    exact List.length_eq_zero.1 this.symm
  have htext : (E.map (fun p => fieldLine p ++ CRLF)).flatten ++
      ((variableEntries (some (.obj es))).map (variableText CRLF)).flatten ++ CRLF =
      ((E ++ (variableEntries (some (.obj es))).map variableField).map
        (fun p => fieldLine p ++ CRLF)).flatten ++ CRLF := by
    have hm : (variableEntries (some (.obj es))).map (variableText CRLF) =
        (variableEntries (some (.obj es))).map
          ((fun p => fieldLine p ++ CRLF) ∘ variableField) :=
      List.map_congr_left (fun e _ => variableText_eq e)
    rw [List.map_append, List.flatten_append, List.map_map, hm]
  have hnkv : normaliseName toLowerCase (js "Variable") = js "variable" := by
    unfold normaliseName
    have : firstHyphenToUnderscore (js "Variable") = js "Variable" := by decide
    rw [this, hvar]
  have hVgood : ∀ e ∈ variableEntries (some (.obj es)),
      10 ∉ (variableField e).2 ∧ ¬ END_COMMAND <:+: (variableField e).2 := by
    intro e he
    obtain ⟨-, -, h3, h4, -, -, h7, h8⟩ := hvars e (hentries.mem_iff.1 he)
    have heq : (variableField e).2 = e.1 ++ 61 :: e.2 := by
      unfold variableField
      have : js "=" = [61] := by decide
      rw [this]
      simp
    rw [heq]
    refine ⟨?_, not_infix_across_char END_COMMAND e.1 e.2 61 (by decide) (by decide) h4 h8⟩
    simp only [List.mem_append, List.mem_cons, not_or]
    exact ⟨h3, by decide, h7⟩
  obtain ⟨w, hun⟩ := unmarshall_fieldLines_trim toLowerCase hlow
    (E ++ (variableEntries (some (.obj es))).map variableField)
    (by
      intro e
      exact hentries_ne (List.map_eq_nil_iff.1 (List.append_eq_nil.1 e).2))
    (by
      intro p hp
      rcases List.mem_append.1 hp with h | h
      · have h1 := hnames p (hperm.mem_iff.1 h)
        have h2 := hvalues p (hperm.mem_iff.1 h)
        exact ⟨h1.1, h1.2.1, h2.1, h1.2.2.1, h2.2⟩
      · obtain ⟨e, he, rfl⟩ := List.mem_map.1 h
        have hg := hVgood e he
        have h58 : 58 ∉ js "Variable" := by decide
        have h10 : 10 ∉ js "Variable" := by decide
        have hend : ¬ END_COMMAND <:+: js "Variable" := by decide
        exact ⟨h58, h10, hg.1, hend, hg.2⟩)
    (by
      intro p hp
      rcases List.mem_append.1 hp with h | h
      · have := hkeys p (hperm.mem_iff.1 h)
        simp only [List.mem_cons, List.mem_singleton, List.not_mem_nil, or_false,
          not_or] at this
        exact ⟨this.1, this.2.1⟩
      · obtain ⟨e, he, rfl⟩ := List.mem_map.1 h
        have e1 : (variableField e).1 = js "Variable" := rfl
        rw [e1, hnkv]
        exact ⟨by decide, by decide⟩)
  refine ⟨_, _, hmarV, by rw [htext]; exact hun, ?_, ?_⟩
  · rw [own_setAll_of_not_mem]
    · rfl
    · intro a ha
      rcases List.mem_append.1 ha with h | h
      · obtain ⟨p, hp, rfl⟩ := List.mem_map.1 h
        rcases List.mem_append.1 hp with h' | h'
        · have := hkeys p (hperm.mem_iff.1 h')
          simp only [List.mem_cons, List.mem_singleton, List.not_mem_nil, or_false,
            not_or] at this
          exact this.2.2
        · obtain ⟨e, he, rfl⟩ := List.mem_map.1 h'
          have e1 : (variableField e).1 = js "Variable" := rfl
          simp only [e1, hnkv]
          decide
      · simp only [List.mem_cons, List.mem_singleton, List.not_mem_nil, or_false, or_self] at h
        subst h
        have h0 : ([] : Str) ≠ js "variables" := by decide
        exact h0
  · intro e he
    obtain ⟨ys, hys⟩ := List.getLast?_eq_some_iff.1 he
    have hargs : (E ++ (variableEntries (some (.obj es))).map variableField).map
        (fun p => (normaliseName toLowerCase p.1, trim p.2)) ++ [([], w), ([], w)] =
        (E ++ ys.map variableField).map (fun p => (normaliseName toLowerCase p.1, trim p.2)) ++
          (js "variable", trim (e.1 ++ js "=" ++ e.2)) :: [([], w), ([], w)] := by
      rw [hys]
      simp only [List.map_append, List.map_cons, List.map_nil, List.append_assoc,
        List.singleton_append]
      have e1 : (variableField e).1 = js "Variable" := rfl
      have e2 : (variableField e).2 = e.1 ++ js "=" ++ e.2 := rfl
      rw [e1, e2, hnkv]
      simp only [List.append_assoc]
    rw [hargs]
    have hproto : js "variable" ≠ js "__proto__" := by decide
    have := own_setAll_last
      ⟨assign (js "lines")
        (.arr ((E ++ (variableEntries (some (.obj es))).map variableField).map fieldLine ++
          [[], []])) Message.new.props⟩
      ((E ++ ys.map variableField).map (fun p => (normaliseName toLowerCase p.1, trim p.2)))
      [([], w), ([], w)] (js "variable", trim (e.1 ++ js "=" ++ e.2)) hproto (by
        intro b hb
        simp only [List.mem_cons, List.mem_singleton, List.not_mem_nil, or_false, or_self] at hb
        subst hb
        have h0 : ([] : Str) ≠ js "variable" := by decide
        exact h0)
    exact this

/-- Witness of C16 (amended): an `Originate` action with two variables; only the last
one survives, as the field `variable`. -/
theorem variables_asymmetry_witness :
    (withVariables (populate [(js "Action", js "Originate")])
      [(js "foo", js "bar"), (js "baz", js "1")]).marshall =
      some (js "Action: Originate\r\nVariable: foo=bar\r\nVariable: baz=1\r\n\r\n") ∧
    (variableEntries (some (.obj [(js "foo", js "bar"), (js "baz", js "1")]))).getLast? =
      some (js "baz", js "1") ∧
    ∃ text m', (withVariables (populate [(js "Action", js "Originate")])
        [(js "foo", js "bar"), (js "baz", js "1")]).marshall = some text ∧
      Message.unmarshall lowerAscii Message.new text = .returned m' ∧
      m'.own (js "variables") = some (.obj []) ∧
      m'.own (js "variable") = some (.str (js "baz=1")) := by
  refine ⟨by decide, by decide, ?_⟩
  obtain ⟨text, m', h1, h2, h3, h4⟩ := variables_asymmetry lowerAscii
    [(js "Action", js "Originate")] [(js "foo", js "bar"), (js "baz", js "1")]
    (by decide) (by decide) (by decide) (by decide) (by decide) (by decide) (by decide)
    (by decide) (by decide)
  exact ⟨text, m', h1, h2, h3, (h4 (js "baz", js "1") (by decide)).trans (by decide)⟩

/-! ## Value-preserving round trip -/

/-- C18 (value-preserving round trip): for every message reached from a fresh one by
any sequence of `set` calls, assignments to the Variables mapping and `unmarshall`
calls, whose `EOL` is the delimiter stored by the constructor and whose Variables
mapping is empty, that holds at least one field (an own property other than `lines`,
`EOL`, `variables`), whose field names are non-empty, lowercase, contain no hyphen,
colon, CR, LF or marker and are none of `set`, `get`, `marshall`, `unmarshall`, and
whose values contain no CR, LF or marker and have no leading or trailing whitespace
(colons allowed): the method `marshall` is not shadowed and returns a text,
unmarshalling that text into a fresh message completes, and on the decoded message the
call `get(k)` returns `v` for every field `(k, v)` of the message. -/
theorem value_round_trip (toLowerCase : Str → Str) (calls : List Call)
    (hlow : toLowerCase [] = [])
    (hcase : toLowerCase (js "hasOwnProperty") ≠ js "hasOwnProperty")
    (heol : (reached toLowerCase calls).own (js "EOL") = some (.str CRLF))
    (hvars : (reached toLowerCase calls).own (js "variables") = some (.obj []))
    (hfield : ∃ k s, (reached toLowerCase calls).own k = some (.str s) ∧
      k ∉ [js "lines", js "EOL", js "variables"])
    (hfields : ∀ k s, (reached toLowerCase calls).own k = some (.str s) →
      k ∉ [js "lines", js "EOL", js "variables"] →
      k ≠ [] ∧ toLowerCase k = k ∧ 45 ∉ k ∧ 58 ∉ k ∧ 13 ∉ k ∧ 10 ∉ k ∧
      ¬ END_COMMAND <:+: k ∧ k ∉ [js "set", js "get", js "marshall", js "unmarshall"] ∧
      13 ∉ s ∧ 10 ∉ s ∧ ¬ END_COMMAND <:+: s ∧ NoLeadingSpace s ∧ NoTrailingSpace s) :
    ∃ text m', (reached toLowerCase calls).own (js "marshall") = none ∧
      (reached toLowerCase calls).marshall = some text ∧
      Message.unmarshall toLowerCase Message.new text = .returned m' ∧
      ∀ k s, (reached toLowerCase calls).own k = some (.str s) →
        k ∉ [js "lines", js "EOL", js "variables"] →
        m'.callGet k = some (.own (.str s)) := by
  obtain ⟨hnodup, hproto, hstr⟩ := regular_reached toLowerCase calls
  generalize reached toLowerCase calls = m at *
  have hstring : ∀ k v, m.own k = some v → k ∉ [js "lines", js "EOL", js "variables"] →
      ∃ s, v = .str s := by
    intro k v hown hk
    simp only [List.mem_cons, List.mem_singleton, List.not_mem_nil, or_false, not_or] at hk
    have := hstr (k, v) (lookupProp_of_mem_pair k v _ hown) hk.1 hk.2.2
    cases v with
    | str s => exact ⟨s, rfl⟩
    | arr _ => exact Bool.noConfusion this
    | obj _ => exact Bool.noConfusion this
  have habsent : ∀ k, k ∉ [js "lines", js "EOL", js "variables"] →
      (toLowerCase k ≠ k ∨ k ∈ [js "set", js "get", js "marshall", js "unmarshall"]) →
      m.own k = none := by
    intro k hk hbad
    cases hown : m.own k with
    | none => rfl
    | some v =>
      exfalso
      obtain ⟨s, rfl⟩ := hstring k v hown hk
      obtain ⟨-, h2, -, -, -, -, -, h8, -⟩ := hfields k s hown hk
      rcases hbad with h | h
      · exact h h2
      · exact h8 h
  have hhas : m.own (js "hasOwnProperty") = none :=
    habsent _ (by decide) (Or.inl hcase)
  have hmar : m.own (js "marshall") = none := habsent _ (by decide) (Or.inr (by decide))
  obtain ⟨E, hEnodup, hE, hEmem, htext⟩ := marshall_of_fields m hnodup hhas heol hvars
  have hEown : ∀ p ∈ E, m.own p.1 = some (.str p.2) ∧
      p.1 ∉ [js "lines", js "EOL", js "variables"] := by
    intro p hp
    obtain ⟨hr, v, hv, hp2⟩ := hE p hp
    obtain ⟨s, rfl⟩ := hstring p.1 v hv hr
    exact ⟨by rw [hv, hp2]; rfl, hr⟩
  have hne : E ≠ [] := by
    obtain ⟨k, s, hks, hk⟩ := hfield
    intro e
    have := hEmem k _ hks hk
    rw [e] at this
    exact List.not_mem_nil _ this
  obtain ⟨m', hun, hget, hall⟩ := round_trip_lines toLowerCase E hlow hne hEnodup
    (fun p hp => by
      obtain ⟨ho, hr⟩ := hEown p hp
      obtain ⟨h1, h2, h3, h4, -, h6, h7, h8, -⟩ := hfields p.1 p.2 ho hr
      refine ⟨h4, h6, h7, normaliseName_of_plain toLowerCase p.1 h2 h3, ?_⟩
      have hp0 : p.1 ≠ js "__proto__" := by
        intro e
        apply hproto
        rw [← e]
        exact lookupProp_mem _ _ _ ho
      simp only [List.mem_cons, List.mem_singleton, List.not_mem_nil, or_false,
        not_or] at h8 hr ⊢
      exact ⟨h1, h8.1, h8.2.1, hr.1, hp0⟩)
    (fun p hp => by
      obtain ⟨ho, hr⟩ := hEown p hp
      obtain ⟨-, -, -, -, -, -, -, -, -, h10, h11, h12, h13⟩ := hfields p.1 p.2 ho hr
      exact ⟨h10, h11, h12, h13⟩)
  refine ⟨_, m', hmar, htext, hun, ?_⟩
  intro k s hks hk
  have := hall (k, s) (hEmem k _ hks hk)
  simp only at this
  unfold Message.callGet
  rw [hget]
  simp only [Option.isSome_none, Bool.false_eq_true, if_false]
  rw [get_of_own m' k _ this]

/-- Witness of C18: a message that decoded `response: ok` and then got a secret holding
colons. -/
theorem value_round_trip_witness :
    (reached lowerAscii [.unmarshall (js "response: ok"),
      .set (js "secret") (js "a:b:c")]).marshall =
      some (js "response: ok\r\nsecret: a:b:c\r\n\r\n") ∧
    ∃ text m', (reached lowerAscii [.unmarshall (js "response: ok"),
        .set (js "secret") (js "a:b:c")]).marshall = some text ∧
      Message.unmarshall lowerAscii Message.new text = .returned m' ∧
      m'.callGet (js "response") = some (.own (.str (js "ok"))) ∧
      m'.callGet (js "secret") = some (.own (.str (js "a:b:c"))) := by
  refine ⟨by decide, ?_⟩
  have hprops : (reached lowerAscii [.unmarshall (js "response: ok"),
      .set (js "secret") (js "a:b:c")]).props =
      [(js "lines", .arr [js "response: ok"]), (js "EOL", .str CRLF),
        (js "variables", .obj []), (js "response", .str (js "ok")),
        (js "secret", .str (js "a:b:c"))] := by decide
  obtain ⟨text, m', -, h1, h2, h3⟩ := value_round_trip lowerAscii
    [.unmarshall (js "response: ok"), .set (js "secret") (js "a:b:c")]
    (by decide) (by decide) (by decide) (by decide)
    ⟨js "response", js "ok", by decide, by decide⟩
    (by
      intro k s hks hk
      have hmem := lookupProp_of_mem_pair k (Value.str s) _ hks
      rw [hprops] at hmem
      simp only [List.mem_cons, Prod.mk.injEq, List.mem_singleton, List.not_mem_nil,
        or_false] at hmem
      rcases hmem with ⟨-, h⟩ | ⟨hke, -⟩ | ⟨-, h⟩ | ⟨rfl, h⟩ | ⟨rfl, h⟩
      · exact Value.noConfusion h
      · exact absurd (by rw [hke]; simp) hk
      · exact Value.noConfusion h
      · simp only [Value.str.injEq] at h
        subst h
        decide
      · simp only [Value.str.injEq] at h
        subst h
        decide)
  exact ⟨text, m', h1, h2, h3 _ _ (by decide) (by decide), h3 _ _ (by decide) (by decide)⟩

end Nami
